import Mathlib

/-!
Verification of the polymarkets repository core: the response repair engine
(src/synth.py), the domain aggregator (src/synth.py, src/clean.py), the
analysis request builder and concurrent batch dispatcher (src/ifk/analyze.py),
and the top-level input loader (src/clean.py, src/test2.py).

The Python code is shallowly embedded: JSON documents become the `Json`
inductive type, Python's `json.loads` becomes the fuel-indexed recursive
descent function `parseValue` (mirroring CPython's pure-Python scanner,
including its error classes and the error position for unterminated strings,
which the repair code inspects), `json.dumps` becomes `dumpJson`, and the
remote endpoint of the dispatcher becomes an explicit response oracle.
Stateful behaviour (the in-place `list.sort` on a record's detail list) is
embedded by returning the new contents of the mutated list alongside the
function result.
-/

namespace PM

/-- Python whitespace recognised by `str.strip` and the json scanner uses a
subset; this is the json scanner set, namely space, tab, newline, carriage
return. -/
def isJsonWs (c : Char) : Bool :=
  c = ' ' || c = '\t' || c = '\n' || c = '\r'

/-- Whitespace stripped by Python's `str.strip()` with no arguments. -/
def isPyWs (c : Char) : Bool :=
  c = ' ' || c = '\t' || c = '\n' || c = '\r' || c = '\x0b' || c = '\x0c'

/-- ASCII decimal digit test. -/
def isDigitC (c : Char) : Bool :=
  '0' ≤ c && c ≤ '9'

/-- ASCII lower-casing, as Python's `str.lower` acts on ASCII letters. -/
def lowerC (c : Char) : Char :=
  if 'A' ≤ c && c ≤ 'Z' then Char.ofNat (c.toNat + 32) else c

/-- Python `s.lower()` restricted to ASCII input. -/
def pyLower (s : String) : String :=
  ⟨s.data.map lowerC⟩

/-- Drop leading characters satisfying `p` (one side of `str.strip`). -/
def dropWhileC (p : Char → Bool) : List Char → List Char
  | [] => []
  | c :: cs => if p c then dropWhileC p cs else c :: cs

/-- Python `str.strip()` on the character list: drop trailing whitespace
(via the reversal), then leading whitespace. -/
def pyStripL (cs : List Char) : List Char :=
  dropWhileC isPyWs ((dropWhileC isPyWs cs.reverse).reverse)

/-- Python `str.strip()`. -/
def pyStrip (s : String) : String :=
  ⟨pyStripL s.data⟩

/-- Python `str.encode('ascii', 'ignore').decode()`: drop non-ASCII characters. -/
def asciiIgnore (s : String) : String :=
  ⟨s.data.filter (fun c => c.toNat < 128)⟩

/-- Worker for Python `str.replace` with a nonempty pattern: leftmost,
non-overlapping, continuing after each replacement. The fuel (one unit per
consumed character) makes the recursion structural; the wrapper supplies
enough for any input. -/
def pyReplaceAux (pat rep : List Char) : Nat → List Char → List Char
  | _, [] => []
  | 0, cs => cs
  | fuel + 1, c :: cs =>
    if pat.isPrefixOf (c :: cs) then
      rep ++ pyReplaceAux pat rep fuel ((c :: cs).drop pat.length)
    else
      c :: pyReplaceAux pat rep fuel cs

/-- Python `str.replace(pat, rep)`; the empty-pattern case never occurs in
the repository. -/
def pyReplaceL (pat rep cs : List Char) : List Char :=
  match pat with
  | [] => cs
  | _ :: _ => pyReplaceAux pat rep cs.length cs

/-- Python `str.replace(pat, rep)` (for nonempty `pat`). -/
def pyReplace (s pat rep : String) : String :=
  ⟨pyReplaceL pat.data rep.data s.data⟩

/-- Python `str.split(sep)` for a single-character separator. -/
def splitOnC (sep : Char) : List Char → List (List Char)
  | [] => [[]]
  | c :: cs =>
    let rest := splitOnC sep cs
    if c = sep then [] :: rest
    else
      match rest with
      | [] => [[c]]
      | r :: rs => (c :: r) :: rs

/-- Python `sep.join(parts)` for a single-character separator. -/
def joinOnC (sep : Char) : List (List Char) → List Char
  | [] => []
  | [p] => p
  | p :: ps => p ++ sep :: joinOnC sep ps

/-- Index of the last occurrence of `pat` in `cs` (Python `str.rfind`),
`none` when absent. -/
def rfindL (pat : List Char) : List Char → Option Nat
  | [] => if pat = [] then some 0 else none
  | c :: cs =>
    match rfindL pat cs with
    | some i => some (i + 1)
    | none => if pat.isPrefixOf (c :: cs) then some 0 else none

/-- Python `str.rfind` returning an option instead of `-1`. -/
def pyRfind (s pat : String) : Option Nat :=
  rfindL pat.data s.data

/-- Substring containment, Python's `pat in s`. -/
def containsSub (s pat : String) : Bool :=
  (pyRfind s pat).isSome

/-- Exact decimal numbers `mant / 10 ^ exp`, the abstraction of Python
floats used throughout: every float the repository manipulates originates
from a decimal literal, and all arithmetic the code performs on them stays
decimal. Kept unnormalised so that every operation is plain integer
arithmetic the kernel can evaluate. -/
structure PDec where
  mant : Int
  exp : Nat
deriving DecidableEq

/-- The rational value of a decimal. -/
def PDec.toRat (d : PDec) : ℚ :=
  (d.mant : ℚ) / (10 : ℚ) ^ d.exp

/-- Value order on decimals, by cross multiplication. -/
def PDec.le (a b : PDec) : Prop :=
  a.mant * Int.pow 10 b.exp ≤ b.mant * Int.pow 10 a.exp

instance (a b : PDec) : Decidable (PDec.le a b) :=
  inferInstanceAs (Decidable (_ ≤ _))

/-- Value equality on decimals, by cross multiplication. -/
def PDec.veq (a b : PDec) : Prop :=
  a.mant * Int.pow 10 b.exp = b.mant * Int.pow 10 a.exp

instance (a b : PDec) : Decidable (PDec.veq a b) :=
  inferInstanceAs (Decidable (_ = _))

/-- A decimal from an integer. -/
def PDec.ofInt (n : Int) : PDec :=
  ⟨n, 0⟩

/-- `Int.pow` agrees with the monoid power. -/
theorem intPow_eq (b : Int) (k : Nat) : Int.pow b k = b ^ k := by
  induction k with
  | zero => rfl
  | succ n ih => rw [pow_succ, ← ih]; rfl

/-- Powers of ten are positive. -/
theorem pow10_pos (k : Nat) : (0 : Int) < Int.pow 10 k := by
  rw [intPow_eq]; positivity

/-- The order on decimals matches the rational order. -/
theorem PDec.le_iff (a b : PDec) : PDec.le a b ↔ a.toRat ≤ b.toRat := by
  unfold PDec.le PDec.toRat
  rw [div_le_div_iff (by positivity) (by positivity)]
  rw [intPow_eq, intPow_eq]
  constructor
  · intro h
    calc (a.mant : ℚ) * (10 : ℚ) ^ b.exp = ((a.mant * 10 ^ b.exp : Int) : ℚ) := by
          push_cast; ring
      _ ≤ ((b.mant * 10 ^ a.exp : Int) : ℚ) := by exact_mod_cast h
      _ = (b.mant : ℚ) * (10 : ℚ) ^ a.exp := by push_cast; ring
  · intro h
    have h2 : ((a.mant * 10 ^ b.exp : Int) : ℚ) ≤ ((b.mant * 10 ^ a.exp : Int) : ℚ) := by
      calc ((a.mant * 10 ^ b.exp : Int) : ℚ) = (a.mant : ℚ) * (10 : ℚ) ^ b.exp := by
            push_cast; ring
        _ ≤ (b.mant : ℚ) * (10 : ℚ) ^ a.exp := h
        _ = ((b.mant * 10 ^ a.exp : Int) : ℚ) := by push_cast; ring
    exact_mod_cast h2

/-- Value equality on decimals matches rational equality. -/
theorem PDec.veq_iff (a b : PDec) : PDec.veq a b ↔ a.toRat = b.toRat := by
  constructor
  · intro h
    exact le_antisymm ((PDec.le_iff a b).mp (le_of_eq h))
      ((PDec.le_iff b a).mp (le_of_eq h.symm))
  · intro h
    exact le_antisymm ((PDec.le_iff a b).mpr (le_of_eq h))
      ((PDec.le_iff b a).mpr (le_of_eq h.symm))

/-- JSON values as produced by Python's `json` module: `int` and `float` are
kept apart because the repository tests `isinstance(x, (int, float))` and
re-serialises values. Python floats are abstracted as the exact decimals
they were parsed from. `NaN`/`Infinity` extensions of the Python parser are
not modelled; no claim exercises them. -/
inductive Json where
  | null : Json
  | bool (b : Bool) : Json
  | int (n : Int) : Json
  | float (q : PDec) : Json
  | str (s : String) : Json
  | arr (elems : List Json) : Json
  | obj (members : List (String × Json)) : Json

mutual

/-- Boolean structural equality on json values. -/
def jeq : Json → Json → Bool
  | .null, .null => true
  | .bool a, .bool b => a == b
  | .int a, .int b => a == b
  | .float a, .float b => decide (a = b)
  | .str a, .str b => a == b
  | .arr l1, .arr l2 => jeqL l1 l2
  | .obj m1, .obj m2 => jeqM m1 m2
  | _, _ => false

/-- Boolean equality on json lists. -/
def jeqL : List Json → List Json → Bool
  | [], [] => true
  | x :: xs, y :: ys => jeq x y && jeqL xs ys
  | _, _ => false

/-- Boolean equality on json members. -/
def jeqM : List (String × Json) → List (String × Json) → Bool
  | [], [] => true
  | (k1, v1) :: xs, (k2, v2) :: ys => k1 == k2 && jeq v1 v2 && jeqM xs ys
  | _, _ => false

end

mutual

/-- `jeq` decides equality. -/
theorem jeq_iff : ∀ (a b : Json), jeq a b = true ↔ a = b
  | .null, .null => by simp [jeq]
  | .bool a, .bool b => by simp [jeq]
  | .int a, .int b => by simp [jeq]
  | .float a, .float b => by simp [jeq]
  | .str a, .str b => by simp [jeq]
  | .arr l1, .arr l2 => by
    rw [show jeq (.arr l1) (.arr l2) = jeqL l1 l2 from rfl]
    rw [jeqL_iff l1 l2]
    simp
  | .obj m1, .obj m2 => by
    rw [show jeq (.obj m1) (.obj m2) = jeqM m1 m2 from rfl]
    rw [jeqM_iff m1 m2]
    simp
  | .null, .bool _ | .null, .int _ | .null, .float _ | .null, .str _
  | .null, .arr _ | .null, .obj _ => by simp [jeq]
  | .bool _, .null | .bool _, .int _ | .bool _, .float _ | .bool _, .str _
  | .bool _, .arr _ | .bool _, .obj _ => by simp [jeq]
  | .int _, .null | .int _, .bool _ | .int _, .float _ | .int _, .str _
  | .int _, .arr _ | .int _, .obj _ => by simp [jeq]
  | .float _, .null | .float _, .bool _ | .float _, .int _ | .float _, .str _
  | .float _, .arr _ | .float _, .obj _ => by simp [jeq]
  | .str _, .null | .str _, .bool _ | .str _, .int _ | .str _, .float _
  | .str _, .arr _ | .str _, .obj _ => by simp [jeq]
  | .arr _, .null | .arr _, .bool _ | .arr _, .int _ | .arr _, .float _
  | .arr _, .str _ | .arr _, .obj _ => by simp [jeq]
  | .obj _, .null | .obj _, .bool _ | .obj _, .int _ | .obj _, .float _
  | .obj _, .str _ | .obj _, .arr _ => by simp [jeq]

/-- `jeqL` decides equality. -/
theorem jeqL_iff : ∀ (l1 l2 : List Json), jeqL l1 l2 = true ↔ l1 = l2
  | [], [] => by simp [jeqL]
  | [], _ :: _ => by simp [jeqL]
  | _ :: _, [] => by simp [jeqL]
  | x :: xs, y :: ys => by
    rw [show jeqL (x :: xs) (y :: ys) = (jeq x y && jeqL xs ys) from rfl]
    rw [Bool.and_eq_true, jeq_iff x y, jeqL_iff xs ys]
    simp

/-- `jeqM` decides equality. -/
theorem jeqM_iff : ∀ (l1 l2 : List (String × Json)), jeqM l1 l2 = true ↔ l1 = l2
  | [], [] => by simp [jeqM]
  | [], _ :: _ => by simp [jeqM]
  | _ :: _, [] => by simp [jeqM]
  | (k1, v1) :: xs, (k2, v2) :: ys => by
    rw [show jeqM ((k1, v1) :: xs) ((k2, v2) :: ys) =
      (k1 == k2 && jeq v1 v2 && jeqM xs ys) from rfl]
    rw [Bool.and_eq_true, Bool.and_eq_true, jeq_iff v1 v2, jeqM_iff xs ys]
    simp [Prod.ext_iff, and_assoc]

end

instance : DecidableEq Json := fun a b => decidable_of_iff _ (jeq_iff a b)

instance {ε α : Type} [DecidableEq ε] [DecidableEq α] :
    DecidableEq (Except ε α) := fun a b =>
  match a, b with
  | .ok x, .ok y =>
    if h : x = y then .isTrue (by rw [h]) else
      .isFalse (fun hc => h (Except.ok.inj hc))
  | .error x, .error y =>
    if h : x = y then .isTrue (by rw [h]) else
      .isFalse (fun hc => h (Except.error.inj hc))
  | .ok _, .error _ => .isFalse (fun hc => Except.noConfusion hc)
  | .error _, .ok _ => .isFalse (fun hc => Except.noConfusion hc)

/-- Python dict insertion: an existing key keeps its position and takes the
new value, a fresh key is appended. -/
def objInsert (kvs : List (String × Json)) (k : String) (v : Json) :
    List (String × Json) :=
  if kvs.any (fun p => p.1 = k) then
    kvs.map (fun p => if p.1 = k then (k, v) else p)
  else kvs ++ [(k, v)]

/-- Python `d[k]` / successful `d.get(k)` on a dict: first (unique) binding. -/
def jget (j : Json) (k : String) : Option Json :=
  match j with
  | .obj kvs => (kvs.find? (fun p => p.1 = k)).map (fun p => p.2)
  | _ => none

/-- Python `d.get(k, default)` on a dict value. -/
def jgetD (j : Json) (k : String) (d : Json) : Json :=
  (jget j k).getD d

/-- Python `k in d` on a dict value. -/
def jhasKey (j : Json) (k : String) : Bool :=
  (jget j k).isSome

/-- Python truthiness of a json value. -/
def truthy : Json → Bool
  | .null => false
  | .bool b => b
  | .int n => decide (n ≠ 0)
  | .float q => decide (q.mant ≠ 0)
  | .str s => decide (s ≠ "")
  | .arr l => !l.isEmpty
  | .obj kvs => !kvs.isEmpty

/-- Error classes raised by CPython's json scanner that the repository's
repair code distinguishes (by substring tests on `str(e)`). -/
inductive JErrKind where
  | expValue
  | expPropName
  | expColon
  | expComma
  | untermString
  | invalidControl
  | invalidEscape
  | extraData
  | fuelOut
deriving DecidableEq

/-- A decode error: its class and its reported character position. Only the
position of `untermString` (the index of the opening quote, as CPython
reports for "Unterminated string starting at") is inspected by the repair. -/
structure JErr where
  kind : JErrKind
  pos : Nat
deriving DecidableEq

/-- Skip json whitespace, tracking the character position. -/
def skipWs : List Char → Nat → List Char × Nat
  | [], p => ([], p)
  | c :: cs, p => if isJsonWs c then skipWs cs (p + 1) else (c :: cs, p)

/-- Escape table of CPython's `py_scanstring` (`\uXXXX` handled separately). -/
def escMap (c : Char) : Option Char :=
  if c = '"' then some '"'
  else if c = '\\' then some '\\'
  else if c = '/' then some '/'
  else if c = 'b' then some '\x08'
  else if c = 'f' then some '\x0c'
  else if c = 'n' then some '\n'
  else if c = 'r' then some '\r'
  else if c = 't' then some '\t'
  else none

/-- Hex digit value. -/
def hexVal (c : Char) : Option Nat :=
  if '0' ≤ c && c ≤ '9' then some (c.toNat - 48)
  else if 'a' ≤ c && c ≤ 'f' then some (c.toNat - 87)
  else if 'A' ≤ c && c ≤ 'F' then some (c.toNat - 55)
  else none

/-- String body scanner (after the opening quote), mirroring `py_scanstring`
in strict mode: `bg` is the position of the opening quote, reported by the
"Unterminated string" error. Returns the decoded string, the remaining
characters and the position just past the closing quote. -/
def parseStrChars (bg : Nat) : List Char → Nat → List Char →
    Except JErr (String × List Char × Nat)
  | [], _, _ => .error ⟨.untermString, bg⟩
  | c :: cs, p, acc =>
    if c = '"' then .ok (⟨acc.reverse⟩, cs, p + 1)
    else if c = '\\' then
      match cs with
      | [] => .error ⟨.untermString, bg⟩
      | e :: cs2 =>
        if e = 'u' then
          match cs2 with
          | h1 :: h2 :: h3 :: h4 :: cs3 =>
            match hexVal h1, hexVal h2, hexVal h3, hexVal h4 with
            | some a, some b, some c3, some d =>
              parseStrChars bg cs3 (p + 6)
                (Char.ofNat (((a * 16 + b) * 16 + c3) * 16 + d) :: acc)
            | _, _, _, _ => .error ⟨.invalidEscape, p + 1⟩
          | _ => .error ⟨.invalidEscape, p + 1⟩
        else
          match escMap e with
          | some d => parseStrChars bg cs2 (p + 2) (d :: acc)
          | none => .error ⟨.invalidEscape, p⟩
    else if c.toNat < 32 then .error ⟨.invalidControl, p⟩
    else parseStrChars bg cs (p + 1) (c :: acc)

/-- Greedy digit run: the digits and the remainder. -/
def takeDigits : List Char → List Char × List Char
  | [] => ([], [])
  | c :: cs =>
    if isDigitC c then
      let r := takeDigits cs
      (c :: r.1, r.2)
    else ([], c :: cs)

/-- Numeric value of a digit run (most significant first). -/
def digitsVal (ds : List Char) : Nat :=
  ds.foldl (fun a c => 10 * a + (c.toNat - 48)) 0

/-- Exponent suffix of CPython's `NUMBER_RE`: `([eE][-+]?\d+)?`. Returns the
exponent and the remainder, or `none` when the optional group does not match
(in which case nothing is consumed). -/
def parseExpPart : List Char → Option (Int × List Char)
  | c :: cs =>
    if c = 'e' || c = 'E' then
      match cs with
      | s :: cs2 =>
        if s = '+' then
          match takeDigits cs2 with
          | ([], _) => none
          | (ds, r) => some ((digitsVal ds : Int), r)
        else if s = '-' then
          match takeDigits cs2 with
          | ([], _) => none
          | (ds, r) => some (-(digitsVal ds : Int), r)
        else
          match takeDigits cs with
          | ([], _) => none
          | (ds, r) => some ((digitsVal ds : Int), r)
      | [] => none
    else none
  | [] => none

/-- Fraction suffix of `NUMBER_RE`: `(\.\d+)?`. -/
def parseFracPart : List Char → Option (List Char × List Char)
  | '.' :: cs =>
    match takeDigits cs with
    | ([], _) => none
    | (ds, r) => some (ds, r)
  | _ => none

/-- Integer part of `NUMBER_RE`: `(?:0|[1-9]\d*)`. -/
def parseIntPart : List Char → Option (List Char × List Char)
  | '0' :: cs => some (['0'], cs)
  | c :: cs =>
    if isDigitC c then
      let r := takeDigits cs
      some (c :: r.1, r.2)
    else none
  | [] => none

/-- Scale a nonnegative decimal by `10 ^ eN` with a possibly negative
exponent. -/
def scaleByExp (m : PDec) (eN : Int) : PDec :=
  if 0 ≤ eN then ⟨m.mant * Int.pow 10 eN.toNat, m.exp⟩
  else ⟨m.mant, m.exp + (-eN).toNat⟩

/-- Number scanning as in CPython's json scanner: a regex match for the
integer/fraction/exponent parts; an integer literal yields a Python `int`,
any fraction or exponent yields a `float` (modelled as the exact decimal of
the literal). `p` is the position of the first character of the literal
(including the optional sign handled here). -/
def parseNumber (cs : List Char) (p : Nat) :
    Except JErr (Json × List Char × Nat) :=
  let sign : Bool × List Char × Nat :=
    match cs with
    | '-' :: cs1 => (true, cs1, p + 1)
    | _ => (false, cs, p)
  match parseIntPart sign.2.1 with
  | none => .error ⟨.expValue, p⟩
  | some (ids, r1) =>
    let p1 := sign.2.2 + ids.length
    let frac := parseFracPart r1
    let fds : List Char := match frac with | some (ds, _) => ds | none => []
    let r2 : List Char := match frac with | some (_, r) => r | none => r1
    let p2 := match frac with | some (ds, _) => p1 + 1 + ds.length | none => p1
    let ex := parseExpPart r2
    let eN : Int := match ex with | some (e, _) => e | none => 0
    let r3 : List Char := match ex with | some (_, r) => r | none => r2
    let p3 := p2 + (r2.length - r3.length)
    if frac.isNone && ex.isNone then
      let n : Int := if sign.1 then -(digitsVal ids : Int) else (digitsVal ids : Int)
      .ok (.int n, r1, p1)
    else
      let mag : PDec := scaleByExp ⟨(digitsVal (ids ++ fds) : Int), fds.length⟩ eN
      let q : PDec := if sign.1 then ⟨-mag.mant, mag.exp⟩ else mag
      .ok (.float q, r3, p3)

mutual

/-- Value scanner mirroring CPython's `_scan_once` (strict mode, default
hooks), with an explicit fuel argument for termination; every recursive call
decreases the fuel, and `pyLoads` supplies more fuel than any input can
consume. End of input or an unrecognised character raises the
"Expecting value" class (via `StopIteration` in CPython). -/
def parseValue : Nat → List Char → Nat → Except JErr (Json × List Char × Nat)
  | 0, _, p => .error ⟨.fuelOut, p⟩
  | fuel + 1, cs, p =>
    match cs with
    | [] => .error ⟨.expValue, p⟩
    | c :: cs1 =>
      if c = '"' then
        match parseStrChars p cs1 (p + 1) [] with
        | .ok (s, r, p2) => .ok (.str s, r, p2)
        | .error e => .error e
      else if c = '{' then
        match skipWs cs1 (p + 1) with
        | (r1, p1) =>
          match r1 with
          | '}' :: r2 => .ok (.obj [], r2, p1 + 1)
          | '"' :: r2 => parseMembers fuel [] r2 (p1 + 1) p1
          | _ => .error ⟨.expPropName, p1⟩
      else if c = '[' then
        match skipWs cs1 (p + 1) with
        | (r1, p1) =>
          match r1 with
          | ']' :: r2 => .ok (.arr [], r2, p1 + 1)
          | _ => parseItems fuel [] r1 p1
      else if c = 't' && ['r', 'u', 'e'].isPrefixOf cs1 then
        .ok (.bool true, cs1.drop 3, p + 4)
      else if c = 'f' && ['a', 'l', 's', 'e'].isPrefixOf cs1 then
        .ok (.bool false, cs1.drop 4, p + 5)
      else if c = 'n' && ['u', 'l', 'l'].isPrefixOf cs1 then
        .ok (.null, cs1.drop 3, p + 4)
      else if c = '-' || isDigitC c then
        parseNumber (c :: cs1) p
      else .error ⟨.expValue, p⟩
termination_by structural fuel _ _ => fuel

/-- Object member loop of CPython's `JSONObject`: entered just past the
opening quote of a key (at position `p`; the quote itself is at `kq`).
Duplicate keys behave like repeated Python dict insertion. -/
def parseMembers : Nat → List (String × Json) → List Char → Nat → Nat →
    Except JErr (Json × List Char × Nat)
  | 0, _, _, p, _ => .error ⟨.fuelOut, p⟩
  | fuel + 1, acc, cs, p, kq =>
    match parseStrChars kq cs p [] with
    | .error e => .error e
    | .ok (key, r1, p1) =>
      let colon : Except JErr (List Char × Nat) :=
        match r1 with
        | ':' :: r2 => .ok (r2, p1 + 1)
        | _ =>
          match skipWs r1 p1 with
          | (':' :: r2, p2) => .ok (r2, p2 + 1)
          | (_, p2) => .error ⟨.expColon, p2⟩
      match colon with
      | .error e => .error e
      | .ok (r2, p2) =>
        match skipWs r2 p2 with
        | (r3, p3) =>
          match parseValue fuel r3 p3 with
          | .error e => .error e
          | .ok (v, r4, p4) =>
            let acc1 := objInsert acc key v
            match skipWs r4 p4 with
            | ('}' :: r5, p5) => .ok (.obj acc1, r5, p5 + 1)
            | (',' :: r5, p5) =>
              match skipWs r5 (p5 + 1) with
              | ('"' :: r6, p6) => parseMembers fuel acc1 r6 (p6 + 1) p6
              | (_, p6) => .error ⟨.expPropName, p6⟩
            | (_, p5) => .error ⟨.expComma, p5⟩
termination_by structural fuel _ _ _ _ => fuel

/-- Array element loop of CPython's `JSONArray`, entered at the first
character of an element. -/
def parseItems : Nat → List Json → List Char → Nat →
    Except JErr (Json × List Char × Nat)
  | 0, _, _, p => .error ⟨.fuelOut, p⟩
  | fuel + 1, acc, cs, p =>
    match parseValue fuel cs p with
    | .error e => .error e
    | .ok (v, r1, p1) =>
      match skipWs r1 p1 with
      | (']' :: r2, p2) => .ok (.arr (acc ++ [v]), r2, p2 + 1)
      | (',' :: r2, p2) =>
        match skipWs r2 (p2 + 1) with
        | (r3, p3) => parseItems fuel (acc ++ [v]) r3 p3
      | (_, p2) => .error ⟨.expComma, p2⟩
termination_by structural fuel _ _ _ => fuel

end

/-- Python `json.loads`: skip leading whitespace, scan one value, skip
trailing whitespace, and reject leftovers as "Extra data". The fuel
`2 * length + 4` exceeds what the scanner can consume on any input. -/
def pyLoads (s : String) : Except JErr Json :=
  let cs := s.data
  match skipWs cs 0 with
  | (cs1, p1) =>
    match parseValue (2 * cs.length + 4) cs1 p1 with
    | .error e => .error e
    | .ok (v, rest, p2) =>
      match skipWs rest p2 with
      | ([], _) => .ok v
      | (_, p3) => .error ⟨.extraData, p3⟩

/-- Lower-case hex digit. -/
def hexDigitC (n : Nat) : Char :=
  if n < 10 then Char.ofNat (48 + n) else Char.ofNat (87 + n)

/-- Four-digit `\uXXXX` escape used by `json.dumps` with `ensure_ascii`. -/
def uEscape (n : Nat) : List Char :=
  ['\\', 'u', hexDigitC (n / 4096 % 16), hexDigitC (n / 256 % 16),
    hexDigitC (n / 16 % 16), hexDigitC (n % 16)]

/-- Escaping of one character by `json.dumps` (default `ensure_ascii=True`):
everything outside printable ASCII is escaped, with the usual shorthands. -/
def escChar (c : Char) : List Char :=
  if c = '"' then ['\\', '"']
  else if c = '\\' then ['\\', '\\']
  else if c = '\n' then ['\\', 'n']
  else if c = '\r' then ['\\', 'r']
  else if c = '\t' then ['\\', 't']
  else if c = '\x08' then ['\\', 'b']
  else if c = '\x0c' then ['\\', 'f']
  else if c.toNat < 32 || c.toNat > 126 then uEscape c.toNat
  else [c]

/-- `json.dumps` rendering of a string. -/
def dumpStr (s : String) : List Char :=
  '"' :: (s.data.flatMap escChar) ++ ['"']

/-- Decimal digits of a natural number, most significant first; the fuel
(one unit per digit, `n` itself is plenty) keeps the recursion structural. -/
def natDigitsAux : Nat → Nat → List Char
  | _, 0 => []
  | 0, _ => []
  | fuel + 1, n => natDigitsAux fuel (n / 10) ++ [Char.ofNat (48 + n % 10)]

/-- Decimal digits of a natural number, most significant first (empty for
zero). -/
def natDigits (n : Nat) : List Char :=
  natDigitsAux n n

/-- Decimal digits with `"0"` for zero. -/
def natDigits0 (n : Nat) : List Char :=
  if n = 0 then ['0'] else natDigits n

/-- Python `repr` of an integer. -/
def intRepr (n : Int) : List Char :=
  if n = 0 then ['0']
  else if n < 0 then '-' :: natDigits n.natAbs
  else natDigits n.natAbs

/-- Rendering of a Python float from its exact decimal: integer part, then
the fractional digits with trailing zeros removed (Python's `repr` prints
the shortest decimal recovering the double; on the terminating decimals the
repository manipulates the two agree). -/
def floatRepr (d : PDec) : List Char :=
  let am : Nat := d.mant.natAbs
  let p : Nat := 10 ^ d.exp
  let ip := am / p
  let fr := am % p
  let sign : List Char := if d.mant < 0 then ['-'] else []
  if fr = 0 then sign ++ natDigits0 ip ++ ['.', '0']
  else
    let frDigits := natDigits0 fr
    let padded := List.replicate (d.exp - frDigits.length) '0' ++ frDigits
    let trimmed := (dropWhileC (fun c => c = '0') padded.reverse).reverse
    sign ++ natDigits0 ip ++ '.' :: trimmed

mutual

/-- `json.dumps` with default arguments (separators `", "` and `": "`,
`ensure_ascii=True`), as the repair engine applies it to a dict analysis. -/
def dumpJson : Json → List Char
  | .null => "null".data
  | .bool true => "true".data
  | .bool false => "false".data
  | .int n => intRepr n
  | .float q => floatRepr q
  | .str s => dumpStr s
  | .arr l => '[' :: dumpArr l ++ [']']
  | .obj kvs => '\x7b' :: dumpMembers kvs ++ ['\x7d']

/-- Array body of `dumpJson`. -/
def dumpArr : List Json → List Char
  | [] => []
  | [x] => dumpJson x
  | x :: y :: xs => dumpJson x ++ ',' :: ' ' :: dumpArr (y :: xs)

/-- Object body of `dumpJson`. -/
def dumpMembers : List (String × Json) → List Char
  | [] => []
  | [(k, v)] => dumpStr k ++ ':' :: ' ' :: dumpJson v
  | (k, v) :: m :: kvs => dumpStr k ++ ':' :: ' ' :: dumpJson v ++ ',' :: ' ' :: dumpMembers (m :: kvs)

end

/-- `json.dumps` as a string. -/
def pyDumps (j : Json) : String :=
  ⟨dumpJson j⟩

/-- Python `float(str)` on an already-stripped numeral: optional sign, then
digits with an optional point on either side, and an optional exponent
(`inf`/`nan` forms are not modelled; the repository never passes them). The
sign of the mantissa carries the float's sign. -/
def pyFloatCore (cs : List Char) : Option PDec :=
  let sign : Bool × List Char :=
    match cs with
    | '-' :: r => (true, r)
    | '+' :: r => (false, r)
    | _ => (false, cs)
  let r0 := sign.2
  let ip := takeDigits r0
  let fp : List Char × List Char :=
    match ip.2 with
    | '.' :: r1 => takeDigits r1
    | _ => ([], ip.2)
  if ip.1 = [] && fp.1 = [] then none
  else
    let mag : PDec := ⟨(digitsVal (ip.1 ++ fp.1) : Int), fp.1.length⟩
    match fp.2 with
    | [] => some (if sign.1 then ⟨-mag.mant, mag.exp⟩ else mag)
    | e :: r2 =>
      if e = 'e' || e = 'E' then
        let es : Bool × List Char :=
          match r2 with
          | '-' :: r3 => (true, r3)
          | '+' :: r3 => (false, r3)
          | _ => (false, r2)
        match takeDigits es.2 with
        | ([], _) => none
        | (ds, []) =>
          let ex : Int := if es.1 then -(digitsVal ds : Int) else (digitsVal ds : Int)
          let v := scaleByExp mag ex
          some (if sign.1 then ⟨-v.mant, v.exp⟩ else v)
        | (_, _ :: _) => none
      else none

/-- Python `float(s)` for a string argument: strips surrounding whitespace,
then parses; `none` models `ValueError`. -/
def pyFloatOfString (s : String) : Option PDec :=
  pyFloatCore (pyStripL s.data)

/-- Python exceptions distinguished by the repository's handlers. -/
inductive PyExc where
  | valueError
  | typeError
  | attrError
  | keyError
  | indexError
deriving DecidableEq

/-- Python `float(x)` on a json value: numbers and numeric strings convert,
booleans are ints, `None` and containers raise `TypeError`, bad strings
raise `ValueError`. -/
def pyFloatJ : Json → Except PyExc PDec
  | .int n => .ok (PDec.ofInt n)
  | .float q => .ok q
  | .bool b => .ok (PDec.ofInt (if b then 1 else 0))
  | .str s =>
    match pyFloatOfString s with
    | some q => .ok q
    | none => .error .valueError
  | _ => .error .typeError

namespace Synth

/-- `synth.py clean_json_content`: strip a leading markdown fence opener and
trailing fence closer, then strip whitespace; non-string input raises inside
the function's own try block, which returns the empty string. -/
def clean_json_content (content : Json) : String :=
  match content with
  | .str s =>
    let d0 := s.data
    let d1 := if ("```json\n".data).isPrefixOf d0 then d0.drop 8 else d0
    let d2 := if ("\n```".data).isSuffixOf d1 then d1.take (d1.length - 4) else d1
    ⟨pyStripL d2⟩
  | _ => ""

/-- The lexical-normalisation chain of `parse_analysis_safely`: typo fix,
newline and escaped-newline removal, escaped-quote and doubled-quote
collapse, strip, then drop non-ASCII bytes. -/
def fixCommonIssues (s : String) : String :=
  let s1 := pyReplace s "reascoreoning" "reasoning"
  let s2 := pyReplace s1 "\n" ""
  let s3 := pyReplace s2 "\\n" ""
  let s4 := pyReplace s3 "\\\"" "\""
  let s5 := pyReplace s4 "\"\"" "\""
  asciiIgnore (pyStrip s5)

/-- The missing-colon repair of `parse_analysis_safely`: split on quotes and
prefix a colon to every part that follows a (supposed) key and does not
already start with one after stripping. -/
def fixColons (c : String) : String :=
  let parts := splitOnC '"' c.data
  let parts2 := parts.mapIdx (fun i p =>
    if i % 2 == 0 && i != 0 &&
        (match pyStripL p with | ':' :: _ => false | _ => true) then
      ':' :: p
    else p)
  ⟨joinOnC '"' parts2⟩

/-- The targeted structural repair of `parse_analysis_safely`, keyed on the
reported error class: brace/quote separators for a missing comma, a quote
insertion at the error position (plus one appended at the end) for an
unterminated string whose opening quote directly follows a colon, and the
quote re-segmentation for a missing colon. -/
def structuralRepair (e : JErr) (c : String) : String :=
  let c1 := if e.kind = .expComma then
      pyReplace (pyReplace c "\x7d \x7b" "\x7d, \x7b") "\" \"" "\", \""
    else c
  let c2 := if e.kind = .untermString then
      (if decide (0 < e.pos) && (c1.data.get? (e.pos - 1) == some ':') then
        (⟨c1.data.take e.pos ++ '"' :: c1.data.drop e.pos ++ ['"']⟩ : String)
      else c1)
    else c1
  if e.kind = .expColon then fixColons c2 else c2

/-- The four domain keys a complete analysis must carry. -/
def requiredDomainKeys : List String :=
  ["economic_indicators", "geopolitical_events", "regulatory_changes",
    "technological_developments"]

/-- Outcome of the analysis-format dispatch at the top of
`parse_analysis_safely`: return a dict directly, extract a content value to
parse, find no content, or raise (caught by the outer handler). -/
inductive ContentStep where
  | direct (d : Json)
  | content (c : Json)
  | noContent
  | exc

/-- The format dispatch of `parse_analysis_safely`: a string is the content
itself; a dict with a `choices` envelope yields
`choices[0].get('message', {}).get('content')` (exceptions on malformed
envelopes); a dict with all four domain keys is returned as is; any other
dict is re-serialised with `json.dumps`; other types leave no content. -/
def getAnalysisStep (analysis : Json) : ContentStep :=
  match analysis with
  | .str s => .content (.str s)
  | .obj _ =>
    if jhasKey analysis "choices" then
      match jgetD analysis "choices" (.arr []) with
      | .arr [] => .noContent
      | .arr (c0 :: _) =>
        match c0 with
        | .obj _ =>
          match jgetD c0 "message" (.obj []) with
          | .obj mk =>
            (match jget (.obj mk) "content" with
             | some c => .content c
             | none => .noContent)
          | _ => .exc
        | _ => .exc
      | .null => .noContent
      | .bool b => if b then .exc else .noContent
      | .int n => if n = 0 then .noContent else .exc
      | .float q => if q.mant = 0 then .noContent else .exc
      | .str s => if s = "" then .noContent else .exc
      | .obj kvs => if kvs.isEmpty then .noContent else .exc
    else
      if requiredDomainKeys.all (fun k => jhasKey analysis k) then
        .direct analysis
      else
        .content (.str (pyDumps analysis))
  | _ => .noContent

/-- `synth.py parse_analysis_safely`: extract content per format, normalise
lexically, parse, on failure apply the one structural repair keyed to the
error class and re-parse once, and return `none` on any remaining failure
(all exception paths return `none`). -/
def parse_analysis_safely (market : Json) : Option Json :=
  match market with
  | .obj _ =>
    match jget market "analysis" with
    | none => none
    | some a =>
      if !truthy a then none
      else
        match getAnalysisStep a with
        | .direct d => some d
        | .exc => none
        | .noContent => none
        | .content c =>
          if !truthy c then none
          else
            let cleaned := clean_json_content c
            if cleaned = "" then none
            else
              let cc := fixCommonIssues cleaned
              match pyLoads cc with
              | .ok v => some v
              | .error e =>
                match pyLoads (structuralRepair e cc) with
                | .ok v => some v
                | .error _ => none
  | _ => none

end Synth

namespace Clean

/-- `clean.py safe_float`: `None` (json null) and unconvertible values give
the default. -/
def safe_float (value : Json) (dflt : PDec) : PDec :=
  match value with
  | .null => dflt
  | j => match pyFloatJ j with | .ok q => q | .error _ => dflt

/-- The fixed category keys of `clean.py categorize_markets` (the source's
`category_mapping` maps each to itself). -/
def categories_keys : List String :=
  ["economic_indicators", "geopolitical_events", "regulatory_changes",
    "technological_developments"]

/-- The `market_summary` dict built by `categorize_markets` for one admitted
market and category; `none` models a raised `KeyError`/`TypeError` from the
bare `[]` accesses, which aborts the whole call. -/
def market_summary (market cd : Json) (rel : PDec) : Option Json := do
  let md ← jget market "metadata"
  let ticker ← jget md "ticker"
  let volume ← jget md "volume"
  let v24 ← jget md "volume_24hr"
  let msRaw ← jget market "markets"
  let msList ← (match msRaw with | .arr l => some l | _ => none)
  let subs ← msList.mapM (fun m => do
    let q ← jget m "question"
    let p ← jget m "probabilities"
    pure (Json.obj [("question", q), ("probabilities", p)]))
  pure (Json.obj [("ticker", ticker), ("relevance", .float rel),
    ("reasoning", jgetD cd "reasoning" (.str "")),
    ("volume", volume), ("volume_24hr", v24), ("markets", .arr subs)])

/-- Contributions of one market to the category lists: for each category, a
summary is appended exactly when `safe_float(relevance, 0) >= 9`. -/
def categorizeMarket (market : Json) : Option (List (String × Json)) :=
  match market with
  | .obj _ =>
    let analysis := jgetD market "analysis" (.obj [])
    if !truthy analysis then some []
    else
      match analysis with
      | .obj _ =>
        (categories_keys.mapM (fun k => do
          let cd := jgetD analysis k (.obj [])
          let relv ← (match cd with | .obj _ => some (jgetD cd "relevance" (.int 0)) | _ => none)
          let rel := safe_float relv (PDec.ofInt 0)
          if PDec.le (PDec.ofInt 9) rel then do
            let s ← market_summary market cd rel
            pure [(k, s)]
          else pure [])).map List.flatten
      | _ => none
  | _ => none

/-- `clean.py categorize_markets`: fold every market's contributions into the
four fixed category lists, in market order; `none` models an uncaught
exception. -/
def categorize_markets (markets_data : Json) : Option (List (String × List Json)) := do
  let msRaw ← jget markets_data "markets"
  let ms ← (match msRaw with | .arr l => some l | _ => none)
  let adds ← ms.mapM categorizeMarket
  pure (categories_keys.map (fun k =>
    (k, ((adds.flatten).filter (fun p => p.1 == k)).map (fun p => p.2))))

/-- The loading phase of `clean.py parse_markets` (lines 81-92): parse the
raw document; on a decode error make one repair attempt that truncates to
just past the last `"\x7d]\x7d"` occurrence and appends another
`"\x7d]\x7d"`, then re-parses. When no occurrence exists the code falls
through with `raw_data` unbound and the subsequent access raises; when the
re-parse raises, the error propagates: both are loading failures. -/
def parse_markets_load (content : String) : Except JErr Json :=
  match pyLoads content with
  | .ok d => .ok d
  | .error e =>
    match pyRfind content "\x7d]\x7d" with
    | some i => pyLoads ⟨content.data.take (i + 3) ++ "\x7d]\x7d".data⟩
    | none => .error e

end Clean

namespace Synth

/-- `isinstance(x, (int, float))` in Python, where `bool` is a subclass of
`int`. -/
def pyIsNum : Json → Bool
  | .int _ => true
  | .float _ => true
  | .bool _ => true
  | _ => false

/-- Numeric value used by Python comparisons on a number-like json value. -/
def pyNumVal : Json → PDec
  | .int n => PDec.ofInt n
  | .float q => q
  | .bool b => PDec.ofInt (if b then 1 else 0)
  | _ => PDec.ofInt 0

/-- Python `str.rstrip('%')`. -/
def pyRstripPct (s : String) : String :=
  ⟨(dropWhileC (fun c => c = '%') s.data.reverse).reverse⟩

/-- `synth.py process_market_volume`: dollar signs and commas are removed
from the string, a `ValueError` from `float` is caught and gives `0.0`; a
non-string raises `AttributeError` at `.replace`, which this function does
not catch. -/
def process_market_volume (market : Json) : Except PyExc PDec :=
  match jgetD market "total_volume" (.str "0") with
  | .str s =>
    .ok ((pyFloatOfString (pyReplace (pyReplace s "$" "") "," "")).getD (PDec.ofInt 0))
  | _ => .error .attrError

/-- The happy path of `synth.py get_market_details_safely`; any raised
exception is reported so the caller can fall back to the default dict. -/
def gmds_core (market : Json) : Except PyExc Json := do
  let ticker := jgetD market "market" (.str "UNKNOWN")
  let volume ← process_market_volume market
  let liq ← ((match jgetD market "24hr_volume" (.str "0") with
    | .str s =>
      (match pyFloatOfString (pyReplace (pyReplace s "$" "") "," "") with
       | some q => Except.ok q
       | none => Except.error PyExc.valueError)
    | _ => Except.error PyExc.attrError) : Except PyExc PDec)
  let start_date := jgetD market "start_date" .null
  let end_date := jgetD market "end_date" .null
  let details ← (match jgetD market "details" (.arr []) with
    | .arr l => Except.ok l
    | _ => Except.error PyExc.typeError)
  let probabilities ← details.mapM (fun detail =>
    match detail with
    | .obj _ => do
      let probs ← (match jgetD detail "probabilities" (.arr []) with
        | .arr l => Except.ok l
        | _ => Except.error PyExc.typeError)
      let outcomes ← probs.mapM (fun prob =>
        match prob with
        | .obj _ =>
          (match jgetD prob "probability" (.str "0") with
           | .str s =>
             (match pyFloatOfString (pyRstripPct s) with
              | some v => Except.ok (Json.obj
                  [("outcome", jgetD prob "outcome" (.str "")),
                   ("probability", Json.float v)])
              | none => Except.error PyExc.valueError)
           | _ => Except.error PyExc.attrError)
        | _ => Except.error PyExc.attrError)
      Except.ok (Json.obj [("question", jgetD detail "question" (.str "")),
        ("outcomes", Json.arr outcomes)])
    | _ => Except.error PyExc.attrError)
  let analysis := parse_analysis_safely market
  Except.ok (Json.obj [("ticker", ticker), ("liquidity", Json.float liq),
    ("volume", Json.float volume), ("start_date", start_date),
    ("end_date", end_date), ("probabilities", Json.arr probabilities),
    ("analysis", analysis.getD Json.null)])

/-- The fallback dict of `get_market_details_safely`'s exception handler. -/
def gmds_default (market : Json) : Json :=
  Json.obj [("ticker", jgetD market "market" (.str "UNKNOWN")),
    ("liquidity", Json.float (PDec.ofInt 0)), ("volume", Json.float (PDec.ofInt 0)),
    ("start_date", Json.null), ("end_date", Json.null),
    ("probabilities", Json.arr []), ("analysis", Json.null)]

/-- `synth.py get_market_details_safely`. -/
def get_market_details_safely (market : Json) : Json :=
  match gmds_core market with
  | .ok d => d
  | .error _ => gmds_default market

/-- The domain-name table of `build_domain_context`. -/
def domain_mapping : List (String × String) :=
  [("economic", "economic_indicators"), ("geopolitical", "geopolitical_events"),
    ("regulatory", "regulatory_changes"),
    ("technological", "technological_developments")]

/-- `synth.py create_empty_context` (with the current time a parameter). -/
def create_empty_context (timestamp : Json) (domain now : String) : Json :=
  Json.obj [("timestamp", if truthy timestamp then timestamp else .str now),
    ("domain", .str domain), ("market_count", .int 0), ("markets", .arr []),
    ("status", .str "error"),
    ("error", .str ("Invalid domain or no data available for " ++ domain))]

/-- Python `for x in j`: lists yield elements, strings yield one-character
strings, dicts yield their keys, and other values raise `TypeError`. -/
def iterItems : Json → Option (List Json)
  | .arr l => some l
  | .str s => some (s.data.map (fun c => Json.str ⟨[c]⟩))
  | .obj kvs => some (kvs.map (fun p => Json.str p.1))
  | _ => none

/-- The ranked-list entry built by the second `build_domain_context`
definition (the one in force at runtime): ticker, relevance score,
liquidity and volume. -/
def mkEntry (market relevance : Json) : Json :=
  let md := get_market_details_safely market
  Json.obj [("ticker", jgetD md "ticker" .null), ("relevance_score", relevance),
    ("liquidity", jgetD md "liquidity" .null), ("volume", jgetD md "volume" .null)]

/-- The per-market body of `build_domain_context`'s loop: `none` models both
`continue` branches and exceptions swallowed by the per-market handler, and
`some entry` the append of a qualifying market. -/
def entryOf (dk : String) (market : Json) : Option Json :=
  match parse_analysis_safely market with
  | none => none
  | some ad =>
    if !truthy ad then none
    else
      match ad with
      | .obj _ =>
        let di := jgetD ad dk (.obj [])
        if !truthy di then none
        else
          match di with
          | .obj _ =>
            let impact := jgetD di "impact" .null
            let relevance := jgetD di "relevance" (.int 0)
            if truthy impact && pyIsNum relevance &&
                decide (PDec.le (PDec.ofInt 6) (pyNumVal relevance)) then
              some (mkEntry market relevance)
            else none
          | _ => none
      | _ => none

/-- Sort key of the ranked list. -/
def entryKey (e : Json) : PDec :=
  pyNumVal (jgetD e "relevance_score" (.int 0))

/-- The relation realising Python's stable `sorted(key=relevance_score,
reverse=True)`. -/
def entryGE (a b : Json) : Prop :=
  PDec.le (entryKey b) (entryKey a)

instance : DecidableRel entryGE := fun a b =>
  inferInstanceAs (Decidable (PDec.le (entryKey b) (entryKey a)))

/-- Python's `sorted(l, key=relevance_score, reverse=True)`: a stable
descending sort. -/
def sortDescRel (l : List Json) : List Json :=
  List.insertionSort entryGE l

/-- `synth.py build_domain_context` (second definition, lines 342-392, the
one in force): invalid domains get the error context, otherwise qualifying
markets are collected in input order and sorted by descending relevance.
`none` models an uncaught exception (non-dict data or non-iterable
results). -/
def build_domain_context (now : String) (data : Json) (domain : String) :
    Option Json :=
  match (domain_mapping.find? (fun p => p.1 == domain)).map (fun p => p.2) with
  | none =>
    match data with
    | .obj _ => some (create_empty_context (jgetD data "timestamp" .null) domain now)
    | _ => none
  | some dk =>
    match data with
    | .obj _ =>
      match iterItems (jgetD data "results" (.arr [])) with
      | none => none
      | some items =>
        let domain_markets := items.filterMap (entryOf dk)
        some (Json.obj [("timestamp", jgetD data "timestamp" (.str now)),
          ("domain", .str domain), ("market_count", .int domain_markets.length),
          ("markets", .arr (sortDescRel domain_markets)),
          ("status", .str "success")])
    | _ => none

end Synth

namespace Test2

/-- `test2.py clean_json_string`: same truncate-and-append repair applied
unconditionally before parsing. -/
def clean_json_string (json_str : String) : String :=
  if json_str = "" then ""
  else
    match pyRfind json_str "\x7d]\x7d" with
    | some i => ⟨json_str.data.take (i + 3) ++ "\x7d]\x7d".data⟩
    | none => json_str

end Test2

/-- Python `str(x)` for the scalar json values the prompts interpolate;
containers fall back to the dumps rendering (never exercised by a claim). -/
def pyStr : Json → String
  | .str s => s
  | .int n => ⟨intRepr n⟩
  | .float q => ⟨floatRepr q⟩
  | .bool true => "True"
  | .bool false => "False"
  | .null => "None"
  | j => pyDumps j

/-- `str.split()` with no separator: whitespace runs delimit, no empties. -/
def pySplitWsAux : List Char → List Char → List (List Char)
  | [], acc => if acc.isEmpty then [] else [acc.reverse]
  | c :: cs, acc =>
    if isPyWs c then
      if acc.isEmpty then pySplitWsAux cs [] else acc.reverse :: pySplitWsAux cs []
    else pySplitWsAux cs (c :: acc)

/-- Python `str.split()`. -/
def pySplitWs (cs : List Char) : List (List Char) :=
  pySplitWsAux cs []

/-- Thousands grouping over reversed digits. -/
def groupCommasAux : List Char → List Char
  | a :: b :: c :: d :: rest => a :: b :: c :: ',' :: groupCommasAux (d :: rest)
  | l => l

/-- Python `format(x, ',.2f')` on a decimal: comma-grouped integer part and
two decimals (round half up; the claims do not depend on tie rounding). -/
def format2f (d : PDec) : String :=
  let am : Nat := d.mant.natAbs
  let p : Nat := 10 ^ d.exp
  let scaled : Nat := (am * 200 + p) / (2 * p)
  let ip := scaled / 100
  let fp := scaled % 100
  (if d.mant < 0 then "-" else "") ++
    (⟨(groupCommasAux (natDigits0 ip).reverse).reverse⟩ : String) ++ "." ++
    (⟨[Char.ofNat (48 + fp / 10), Char.ofNat (48 + fp % 10)]⟩ : String)

/-- Python `format(x, '.1%')`: percentage with one decimal. -/
def format1pct (d : PDec) : String :=
  let am : Nat := d.mant.natAbs
  let p : Nat := 10 ^ d.exp
  let scaled : Nat := (am * 2000 + p) / (2 * p)
  (if d.mant < 0 then "-" else "") ++ (⟨natDigits0 (scaled / 10)⟩ : String) ++ "." ++
    (⟨[Char.ofNat (48 + scaled % 10)]⟩ : String) ++ "%"

namespace Ifk

/-- `analyze.py is_price_market`: a dollar sign plus a directional verb. -/
def is_price_market (question : String) : Bool :=
  containsSub question "$" &&
    (containsSub (pyLower question) "reach" || containsSub (pyLower question) "dip")

/-- `analyze.py extract_price`: the first whitespace token after the first
dollar sign, commas removed, parsed as a float; `IndexError`/`ValueError`
give `0.0`. -/
def extract_price (question : String) : PDec :=
  match splitOnC '$' question.data with
  | _ :: p1 :: _ =>
    (match pySplitWs p1 with
     | tok :: _ => (pyFloatOfString (pyReplace ⟨tok⟩ "," "")).getD (PDec.ofInt 0)
     | [] => PDec.ofInt 0)
  | _ => PDec.ofInt 0

/-- `detail['question']` followed by its use as a string: a missing key
raises `KeyError`, a non-string value raises on the subsequent string
operation. -/
def detailQuestion (d : Json) : Except PyExc String :=
  match d with
  | .obj _ =>
    (match jget d "question" with
     | some (.str s) => .ok s
     | some _ => .error .attrError
     | none => .error .keyError)
  | _ => .error .typeError

/-- `analyze.py parse_outcome_prices`: `None` gives `0.0`, a string is
json-parsed (decode errors give `0.0`), a nonempty list has its head
converted with `float` (`ValueError` gives `0.0`, but a `TypeError` for a
`None`/container head propagates), everything else gives `0.0`. -/
def parse_outcome_prices (detail : Json) : Except PyExc PDec :=
  match detail with
  | .obj _ =>
    (match jgetD detail "outcomePrices" Json.null with
     | .null => .ok (PDec.ofInt 0)
     | .str s =>
       (match pyLoads s with
        | .error _ => .ok (PDec.ofInt 0)
        | .ok (Json.arr (p0 :: _)) =>
          (match pyFloatJ p0 with
           | .ok q => .ok q
           | .error .valueError => .ok (PDec.ofInt 0)
           | .error e => .error e)
        | .ok _ => .ok (PDec.ofInt 0))
     | .arr (p0 :: _) =>
       (match pyFloatJ p0 with
        | .ok q => .ok q
        | .error .valueError => .ok (PDec.ofInt 0)
        | .error e => .error e)
     | _ => .ok (PDec.ofInt 0))
  | _ => .error .attrError

/-- `analyze.py format_market_overview`: the `ValueError`/`TypeError`
handler returns the fallback line; an `AttributeError` from a non-dict
first detail propagates. -/
def format_market_overview (market_data : Json) (details : List Json) :
    Except PyExc String := do
  let end_date ← (match details with
    | [] => Except.ok (Json.str "Unknown")
    | d0 :: _ =>
      match d0 with
      | .obj _ => Except.ok (jgetD d0 "endDate" (.str "Unknown"))
      | _ => Except.error PyExc.attrError)
  match pyFloatJ (jgetD market_data "volume" (.int 0)),
      pyFloatJ (jgetD market_data "liquidity" (.int 0)),
      pyFloatJ (jgetD market_data "volume24hr" (.int 0)) with
  | .ok v, .ok l, .ok v24 =>
    .ok ("Market Overview:\n- Total Volume: $" ++ format2f v ++
      "\n- Total Liquidity: $" ++ format2f l ++
      "\n- 24hr Volume: $" ++ format2f v24 ++
      "\n- Market End Date: " ++ pyStr end_date)
  | _, _, _ => .ok "Market Overview: Data unavailable"

/-- Sort key used by `details.sort` in `create_price_market_prompt`; only
evaluated after every question has been checked to be a string. -/
def priceKey (d : Json) : PDec :=
  match detailQuestion d with
  | .ok q => extract_price q
  | .error _ => PDec.ofInt 0

/-- The relation realising Python's stable ascending `list.sort(key=...)`. -/
def detailLE (a b : Json) : Prop :=
  PDec.le (priceKey a) (priceKey b)

instance : DecidableRel detailLE := fun a b =>
  inferInstanceAs (Decidable (PDec.le (priceKey a) (priceKey b)))

/-- Python's `details.sort(key=extract_price(question))`: stable ascending. -/
def sortDetailsAsc (details : List Json) : List Json :=
  List.insertionSort detailLE details

/-- `analyze.py create_price_market_prompt`: sorts the caller's detail list
in place (the sorted list is returned as the new list contents), then lists
each price-encoding question as a price target. -/
def create_price_market_prompt (cdate : String) (market_data : Json)
    (details : List Json) : Except PyExc (String × List Json) := do
  let _ ← details.mapM detailQuestion
  let sorted := sortDetailsAsc details
  let optLines ← sorted.mapM (fun d => do
    let q ← detailQuestion d
    if is_price_market q then do
      let tok ← (match splitOnC '$' q.data with
        | _ :: p1 :: _ =>
          (match pySplitWs p1 with
           | t :: _ => Except.ok t
           | [] => Except.error PyExc.indexError)
        | _ => Except.error PyExc.indexError)
      let yp ← parse_outcome_prices d
      let dir : String := if containsSub (pyLower q) "reach" then "reach" else "dip to"
      pure (some ("$" ++ (⟨tok⟩ : String) ++ ": " ++ dir ++ " (" ++
        format1pct yp ++ " probability)"))
    else pure none)
  let price_options := optLines.reduceOption
  let overview ← format_market_overview market_data sorted
  pure ("Market Analysis (" ++ cdate ++ ")\n\n" ++ overview ++
    "\n\nPrice Targets:\n" ++
    String.intercalate "\n" (price_options.map (fun o => "- " ++ o)), sorted)

/-- `analyze.py create_regular_market_prompt`: every question listed with
its first listed price as a percentage. -/
def create_regular_market_prompt (cdate : String) (market_data : Json)
    (details : List Json) : Except PyExc String := do
  let opts ← details.mapM (fun d => do
    let q ← detailQuestion d
    let yp ← parse_outcome_prices d
    pure (q ++ " (" ++ format1pct yp ++ " probability)"))
  let overview ← format_market_overview market_data details
  pure ("Market Analysis (" ++ cdate ++ ")\n\n" ++ overview ++
    "\n\nQuestions:\n" ++
    String.intercalate "\n" (opts.map (fun o => "- " ++ o)))

/-- The fixed instruction suffix of `create_consolidated_prompt`
(`assessment_template` in the source, braces written as hex escapes). -/
def assessment_template : String :=
  "\nAssess the market's relevance to these key areas:\n1. Economic indicators (CPI, interest rates, recessions)\n2. Geopolitical events (elections, wars, sanctions)\n3. Regulatory changes (crypto, financial markets)\n4. Technological developments (AI, tech innovations)\n\nFor each area, provide:\n- A yes/no assessment of potential impact\n- A relevance score from 1-10 \n- Brief reasoning for your assessment\n\nRespond STRICTLY in this JSON format:\n\x7b\n    \"economic_indicators\": \x7b\n        \"impact\": true/false,\n        \"relevance\": 1-10,\n        \"reasoning\": \"...\"\n    \x7d,\n    \"geopolitical_events\": \x7b\n        \"impact\": true/false,\n        \"relevance\": 1-10,\n        \"reasoning\": \"...\"\n    \x7d,\n    \"regulatory_changes\": \x7b\n        \"impact\": true/false,\n        \"relevance\": 1-10,\n        \"reasoning\": \"...\"\n    \x7d,\n    \"technological_developments\": \x7b\n        \"impact\": true/false,\n        \"relevance\": 1-10,\n        \"reasoning\": \"...\"\n    \x7d\n    \"market_metadata\": \x7b\n    \"time_horizon\": \"short/medium/long\",\n    \"confidence_score\": 1-10,\n    \"potential_correlations\": [\"related_market_ids\"],\n    \"update_frequency\": \"how often this should be reassessed\"\n    \x7d\n\x7d"

/-- `market.get('markets_detail', [])` as the iterable/indexable `details`
argument: falsy values take the no-details branch, a non-list truthy value
raises on `details[0]['question']`. -/
def detailsAsList (j : Json) : Option (List Json) :=
  if !truthy j then some []
  else
    match j with
    | .arr l => some l
    | _ => none

/-- `analyze.py create_consolidated_prompt`: branch on the shape of the
first question only; returns the payload dict and the new contents of the
caller's detail list (sorted in the price branch). -/
def create_consolidated_prompt (cdate : String) (market_data : Json)
    (details : List Json) : Except PyExc (Json × List Json) :=
  match details with
  | [] => .ok (Json.obj [("ticker", jgetD market_data "ticker" (.str "unknown")),
      ("prompt", .str "No market details available")], [])
  | d0 :: _ => do
    let q0 ← detailQuestion d0
    let tickerv := jgetD market_data "ticker" (.str "unknown")
    if is_price_market q0 then do
      let pr ← create_price_market_prompt cdate market_data details
      pure (Json.obj [("ticker", tickerv),
        ("prompt", .str ("Market: " ++ pyStr tickerv ++ "\n" ++ pr.1 ++ "\n" ++
          assessment_template))], pr.2)
    else do
      let info ← create_regular_market_prompt cdate market_data details
      pure (Json.obj [("ticker", tickerv),
        ("prompt", .str ("Market: " ++ pyStr tickerv ++ "\n" ++ info ++ "\n" ++
          assessment_template))], details)

/-- `analyze.py extract_market_details`: a fresh one-level copy of the
record's fields and detail dicts. -/
def extract_market_details (market : Json) : Except PyExc Json :=
  match market with
  | .obj _ => do
    let mdl ← (match jgetD market "markets_detail" (.arr []) with
      | .arr l => Except.ok l
      | _ => Except.error PyExc.typeError)
    let copies ← mdl.mapM (fun detail =>
      match detail with
      | .obj _ => Except.ok (Json.obj [("id", jgetD detail "id" .null),
          ("question", jgetD detail "question" .null),
          ("conditionId", jgetD detail "conditionId" .null),
          ("endDate", jgetD detail "endDate" .null),
          ("liquidity", jgetD detail "liquidity" .null),
          ("outcomes", jgetD detail "outcomes" .null),
          ("outcomePrices", jgetD detail "outcomePrices" .null),
          ("volume", jgetD detail "volume" .null),
          ("volume24hr", jgetD detail "volume24hr" .null),
          ("clobTokenIds", jgetD detail "clobTokenIds" .null),
          ("competitive", jgetD detail "competitive" .null),
          ("description", jgetD detail "description" .null)])
      | _ => Except.error PyExc.attrError)
    Except.ok (Json.obj [("ticker", jgetD market "ticker" .null),
      ("slug", jgetD market "slug" .null),
      ("startDate", jgetD market "startDate" .null),
      ("endDate", jgetD market "endDate" .null),
      ("liquidity", jgetD market "liquidity" .null),
      ("volume", jgetD market "volume" .null),
      ("volume24hr", jgetD market "volume24hr" .null),
      ("competitive", jgetD market "competitive" .null),
      ("markets_detail", Json.arr copies)])
  | _ => .error .attrError

/-- The per-market preparation step of `process_batch`: the prompt content,
the extracted copy, and the record state after prompt building (its
`markets_detail` list is sorted in place by the price branch). -/
structure Prep where
  content : String
  details : Json
  mutated : Json

/-- The record with the new contents of its (aliased) `markets_detail`
list; when the record held no list there, the default `[]` was a fresh
object and the record is unchanged. -/
def applyMutation (market : Json) (newList : List Json) : Json :=
  match market with
  | .obj kvs =>
    (match jget market "markets_detail" with
     | some (.arr _) => .obj (objInsert kvs "markets_detail" (.arr newList))
     | _ => market)
  | _ => market

/-- The body of `process_batch`'s preparation loop for one record; `none`
models the per-record handler's `continue`. (When preparation fails after
the in-place sort has begun, the record is modelled as unchanged; no claim
exercises that path.) -/
def prepMarket (cdate : String) (market : Json) : Option Prep :=
  match (do
    let details ← extract_market_details market
    let dlist ← (match detailsAsList (jgetD market "markets_detail" (.arr [])) with
      | some l => Except.ok l
      | none => Except.error PyExc.typeError)
    let pr ← create_consolidated_prompt cdate market dlist
    (match jget pr.1 "prompt" with
     | some (.str content) => Except.ok (content, details, pr.2)
     | _ => Except.error PyExc.keyError) : Except PyExc (String × Json × List Json)) with
  | .ok (c, d, nl) => some ⟨c, d, applyMutation market nl⟩
  | .error _ => none

/-- `analyze.py OpenRouterClient.analyze_markets_batch`: one concurrent call
per content; `asyncio.gather(..., return_exceptions=True)` returns the
per-call outcomes in task order, so the endpoint is modelled as an oracle
from call index and content to a response or a raised exception. -/
def analyze_markets_batch (respond : Nat → String → Except String Json)
    (contents : List String) : List (Except String Json) :=
  contents.mapIdx respond

/-- `analyze.py ConsolidatedMarketValidator.process_batch`: prepare each
record (skipping ones that raise), call the endpoint concurrently, and keep
an entry per successful call; a call that raised is logged and skipped.
Returns the batch results and the records' post-call state. -/
def process_batch (respond : Nat → String → Except String Json)
    (cdate : String) (batch : List Json) : List Json × List Json :=
  let preps := batch.map (fun m => (m, prepMarket cdate m))
  let prepared := preps.filterMap (fun p => p.2)
  let contents := prepared.map (fun p => p.content)
  let detailsL := prepared.map (fun p => p.details)
  let results := analyze_markets_batch respond contents
  let batch_results := (detailsL.zip results).filterMap (fun dr =>
    match dr.2 with
    | .ok a => some (Json.obj [("market_details", dr.1), ("analysis", a)])
    | .error _ => none)
  (batch_results,
    preps.map (fun p => match p.2 with | some pr => pr.mutated | none => p.1))

/-- `analyze.py ConsolidatedMarketValidator.save_results`: the persisted
checkpoint document for the accumulated results. -/
def save_results (now : String) (results : List Json) : Json :=
  Json.obj [("timestamp", .str now), ("total_markets", .int results.length),
    ("results", .arr results)]

/-- Contiguous batches of size `bsp + 1`, with structural fuel (one unit
per batch; the list length is plenty). -/
def chunkFuel (bsp : Nat) : Nat → List Json → List (List Json)
  | _, [] => []
  | 0, l => [l]
  | fuel + 1, x :: xs =>
    (x :: xs).take (bsp + 1) :: chunkFuel bsp fuel ((x :: xs).drop (bsp + 1))

/-- Contiguous batches of size `bsp + 1`. -/
def chunkAux (bsp : Nat) (l : List Json) : List (List Json) :=
  chunkFuel bsp l.length l

/-- `self.data.get('markets', [])` as a sliceable sequence: a string slices
into one-character strings; other non-list values raise at `len` or at the
slice. -/
def marketsAsList (j : Json) : Option (List Json) :=
  match j with
  | .arr l => some l
  | .str s => some (s.data.map (fun c => Json.str ⟨[c]⟩))
  | .obj [] => some []
  | _ => none

/-- `analyze.py ConsolidatedMarketValidator.validate_and_analyze_markets`:
process the records in contiguous batches in input order, extend the running
results with each batch's results, and persist the running list after every
batch. Returns the final results and the sequence of persisted checkpoint
snapshots; `none` models a raised exception (batch size zero, non-sliceable
markets value). -/
def validate_and_analyze_markets (respond : Nat → Nat → String → Except String Json)
    (cdate : String) (data : Json) (batch_size : Nat) :
    Option (List Json × List (List Json)) :=
  match batch_size with
  | 0 => none
  | bsp + 1 =>
    match data with
    | .obj _ =>
      match marketsAsList (jgetD data "markets" (.arr [])) with
      | none => none
      | some all_markets =>
        let batches := chunkAux bsp all_markets
        some (batches.foldl (fun acc batch =>
          let br := (process_batch (respond acc.2.1) cdate batch).1
          let res := acc.1 ++ br
          (res, acc.2.1 + 1, acc.2.2 ++ [res]))
          (([] : List Json), 0, ([] : List (List Json)))
          |> (fun t => (t.1, t.2.2)))
    | _ => none

end Ifk

/-! Helper lemmas about the embedded operations. -/

/-- The replacement map of `objInsert` leaves the key test unchanged. -/
theorem objInsert_pred_comp (k k2 : String) (v : Json) (hne : ¬ k = k2) :
    ((fun p : String × Json => decide (p.1 = k2)) ∘
      fun p => if p.1 = k then (k, v) else p) =
      (fun p : String × Json => decide (p.1 = k2)) := by
  funext p
  by_cases hp : p.1 = k
  · simp [hp, hne]
  · simp [hp]

/-- A dict updated at `k` holds `v` at `k`. -/
theorem jget_objInsert_self (kvs : List (String × Json)) (k : String) (v : Json) :
    jget (.obj (objInsert kvs k v)) k = some v := by
  unfold objInsert
  by_cases h : kvs.any (fun p => p.1 = k)
  · rw [if_pos h]
    show ((kvs.map fun p => if p.1 = k then (k, v) else p).find?
      (fun p => p.1 = k)).map (fun p => p.2) = some v
    rw [List.find?_map]
    have hpred : ((fun p : String × Json => decide (p.1 = k)) ∘
        fun p => if p.1 = k then (k, v) else p) =
        (fun p : String × Json => decide (p.1 = k)) := by
      funext p
      by_cases hp : p.1 = k <;> simp [hp]
    rw [hpred]
    obtain ⟨p, hp, hpk⟩ := List.any_eq_true.mp h
    cases hf : kvs.find? (fun p => decide (p.1 = k)) with
    | none =>
      exact absurd (List.find?_eq_none.mp hf p hp) (by simpa using hpk)
    | some q =>
      have hq : q.1 = k := by simpa using List.find?_some hf
      simp [hq]
  · rw [if_neg h]
    show ((kvs ++ [(k, v)]).find? (fun p => p.1 = k)).map (fun p => p.2) = some v
    rw [List.find?_append]
    have hnone : kvs.find? (fun p => decide (p.1 = k)) = none := by
      rw [List.find?_eq_none]
      intro p hp
      simp only [decide_eq_true_eq]
      intro hc
      exact h (List.any_eq_true.mpr ⟨p, hp, by simpa using hc⟩)
    simp [hnone, List.find?_cons]

/-- A dict updated at `k` is unchanged at other keys. -/
theorem jget_objInsert_ne (kvs : List (String × Json)) (k k2 : String) (v : Json)
    (hne : k2 ≠ k) : jget (.obj (objInsert kvs k v)) k2 = jget (.obj kvs) k2 := by
  have hne' : ¬ k = k2 := fun hc => hne hc.symm
  unfold objInsert
  by_cases h : kvs.any (fun p => p.1 = k)
  · rw [if_pos h]
    show ((kvs.map fun p => if p.1 = k then (k, v) else p).find?
      (fun p => p.1 = k2)).map (fun p => p.2) = _
    rw [List.find?_map, objInsert_pred_comp k k2 v hne']
    cases hf : kvs.find? (fun p => decide (p.1 = k2)) with
    | none => simp [jget, hf]
    | some q =>
      have hq : q.1 = k2 := by simpa using List.find?_some hf
      have hqk : ¬ q.1 = k := fun hc => hne (hq ▸ hc)
      simp [jget, hf, hqk]
  · rw [if_neg h]
    show ((kvs ++ [(k, v)]).find? (fun p => p.1 = k2)).map (fun p => p.2) = _
    rw [List.find?_append]
    cases hf : kvs.find? (fun p => decide (p.1 = k2)) with
    | none => simp [jget, hf, List.find?_cons, hne']
    | some q => simp [jget, hf]

/-- Updating a key of a duplicate-free dict (every dict produced by Python)
with the value it already holds leaves the dict unchanged. -/
theorem objInsert_self (kvs : List (String × Json)) (k : String) (v : Json)
    (hnd : (kvs.map Prod.fst).Nodup)
    (h : jget (.obj kvs) k = some v) : objInsert kvs k v = kvs := by
  have hany : kvs.any (fun p => p.1 = k) = true := by
    induction kvs with
    | nil => simp [jget, List.find?_cons] at h
    | cons p rest ih =>
      by_cases hp : p.1 = k
      · simp [hp]
      · rw [List.any_cons]
        refine Bool.or_eq_true_iff.mpr (Or.inr ?_)
        refine ih ?_ ?_
        · exact (List.nodup_cons.mp hnd).2
        · simpa [jget, List.find?_cons, hp] using h
  unfold objInsert
  rw [if_pos hany]
  clear hany
  induction kvs with
  | nil => simp
  | cons p rest ih =>
    rw [List.map_cons, List.nodup_cons] at hnd
    by_cases hp : p.1 = k
    · have hv : p.2 = v := by
        simpa [jget, List.find?_cons, hp] using h
      have hrest : ∀ q ∈ rest, (if q.1 = k then (k, v) else q) = id q := by
        intro q hq
        have : q.1 ≠ k := fun hc => hnd.1 (hp ▸ hc ▸ List.mem_map_of_mem Prod.fst hq)
        simp [this]
      have hmap : rest.map (fun q => if q.1 = k then (k, v) else q) = rest := by
        rw [List.map_congr_left hrest, List.map_id]
      rw [List.map_cons, hmap, if_pos hp]
      rw [← hp, ← hv]
    · have hrec := ih hnd.2 (by simpa [jget, List.find?_cons, hp] using h)
      rw [List.map_cons, if_neg hp, hrec]

instance : IsTotal Json Synth.entryGE :=
  ⟨fun a b => by
    rcases le_total (Synth.entryKey b).toRat (Synth.entryKey a).toRat with h | h
    · exact Or.inl ((PDec.le_iff _ _).mpr h)
    · exact Or.inr ((PDec.le_iff _ _).mpr h)⟩

instance : IsTrans Json Synth.entryGE :=
  ⟨fun _ _ _ h1 h2 => (PDec.le_iff _ _).mpr
    (le_trans ((PDec.le_iff _ _).mp h2) ((PDec.le_iff _ _).mp h1))⟩

instance : IsTotal Json Ifk.detailLE :=
  ⟨fun a b => by
    rcases le_total (Ifk.priceKey a).toRat (Ifk.priceKey b).toRat with h | h
    · exact Or.inl ((PDec.le_iff _ _).mpr h)
    · exact Or.inr ((PDec.le_iff _ _).mpr h)⟩

instance : IsTrans Json Ifk.detailLE :=
  ⟨fun _ _ _ h1 h2 => (PDec.le_iff _ _).mpr
    (le_trans ((PDec.le_iff _ _).mp h1) ((PDec.le_iff _ _).mp h2))⟩

/-- Inserting into the descending order keeps the relative order of entries
with any fixed key value: an inserted element lands before exactly the
entries with strictly smaller keys. -/
theorem filter_orderedInsert_key (a : Json) (l : List Json) (q : PDec) :
    (List.orderedInsert Synth.entryGE a l).filter
        (fun e => decide (PDec.veq (Synth.entryKey e) q)) =
      if PDec.veq (Synth.entryKey a) q then
        a :: l.filter (fun e => decide (PDec.veq (Synth.entryKey e) q))
      else l.filter (fun e => decide (PDec.veq (Synth.entryKey e) q)) := by
  induction l with
  | nil =>
    by_cases h : PDec.veq (Synth.entryKey a) q <;>
      simp [List.orderedInsert, List.filter_cons, h]
  | cons b t ih =>
    simp only [List.orderedInsert]
    by_cases hab : Synth.entryGE a b
    · rw [if_pos hab]
      by_cases h : PDec.veq (Synth.entryKey a) q <;>
        simp [List.filter_cons, h]
    · rw [if_neg hab]
      by_cases h : PDec.veq (Synth.entryKey a) q
      · have haq : (Synth.entryKey a).toRat = q.toRat := (PDec.veq_iff _ _).mp h
        have hblt : (Synth.entryKey a).toRat < (Synth.entryKey b).toRat := by
          have h1 : ¬ (Synth.entryKey b).toRat ≤ (Synth.entryKey a).toRat :=
            fun hc => hab ((PDec.le_iff _ _).mpr hc)
          exact not_le.mp h1
        have hbq : ¬ PDec.veq (Synth.entryKey b) q := by
          intro hc
          have := (PDec.veq_iff _ _).mp hc
          rw [this, haq] at hblt
          exact lt_irrefl _ hblt
        simp [List.filter_cons, hbq, ih, h]
      · by_cases hb : PDec.veq (Synth.entryKey b) q <;>
          simp [List.filter_cons, hb, ih, h]

/-- Stability of the embedded Python `sorted(..., reverse=True)`: entries
with equal relevance keys keep their input order. -/
theorem filter_sortDescRel_key (l : List Json) (q : PDec) :
    (Synth.sortDescRel l).filter (fun e => decide (PDec.veq (Synth.entryKey e) q)) =
      l.filter (fun e => decide (PDec.veq (Synth.entryKey e) q)) := by
  unfold Synth.sortDescRel
  induction l with
  | nil => rfl
  | cons a t ih =>
    simp only [List.insertionSort]
    rw [filter_orderedInsert_key]
    by_cases h : PDec.veq (Synth.entryKey a) q <;>
      simp [List.filter_cons, h, ih]

/-- Success test on a remote-call outcome. -/
def isOkB : Except String Json → Bool
  | .ok _ => true
  | .error _ => false

/-- The batch results keep one entry per successful call. -/
theorem zip_filterMap_ok_length (ds : List Json)
    (rs : List (Except String Json)) (h : ds.length = rs.length) :
    ((ds.zip rs).filterMap (fun dr =>
      match dr.2 with
      | .ok a => some (Json.obj [("market_details", dr.1), ("analysis", a)])
      | .error _ => none)).length = rs.countP isOkB := by
  induction ds generalizing rs with
  | nil =>
    cases rs with
    | nil => simp
    | cons r t => simp at h
  | cons d dt ih =>
    cases rs with
    | nil => simp at h
    | cons r rt =>
      have hlen : dt.length = rt.length := by simpa using h
      cases r with
      | ok a =>
        simp [List.zip_cons_cons, List.filterMap_cons, List.countP_cons,
          isOkB, ih rt hlen]
      | error m =>
        simp [List.zip_cons_cons, List.filterMap_cons, List.countP_cons,
          isOkB, ih rt hlen]

/-! Concrete sample documents used by witnesses and counterexamples. -/

/-- A complete four-domain analysis dict (with empty reasoning strings). -/
def exFullAnalysis : Json :=
  .obj [("economic_indicators", .obj [("impact", .bool true),
      ("relevance", .int 5), ("reasoning", .str "")]),
    ("geopolitical_events", .obj [("impact", .bool true),
      ("relevance", .int 5), ("reasoning", .str "")]),
    ("regulatory_changes", .obj [("impact", .bool true),
      ("relevance", .int 5), ("reasoning", .str "")]),
    ("technological_developments", .obj [("impact", .bool true),
      ("relevance", .int 5), ("reasoning", .str "")])]

/-- A completion that parses to a one-domain (3-of-4-missing) object. -/
def c2partialStr : String :=
  "\x7b\"economic_indicators\": \x7b\"impact\": true, \"relevance\": 7, \"reasoning\": \"x\"\x7d\x7d"

/-- A market whose analysis is a string that parses to a one-domain
(3-of-4-missing) object. -/
def c2partialMarket : Json :=
  .obj [("analysis", .str c2partialStr)]

/-- The parse of the partial completion above. -/
def c2partialResult : Json :=
  .obj [("economic_indicators", .obj [("impact", .bool true),
    ("relevance", .int 7), ("reasoning", .str "x")])]

/-- A market whose analysis is a completion missing the closing brace of
`technological_developments`. -/
def c2truncMarket : Json :=
  .obj [("analysis", .str "\x7b\"economic_indicators\": \x7b\"impact\": true, \"relevance\": 5, \"reasoning\": \"a\"\x7d, \"geopolitical_events\": \x7b\"impact\": false, \"relevance\": 2, \"reasoning\": \"b\"\x7d, \"regulatory_changes\": \x7b\"impact\": false, \"relevance\": 1, \"reasoning\": \"c\"\x7d, \"technological_developments\": \x7b\"impact\": true, \"relevance\": 8, \"reasoning\": \"d\"")]

/-! Claim C2. -/

set_option maxRecDepth 100000 in
/-- C2 counterexample: the repair pipeline returns a successfully parsed
candidate even when it lacks three of the four required domain keys — it is
not returned as absent, contradicting the claim that a candidate lacking any
required key yields `None`. -/
theorem c2_counterexample :
    Synth.parse_analysis_safely c2partialMarket = some c2partialResult ∧
    jhasKey c2partialResult "geopolitical_events" = false := by
  exact ⟨by decide, by decide⟩

set_option maxRecDepth 100000 in
/-- C2 (amended): for a string completion, a parse failure that persists
after the single structural repair yields absent, but a successfully parsed
candidate is returned as is, with no check of the four required domain keys
(that check exists only on the already-parsed-dict input path); the
completion missing the closing brace for `technological_developments` yields
absent because its repaired re-parse fails, not because of a key check. -/
theorem c2_parse_outcomes (market : Json) (l : List (String × Json)) (s : String)
    (hm : market = .obj l)
    (ha : jget market "analysis" = some (.str s))
    (hs : s ≠ "") :
    (∀ v, pyLoads (Synth.fixCommonIssues (Synth.clean_json_content (.str s))) = .ok v →
        Synth.parse_analysis_safely market = some v) ∧
    (∀ e, pyLoads (Synth.fixCommonIssues (Synth.clean_json_content (.str s))) = .error e →
        ∀ e2, pyLoads (Synth.structuralRepair e
          (Synth.fixCommonIssues (Synth.clean_json_content (.str s)))) = .error e2 →
        Synth.parse_analysis_safely market = none) ∧
    Synth.parse_analysis_safely c2truncMarket = none := by
  subst hm
  have h1 : (!truthy (.str s)) = false := by simp [truthy, hs]
  have hbody : Synth.parse_analysis_safely (.obj l) =
      (if Synth.clean_json_content (.str s) = "" then none
       else
         match pyLoads (Synth.fixCommonIssues (Synth.clean_json_content (.str s))) with
         | .ok v => some v
         | .error e =>
           match pyLoads (Synth.structuralRepair e
             (Synth.fixCommonIssues (Synth.clean_json_content (.str s)))) with
           | .ok v => some v
           | .error _ => none) := by
    unfold Synth.parse_analysis_safely
    rw [ha]
    dsimp only
    simp only [h1, Bool.false_eq_true, if_false]
    rw [show Synth.getAnalysisStep (.str s) = .content (.str s) from rfl]
    dsimp only
    simp only [h1, Bool.false_eq_true, if_false]
  refine ⟨?_, ?_, ?_⟩
  · intro v hv
    rw [hbody]
    by_cases hcl : Synth.clean_json_content (.str s) = ""
    · rw [hcl] at hv
      have hev : pyLoads (Synth.fixCommonIssues "") = .error ⟨.expValue, 0⟩ := by decide
      rw [hev] at hv
      exact absurd hv (by simp)
    · simp only [if_neg hcl, hv]
  · intro e he e2 he2
    rw [hbody]
    by_cases hcl : Synth.clean_json_content (.str s) = ""
    · simp only [if_pos hcl]
    · simp only [if_neg hcl, he, he2]
  · decide

set_option maxRecDepth 100000 in
/-- C2 witness: the success conjunct of `c2_parse_outcomes` evaluated on the
partial completion. -/
theorem c2_witness :
    Synth.parse_analysis_safely c2partialMarket = some c2partialResult :=
  (c2_parse_outcomes c2partialMarket [("analysis", .str c2partialStr)]
    c2partialStr rfl (by decide) (by decide)).1 c2partialResult (by decide)

/-! Claim C9. -/

/-- The well-formed body of the C9 failing input. -/
def c9body : String :=
  "\x7b\"results\":[\x7b\x7d]\x7d"

set_option maxRecDepth 100000 in
/-- C9: the claim is right and the code is wrong. For the document
`c9body ++ "AB"` — a well-formed body ending in the closing sequence
followed by trailing garbage — the claim (and the spec's stated intent,
truncation to the last complete closing sequence) demands that the repair
yield the parse of the body. The code instead appends a duplicate closer
`"\x7d]\x7d"` after the slice that already contains it, so the re-parse
fails with "Extra data" and loading fails; `test2.py clean_json_string`
repeats the same defective repair. -/
theorem c9_loader_truncation_bug :
    pyLoads c9body = .ok (.obj [("results", .arr [.obj []])]) ∧
    Clean.parse_markets_load (c9body ++ "AB") = .error ⟨.extraData, 16⟩ ∧
    Test2.clean_json_string (c9body ++ "AB") = c9body ++ "\x7d]\x7d" ∧
    pyLoads (Test2.clean_json_string (c9body ++ "AB")) = .error ⟨.extraData, 16⟩ := by
  exact ⟨by decide, by decide, by decide, by decide⟩

/-! Claim C1. -/

/-- Two minimal market records. -/
def c1mA : Json := .obj [("ticker", .str "AAA")]

/-- Second record. -/
def c1mB : Json := .obj [("ticker", .str "BBB")]

/-- A remote oracle failing exactly on the first call of a batch. -/
def c1respond : Nat → String → Except String Json :=
  fun i _ => if i = 0 then .error "boom" else .ok (.obj [])

/-- The extracted copy of `c1mB`. -/
def c1mBdetails : Json :=
  .obj [("ticker", .str "BBB"), ("slug", .null), ("startDate", .null),
    ("endDate", .null), ("liquidity", .null), ("volume", .null),
    ("volume24hr", .null), ("competitive", .null), ("markets_detail", .arr [])]

set_option maxRecDepth 100000 in
/-- C1 counterexample: with two records whose remote call fails for the
first (index `k = 0`), the dispatcher's batch output is a single entry for
the second record; there is no failure-marked entry for record 0, so the
output does not consist of `N-1` successes plus one failure-marked entry
(its length is 1, not 2). -/
theorem c1_counterexample :
    (Ifk.process_batch c1respond "D" [c1mA, c1mB]).1 =
      [Json.obj [("market_details", c1mBdetails), ("analysis", .obj [])]] ∧
    (Ifk.process_batch c1respond "D" [c1mA, c1mB]).1.length ≠ 2 := by
  exact ⟨by decide, by decide⟩

/-- Helper: a `filterMap` by a function that always succeeds keeps the
length. -/
theorem filterMap_length_of_isSome {α β : Type} (f : α → Option β)
    (l : List α) (h : ∀ x ∈ l, (f x).isSome) :
    (l.filterMap f).length = l.length := by
  induction l with
  | nil => simp
  | cons a t ih =>
    have ha := h a (by simp)
    cases hfa : f a with
    | none => rw [hfa] at ha; simp at ha
    | some b =>
      simp only [List.filterMap_cons, hfa, List.length_cons]
      rw [ih (fun x hx => h x (by simp [hx]))]

/-- C1 (amended): the dispatcher's batch output consists of exactly the
successful calls, in order — one entry per call that returned a response,
each carrying `market_details` and `analysis` and no failure marker; a
record whose remote call raised or returned a non-success status is dropped
from the output entirely (it is only logged), so when all records prepare
and exactly one of the `N` calls fails, the output has exactly `N - 1`
entries and nothing for the failed record. -/
theorem c1_failed_records_dropped (respond : Nat → String → Except String Json)
    (cdate : String) (batch : List Json) :
    ((Ifk.process_batch respond cdate batch).1.length =
      (Ifk.analyze_markets_batch respond
        ((batch.filterMap (Ifk.prepMarket cdate)).map Ifk.Prep.content)).countP isOkB) ∧
    (∀ e ∈ (Ifk.process_batch respond cdate batch).1,
      ∃ d a, e = Json.obj [("market_details", d), ("analysis", a)]) ∧
    (∀ (pre post : List (Except String Json)) (msg : String),
      (∀ m ∈ batch, (Ifk.prepMarket cdate m).isSome) →
      Ifk.analyze_markets_batch respond
        ((batch.filterMap (Ifk.prepMarket cdate)).map Ifk.Prep.content) =
        pre ++ .error msg :: post →
      (∀ r ∈ pre, isOkB r = true) →
      (∀ r ∈ post, isOkB r = true) →
      (Ifk.process_batch respond cdate batch).1.length = batch.length - 1) := by
  have hprep : (batch.map (fun m => (m, Ifk.prepMarket cdate m))).filterMap
      (fun p => p.2) = batch.filterMap (Ifk.prepMarket cdate) := by
    rw [List.filterMap_map]
    rfl
  have hlen0 : ∀ (l : List Ifk.Prep),
      (l.map Ifk.Prep.content).length = (l.map Ifk.Prep.details).length := by
    intro l; simp
  have hmain : (Ifk.process_batch respond cdate batch).1 =
      (((batch.filterMap (Ifk.prepMarket cdate)).map Ifk.Prep.details).zip
        (Ifk.analyze_markets_batch respond
          ((batch.filterMap (Ifk.prepMarket cdate)).map Ifk.Prep.content))).filterMap
        (fun dr => match dr.2 with
          | .ok a => some (Json.obj [("market_details", dr.1), ("analysis", a)])
          | .error _ => none) := by
    unfold Ifk.process_batch
    dsimp only
    rw [hprep]
  have hrslen : (Ifk.analyze_markets_batch respond
      ((batch.filterMap (Ifk.prepMarket cdate)).map Ifk.Prep.content)).length =
      (batch.filterMap (Ifk.prepMarket cdate)).length := by
    unfold Ifk.analyze_markets_batch
    simp
  refine ⟨?_, ?_, ?_⟩
  · rw [hmain]
    exact zip_filterMap_ok_length _ _ (by simp [hrslen])
  · intro e he
    rw [hmain] at he
    obtain ⟨dr, _, hdr⟩ := List.mem_filterMap.mp he
    cases hr2 : dr.2 with
    | ok a =>
      rw [hr2] at hdr
      exact ⟨dr.1, a, (Option.some.inj hdr).symm⟩
    | error m => rw [hr2] at hdr; simp at hdr
  · intro pre post msg hall hsplit hpre hpost
    have hz := zip_filterMap_ok_length
      ((batch.filterMap (Ifk.prepMarket cdate)).map Ifk.Prep.details)
      (Ifk.analyze_markets_batch respond
        ((batch.filterMap (Ifk.prepMarket cdate)).map Ifk.Prep.content))
      (by simp [hrslen])
    rw [hmain, hz, hsplit, List.countP_append, List.countP_cons]
    have hc1 : pre.countP isOkB = pre.length := List.countP_eq_length.mpr hpre
    have hc2 : post.countP isOkB = post.length := List.countP_eq_length.mpr hpost
    have hok : isOkB (.error msg) = false := rfl
    have hbatchlen : (batch.filterMap (Ifk.prepMarket cdate)).length = batch.length :=
      filterMap_length_of_isSome _ _ hall
    have hrs2 : (pre ++ Except.error msg :: post).length = batch.length := by
      rw [← hsplit, hrslen, hbatchlen]
    simp only [List.length_append, List.length_cons] at hrs2
    rw [hc1, hc2, hok]
    simp only [Bool.false_eq_true, if_false]
    omega

set_option maxRecDepth 100000 in
/-- C1 witness: the amended theorem applied to the two-record batch with
the first call failing. -/
theorem c1_witness :
    (Ifk.process_batch c1respond "D" [c1mA, c1mB]).1.length = 2 - 1 :=
  (c1_failed_records_dropped c1respond "D" [c1mA, c1mB]).2.2
    [] [.ok (.obj [])] "boom" (by decide) (by decide)
    (by intro r hr; simp at hr) (by intro r hr; simp at hr; rw [hr]; rfl)

/-! Claim C3. -/

/-- Number of successful remote calls in one batch. -/
def batchSuccesses (respond : Nat → String → Except String Json)
    (cdate : String) (b : List Json) : Nat :=
  (Ifk.analyze_markets_batch respond
    ((b.filterMap (Ifk.prepMarket cdate)).map Ifk.Prep.content)).countP isOkB

/-- A batch's result list has one entry per successful call. -/
theorem process_batch_length (respond : Nat → String → Except String Json)
    (cdate : String) (batch : List Json) :
    (Ifk.process_batch respond cdate batch).1.length =
      batchSuccesses respond cdate batch := by
  have hprep : (batch.map (fun m => (m, Ifk.prepMarket cdate m))).filterMap
      (fun p => p.2) = batch.filterMap (Ifk.prepMarket cdate) := by
    rw [List.filterMap_map]
    rfl
  have hrslen : (Ifk.analyze_markets_batch respond
      ((batch.filterMap (Ifk.prepMarket cdate)).map Ifk.Prep.content)).length =
      (batch.filterMap (Ifk.prepMarket cdate)).length := by
    unfold Ifk.analyze_markets_batch
    simp
  have hmain : (Ifk.process_batch respond cdate batch).1 =
      (((batch.filterMap (Ifk.prepMarket cdate)).map Ifk.Prep.details).zip
        (Ifk.analyze_markets_batch respond
          ((batch.filterMap (Ifk.prepMarket cdate)).map Ifk.Prep.content))).filterMap
        (fun dr => match dr.2 with
          | .ok a => some (Json.obj [("market_details", dr.1), ("analysis", a)])
          | .error _ => none) := by
    unfold Ifk.process_batch
    dsimp only
    rw [hprep]
  rw [hmain]
  exact zip_filterMap_ok_length _ _ (by simp [hrslen])

/-- Concatenated batch results of consecutive batches, starting at batch
index `i0`. -/
def runBatches (respond : Nat → Nat → String → Except String Json)
    (cdate : String) : Nat → List (List Json) → List Json
  | _, [] => []
  | i0, b :: rest =>
    (Ifk.process_batch (respond i0) cdate b).1 ++
      runBatches respond cdate (i0 + 1) rest

/-- Closed form of the dispatcher's batch fold: final results, final batch
counter, and the checkpoint snapshot persisted after each batch. -/
theorem validate_fold (respond : Nat → Nat → String → Except String Json)
    (cdate : String) :
    ∀ (batches : List (List Json)) (res0 : List Json) (i0 : Nat)
      (cps0 : List (List Json)),
    batches.foldl (fun acc batch =>
      ((acc.1 ++ (Ifk.process_batch (respond acc.2.1) cdate batch).1 : List Json),
        acc.2.1 + 1,
        acc.2.2 ++ [acc.1 ++ (Ifk.process_batch (respond acc.2.1) cdate batch).1]))
      (res0, i0, cps0) =
      (res0 ++ runBatches respond cdate i0 batches, i0 + batches.length,
        cps0 ++ (List.range batches.length).map
          (fun j => res0 ++ runBatches respond cdate i0 (batches.take (j + 1)))) := by
  intro batches
  induction batches with
  | nil => intro res0 i0 cps0; simp [runBatches]
  | cons b rest ih =>
    intro res0 i0 cps0
    rw [List.foldl_cons, ih]
    refine Prod.ext ?_ (Prod.ext ?_ ?_)
    · show (res0 ++ (Ifk.process_batch (respond i0) cdate b).1) ++
        runBatches respond cdate (i0 + 1) rest =
        res0 ++ runBatches respond cdate i0 (b :: rest)
      rw [show runBatches respond cdate i0 (b :: rest) =
        (Ifk.process_batch (respond i0) cdate b).1 ++
          runBatches respond cdate (i0 + 1) rest from rfl]
      rw [List.append_assoc]
    · show i0 + 1 + rest.length = i0 + (rest.length + 1)
      omega
    · show (cps0 ++ [res0 ++ (Ifk.process_batch (respond i0) cdate b).1]) ++
        (List.range rest.length).map (fun j =>
          (res0 ++ (Ifk.process_batch (respond i0) cdate b).1) ++
            runBatches respond cdate (i0 + 1) (rest.take (j + 1))) =
        cps0 ++ (List.range (rest.length + 1)).map
          (fun j => res0 ++ runBatches respond cdate i0 ((b :: rest).take (j + 1)))
      rw [List.range_succ_eq_map, List.map_cons, List.map_map, List.append_assoc]
      congr 1
      rw [List.singleton_append]
      congr 1
      · show res0 ++ (Ifk.process_batch (respond i0) cdate b).1 =
          res0 ++ runBatches respond cdate i0 ((b :: rest).take 1)
        rw [show ((b :: rest).take 1) = [b] from rfl]
        rw [show runBatches respond cdate i0 [b] =
          (Ifk.process_batch (respond i0) cdate b).1 ++ [] from rfl]
        rw [List.append_nil]
      · apply List.map_congr_left
        intro j hj
        show (res0 ++ (Ifk.process_batch (respond i0) cdate b).1) ++
            runBatches respond cdate (i0 + 1) (rest.take (j + 1)) =
          res0 ++ runBatches respond cdate i0 ((b :: rest).take (j + 1 + 1))
        rw [show ((b :: rest).take (j + 1 + 1)) = b :: rest.take (j + 1) from rfl]
        rw [show runBatches respond cdate i0 (b :: rest.take (j + 1)) =
          (Ifk.process_batch (respond i0) cdate b).1 ++
            runBatches respond cdate (i0 + 1) (rest.take (j + 1)) from rfl]
        rw [List.append_assoc]

/-- Length of concatenated batch results: the sum of per-batch success
counts. -/
theorem runBatches_length (respond : Nat → Nat → String → Except String Json)
    (cdate : String) :
    ∀ (bs : List (List Json)) (i0 : Nat),
    (runBatches respond cdate i0 bs).length =
      ((List.range bs.length).map
        (fun i => batchSuccesses (respond (i0 + i)) cdate (bs.getD i []))).sum := by
  intro bs
  induction bs with
  | nil => intro i0; simp [runBatches]
  | cons b rest ih =>
    intro i0
    rw [show runBatches respond cdate i0 (b :: rest) =
      (Ifk.process_batch (respond i0) cdate b).1 ++
        runBatches respond cdate (i0 + 1) rest from rfl]
    rw [List.length_append, process_batch_length, ih (i0 + 1)]
    rw [List.length_cons, List.range_succ_eq_map, List.map_cons, List.map_map]
    rw [List.sum_cons]
    congr 1
    congr 1
    apply List.map_congr_left
    intro i hi
    show batchSuccesses (respond (i0 + 1 + i)) cdate (rest.getD i []) =
      batchSuccesses (respond (i0 + (i + 1))) cdate ((b :: rest).getD (i + 1) [])
    have h1 : i0 + 1 + i = i0 + (i + 1) := by omega
    have h2 : (b :: rest).getD (i + 1) [] = rest.getD i [] := rfl
    rw [h1, h2]

/-- Partial sums of the per-batch success counts are monotone. -/
theorem range_map_sum_mono (f : Nat → Nat) :
    ∀ (j1 j2 : Nat), j1 ≤ j2 →
    ((List.range j1).map f).sum ≤ ((List.range j2).map f).sum := by
  intro j1 j2 h
  induction j2 with
  | zero =>
    have : j1 = 0 := Nat.le_zero.mp h
    simp [this]
  | succ k ih =>
    rcases Nat.lt_or_ge j1 (k + 1) with hlt | hge
    · have hk := ih (Nat.lt_succ_iff.mp hlt)
      rw [List.range_succ, List.map_append, List.sum_append]
      omega
    · have : j1 = k + 1 := Nat.le_antisymm h hge
      simp [this]

/-- The failing oracle for the C3 counterexample. -/
def c3respond : Nat → Nat → String → Except String Json :=
  fun _ _ _ => .error "boom"

/-- The one-record input document for the C3 counterexample. -/
def c3data : Json :=
  .obj [("markets", .arr [.obj [("ticker", .str "AAA")]])]

set_option maxRecDepth 100000 in
/-- C3 counterexample: one batch of one record whose remote call fails. One
record (one failure, zero successes) was processed, so the claim requires
the persisted checkpoint to have length 1; the persisted checkpoint
sequence lengths are `[0]` — the failed record is not represented. -/
theorem c3_counterexample :
    (Ifk.validate_and_analyze_markets c3respond "D" c3data 1).map
        (fun t => t.2.map List.length) = some [0] ∧
    (Ifk.validate_and_analyze_markets c3respond "D" c3data 1).map
        (fun t => t.2.map List.length) ≠ some [1] := by
  exact ⟨by decide, by decide⟩

/-- C3 (amended): after each batch, the persisted checkpoint length equals
the number of successfully analyzed records so far — the sum over the
completed batches of the successful-call counts; failed records are not
counted (they are dropped, see the dispatcher's per-record handling). The
checkpoint sequence is append-only: each snapshot is a prefix of the next,
so its length is monotonically non-decreasing over the run. -/
theorem c3_checkpoint_successes_only
    (respond : Nat → Nat → String → Except String Json) (cdate : String)
    (data : Json) (l : List (String × Json)) (bsp : Nat) (ms : List Json)
    (hd : data = .obj l)
    (hm : jgetD data "markets" (.arr []) = .arr ms) :
    ∃ res cps, Ifk.validate_and_analyze_markets respond cdate data (bsp + 1) =
      some (res, cps) ∧
    cps.length = (Ifk.chunkAux bsp ms).length ∧
    (∀ j cp, cps.get? j = some cp →
      cp.length = ((List.range (j + 1)).map
        (fun i => batchSuccesses (respond i) cdate
          ((Ifk.chunkAux bsp ms).getD i []))).sum) ∧
    (∀ j cp cp2, cps.get? j = some cp → cps.get? (j + 1) = some cp2 →
      cp <+: cp2) ∧
    (∀ j1 j2 cp cp2, j1 ≤ j2 → cps.get? j1 = some cp → cps.get? j2 = some cp2 →
      cp.length ≤ cp2.length) := by
  subst hd
  have hrunapp : ∀ (bs1 bs2 : List (List Json)) (i0 : Nat),
      runBatches respond cdate i0 (bs1 ++ bs2) =
        runBatches respond cdate i0 bs1 ++
          runBatches respond cdate (i0 + bs1.length) bs2 := by
    intro bs1
    induction bs1 with
    | nil => intro bs2 i0; simp [runBatches]
    | cons b rest ih =>
      intro bs2 i0
      rw [List.cons_append]
      rw [show runBatches respond cdate i0 (b :: (rest ++ bs2)) =
        (Ifk.process_batch (respond i0) cdate b).1 ++
          runBatches respond cdate (i0 + 1) (rest ++ bs2) from rfl]
      rw [show runBatches respond cdate i0 (b :: rest) =
        (Ifk.process_batch (respond i0) cdate b).1 ++
          runBatches respond cdate (i0 + 1) rest from rfl]
      rw [ih bs2 (i0 + 1), List.append_assoc]
      congr 3
      simp
      omega
  have hv : Ifk.validate_and_analyze_markets respond cdate (.obj l) (bsp + 1) =
      some (runBatches respond cdate 0 (Ifk.chunkAux bsp ms),
        (List.range (Ifk.chunkAux bsp ms).length).map
          (fun j => runBatches respond cdate 0 ((Ifk.chunkAux bsp ms).take (j + 1)))) := by
    unfold Ifk.validate_and_analyze_markets
    dsimp only
    rw [hm]
    rw [show Ifk.marketsAsList (.arr ms) = some ms from rfl]
    dsimp only
    rw [validate_fold]
    simp
  have hget : ∀ j cp,
      ((List.range (Ifk.chunkAux bsp ms).length).map
        (fun j => runBatches respond cdate 0 ((Ifk.chunkAux bsp ms).take (j + 1)))).get? j =
        some cp →
      j < (Ifk.chunkAux bsp ms).length ∧
        cp = runBatches respond cdate 0 ((Ifk.chunkAux bsp ms).take (j + 1)) := by
    intro j cp hcp
    rw [List.get?_eq_getElem?, List.getElem?_map] at hcp
    by_cases hj : j < (Ifk.chunkAux bsp ms).length
    · rw [List.getElem?_range hj] at hcp
      simp only [Option.map_some'] at hcp
      exact ⟨hj, (Option.some.inj hcp).symm⟩
    · rw [List.getElem?_eq_none (by simpa using Nat.le_of_not_lt hj)] at hcp
      simp at hcp
  have hlen : ∀ j, j < (Ifk.chunkAux bsp ms).length →
      (runBatches respond cdate 0 ((Ifk.chunkAux bsp ms).take (j + 1))).length =
        ((List.range (j + 1)).map
          (fun i => batchSuccesses (respond i) cdate
            ((Ifk.chunkAux bsp ms).getD i []))).sum := by
    intro j hj
    rw [runBatches_length]
    have hlt : ((Ifk.chunkAux bsp ms).take (j + 1)).length = j + 1 := by
      rw [List.length_take]
      omega
    rw [hlt]
    congr 1
    apply List.map_congr_left
    intro i hi
    have hij : i < j + 1 := List.mem_range.mp hi
    have hgd : ((Ifk.chunkAux bsp ms).take (j + 1)).getD i [] =
        (Ifk.chunkAux bsp ms).getD i [] := by
      rw [List.getD_eq_getElem?_getD, List.getD_eq_getElem?_getD,
        List.getElem?_take_of_lt hij]
    rw [hgd]
    simp
  refine ⟨_, _, hv, by simp, ?_, ?_, ?_⟩
  · intro j cp hcp
    obtain ⟨hj, hcpv⟩ := hget j cp hcp
    rw [hcpv]
    exact hlen j hj
  · intro j cp cp2 hcp hcp2
    obtain ⟨hj, hcpv⟩ := hget j cp hcp
    obtain ⟨hj2, hcpv2⟩ := hget (j + 1) cp2 hcp2
    have hsplit : (Ifk.chunkAux bsp ms).take (j + 1 + 1) =
        (Ifk.chunkAux bsp ms).take (j + 1) ++
          ((Ifk.chunkAux bsp ms)[j + 1]?).toList := List.take_succ
    rw [hcpv, hcpv2, hsplit, hrunapp]
    exact ⟨_, rfl⟩
  · intro j1 j2 cp cp2 hle hcp hcp2
    obtain ⟨hj1, hcpv⟩ := hget j1 cp hcp
    obtain ⟨hj2, hcpv2⟩ := hget j2 cp2 hcp2
    rw [hcpv, hcpv2, hlen j1 hj1, hlen j2 hj2]
    exact range_map_sum_mono _ (j1 + 1) (j2 + 1) (by omega)

/-- Witness for C3: the amended checkpoint invariant instantiated on the
concrete one-record document `c3data` with batch size 1. -/
theorem c3_checkpoint_witness :
    c3data = .obj [("markets", .arr [.obj [("ticker", .str "AAA")]])] ∧
    jgetD c3data "markets" (.arr []) =
      .arr [.obj [("ticker", .str "AAA")]] ∧
    (∃ res cps,
      Ifk.validate_and_analyze_markets c3respond "D" c3data (0 + 1) =
        some (res, cps) ∧
      cps.length = (Ifk.chunkAux 0 [.obj [("ticker", .str "AAA")]]).length ∧
      (∀ j cp, cps.get? j = some cp →
        cp.length = ((List.range (j + 1)).map
          (fun i => batchSuccesses (c3respond i) "D"
            ((Ifk.chunkAux 0 [.obj [("ticker", .str "AAA")]]).getD i []))).sum) ∧
      (∀ j cp cp2, cps.get? j = some cp → cps.get? (j + 1) = some cp2 →
        cp <+: cp2) ∧
      (∀ j1 j2 cp cp2, j1 ≤ j2 → cps.get? j1 = some cp →
        cps.get? j2 = some cp2 → cp.length ≤ cp2.length)) :=
  ⟨rfl, by decide,
    c3_checkpoint_successes_only c3respond "D" c3data
      [("markets", .arr [.obj [("ticker", .str "AAA")]])] 0
      [.obj [("ticker", .str "AAA")]] rfl (by decide)⟩

/-! Claim C4. -/

/-- The relevance value the aggregator's loop reads for one market and
domain key. -/
def relOf (dk : String) (m : Json) : Json :=
  jgetD (jgetD ((Synth.parse_analysis_safely m).getD (.obj [])) dk (.obj []))
    "relevance" (.int 0)

/-- The spec's numeric admission test: the relevance value is a number at
least 6. -/
def specRelNum (rv : Json) : Bool :=
  match rv with
  | .int n => decide ((6 : Int) ≤ n)
  | .float q => decide (PDec.le (PDec.ofInt 6) q)
  | _ => false

/-- Spec-side admission predicate, written from the specification's words:
the assessment is present, the domain sub-object's `impact` is `true`, and
its `relevance` is a number at least 6. -/
def specAdmits (dk : String) (m : Json) : Bool :=
  match Synth.parse_analysis_safely m with
  | none => false
  | some ad =>
    match jget ad dk with
    | none => false
    | some di =>
      (jgetD di "impact" .null == Json.bool true) &&
        specRelNum (jgetD di "relevance" (.int 0))

/-- Well-typedness of the data model: a domain sub-object's `impact`, when
present, is a boolean. -/
def impactBoolTyped (dk : String) (m : Json) : Bool :=
  match Synth.parse_analysis_safely m with
  | none => true
  | some ad =>
    match jget ad dk with
    | none => true
    | some di =>
      match jget di "impact" with
      | none => true
      | some (.bool _) => true
      | some _ => false

/-- A successful key lookup means the dict is non-empty, hence truthy. -/
theorem truthy_of_jget_some (kvs : List (String × Json)) (k : String)
    (v : Json) (h : jget (.obj kvs) k = some v) : truthy (.obj kvs) = true := by
  cases kvs with
  | nil => simp [jget] at h
  | cons p t => rfl

/-- The code's numeric test (`isinstance(x, (int, float))` and `x >= 6`)
agrees with the spec's "a number at least 6": a boolean counts as a number
for `isinstance` but its value is at most 1, below the threshold. -/
theorem numCond_eq_specRelNum (rv : Json) :
    (Synth.pyIsNum rv &&
        decide (PDec.le (PDec.ofInt 6) (Synth.pyNumVal rv))) =
      specRelNum rv := by
  cases rv with
  | int n =>
    show (true && decide (PDec.le (PDec.ofInt 6) (PDec.ofInt n))) =
      decide ((6 : Int) ≤ n)
    rw [Bool.true_and]
    have h : PDec.le (PDec.ofInt 6) (PDec.ofInt n) ↔ (6 : Int) ≤ n := by
      show (6 : Int) * Int.pow 10 0 ≤ n * Int.pow 10 0 ↔ (6 : Int) ≤ n
      rw [show Int.pow 10 0 = 1 from rfl]
      omega
    exact decide_eq_decide.mpr h
  | float q =>
    show (true && decide (PDec.le (PDec.ofInt 6) q)) =
      decide (PDec.le (PDec.ofInt 6) q)
    rw [Bool.true_and]
  | bool b => cases b <;> rfl
  | null => rfl
  | str s => rfl
  | arr l => rfl
  | obj kvs => rfl

/-- On well-typed `impact` fields, the loop body of `build_domain_context`
admits exactly the spec-admitted markets, emitting the projected entry. -/
theorem entryOf_eq_specAdmits (dk : String) (m : Json)
    (hwt : impactBoolTyped dk m = true) :
    Synth.entryOf dk m =
      if specAdmits dk m then some (Synth.mkEntry m (relOf dk m))
      else none := by
  unfold impactBoolTyped at hwt
  unfold Synth.entryOf specAdmits relOf
  rcases hp : Synth.parse_analysis_safely m with _ | ad
  · rfl
  · rw [hp] at hwt
    dsimp only at hwt
    dsimp only
    cases ad with
    | null => rfl
    | bool b => cases b <;> rfl
    | int n => simp [jget]
    | float q => simp [jget]
    | str s => simp [jget]
    | arr el => simp [jget]
    | obj kvs =>
      rcases hdi : jget (.obj kvs) dk with _ | di
      · have hgd : jgetD (.obj kvs) dk (.obj []) = .obj [] := by
          unfold jgetD; rw [hdi]; rfl
        rw [hgd]
        simp [truthy]
      · have hgd : jgetD (.obj kvs) dk (.obj []) = di := by
          unfold jgetD; rw [hdi]; rfl
        rw [hdi] at hwt
        dsimp only at hwt
        rw [hgd]
        dsimp only
        cases di with
        | null => simp [truthy, jgetD, jget]
        | bool b =>
          cases b <;>
            simp [truthy, jgetD, jget,
              show (Json.null == Json.bool true) = false from rfl]
        | int n =>
          simp [jgetD, jget,
            show (Json.null == Json.bool true) = false from rfl]
        | float q =>
          simp [jgetD, jget,
            show (Json.null == Json.bool true) = false from rfl]
        | str s =>
          simp [jgetD, jget,
            show (Json.null == Json.bool true) = false from rfl]
        | arr el =>
          simp [jgetD, jget,
            show (Json.null == Json.bool true) = false from rfl]
        | obj dkvs =>
          cases dkvs with
          | nil =>
            simp [jgetD, jget, truthy,
              show (Json.null == Json.bool true) = false from rfl]
          | cons hd tl =>
            have htr : truthy (.obj kvs) = true :=
              truthy_of_jget_some kvs dk _ hdi
            rcases himp : jget (.obj (hd :: tl)) "impact" with _ | iv
            · have hgi : jgetD (.obj (hd :: tl)) "impact" .null = .null := by
                unfold jgetD; rw [himp]; rfl
              rw [hgi,
                show (Json.null == Json.bool true) = false from rfl]
              simp [truthy]
            · rw [himp] at hwt
              have hgi : jgetD (.obj (hd :: tl)) "impact" .null = iv := by
                unfold jgetD; rw [himp]; rfl
              rw [hgi]
              cases iv with
              | bool b =>
                cases b with
                | false =>
                  rw [show (Json.bool false == Json.bool true) = false
                      from rfl,
                    show truthy (Json.bool false) = false from rfl]
                  simp
                | true =>
                  rw [show truthy (Json.bool true) = true from rfl,
                    Bool.true_and, numCond_eq_specRelNum, htr,
                    show (Json.bool true == Json.bool true) = true from rfl,
                    Bool.true_and]
                  simp only [Option.getD_some]
                  rw [hgd]
                  simp [truthy]
              | null => simp at hwt
              | int n => simp at hwt
              | float q => simp at hwt
              | str s => simp at hwt
              | arr el => simp at hwt
              | obj l2 => simp at hwt

/-- Lifting the per-market admission equivalence over the loop. -/
theorem filterMap_entryOf_eq (dk : String) :
    ∀ (l : List Json), (∀ m ∈ l, impactBoolTyped dk m = true) →
      l.filterMap (Synth.entryOf dk) =
        (l.filter (fun m => specAdmits dk m)).map
          (fun m => Synth.mkEntry m (relOf dk m)) := by
  intro l
  induction l with
  | nil => intro _; rfl
  | cons a t ih =>
    intro h
    rw [List.filterMap_cons, List.filter_cons,
      entryOf_eq_specAdmits dk a (h a (by simp))]
    have hrest := ih (fun m hm => h m (by simp [hm]))
    by_cases hp : specAdmits dk a = true
    · simp [hp, hrest]
    · simp [hp, hrest]

/-- Membership in the output of a monadic map over `Option` comes from some
input element. -/
theorem mapM_mem_some {α β : Type} (f : α → Option β) :
    ∀ (ks : List α) (ys : List β), ks.mapM f = some ys →
      ∀ y ∈ ys, ∃ k, k ∈ ks ∧ f k = some y := by
  intro ks
  induction ks with
  | nil =>
    intro ys h y hy
    have h2 : (some ([] : List β) : Option (List β)) = some ys := h
    rw [← Option.some.inj h2] at hy
    simp at hy
  | cons k t ih =>
    intro ys h y hy
    rw [List.mapM_cons] at h
    simp only [Option.bind_eq_bind, Option.bind_eq_some, Option.pure_def,
      Option.some.injEq] at h
    obtain ⟨a, ha, as, has, hcons⟩ := h
    rw [← hcons] at hy
    rcases List.mem_cons.mp hy with hya | hyas
    · exact ⟨k, by simp, hya ▸ ha⟩
    · obtain ⟨k2, hk2, hf⟩ := ih as has y hyas
      exact ⟨k2, by simp [hk2], hf⟩

/-- The summary dict built by `categorize_markets` carries the admitted
relevance value under the `relevance` key. -/
theorem market_summary_relevance (market cd : Json) (rel : PDec) (s : Json)
    (h : Clean.market_summary market cd rel = some s) :
    jget s "relevance" = some (.float rel) := by
  unfold Clean.market_summary at h
  simp only [Option.bind_eq_bind, Option.bind_eq_some, Option.pure_def,
    Option.some.injEq] at h
  obtain ⟨md, hmd, ticker, ht, volume, hv, v24, hv24, msRaw, hms, msList,
    hml, subs, hsubs, hs⟩ := h
  rw [← hs]
  rfl

/-- The headline view admits an entry only when its relevance is at least
9. -/
theorem categorizeMarket_relevance_ge9 (m : Json)
    (adds : List (String × Json)) (h : Clean.categorizeMarket m = some adds) :
    ∀ p ∈ adds, ∃ rel, jget p.2 "relevance" = some (.float rel) ∧
      PDec.le (PDec.ofInt 9) rel := by
  intro p hp
  unfold Clean.categorizeMarket at h
  cases m with
  | null =>
    exact Option.noConfusion
      (show (none : Option (List (String × Json))) = some adds from h)
  | bool b =>
    exact Option.noConfusion
      (show (none : Option (List (String × Json))) = some adds from h)
  | int n =>
    exact Option.noConfusion
      (show (none : Option (List (String × Json))) = some adds from h)
  | float q =>
    exact Option.noConfusion
      (show (none : Option (List (String × Json))) = some adds from h)
  | str s =>
    exact Option.noConfusion
      (show (none : Option (List (String × Json))) = some adds from h)
  | arr el =>
    exact Option.noConfusion
      (show (none : Option (List (String × Json))) = some adds from h)
  | obj l =>
    dsimp only at h
    by_cases htr : truthy (jgetD (.obj l) "analysis" (.obj [])) = true
    · simp only [htr, Bool.not_true, Bool.false_eq_true, if_false] at h
      rcases ha : jgetD (.obj l) "analysis" (.obj [])
        with _ | b | n | q | s | el | akvs
      all_goals rw [ha] at h
      · exact Option.noConfusion h
      · exact Option.noConfusion h
      · exact Option.noConfusion h
      · exact Option.noConfusion h
      · exact Option.noConfusion h
      · exact Option.noConfusion h
      ·
        rw [Option.map_eq_some'] at h
        obtain ⟨lss, hmm, hfl⟩ := h
        rw [← hfl] at hp
        obtain ⟨ls, hls, hpls⟩ := List.mem_flatten.mp hp
        obtain ⟨k, hk, hfk⟩ := mapM_mem_some _ Clean.categories_keys lss hmm ls hls
        simp only [Option.bind_eq_bind, Option.bind_eq_some, Option.pure_def,
          Option.some.injEq] at hfk
        obtain ⟨relv, hrelv, hrest⟩ := hfk
        by_cases hg : PDec.le (PDec.ofInt 9)
            (Clean.safe_float relv (PDec.ofInt 0))
        · rw [if_pos hg] at hrest
          simp only [Option.bind_eq_bind, Option.bind_eq_some, Option.pure_def,
            Option.some.injEq] at hrest
          obtain ⟨s2, hs2, hls2⟩ := hrest
          rw [← hls2] at hpls
          have hpe : p = (k, s2) := by simpa using hpls
          refine ⟨Clean.safe_float relv (PDec.ofInt 0), ?_, hg⟩
          rw [hpe]
          exact market_summary_relevance _ _ _ _ hs2
        · rw [if_neg hg] at hrest
          have : ([] : List (String × Json)) = ls := Option.some.inj hrest
          rw [← this] at hpls
          simp at hpls
    · rw [Bool.not_eq_true] at htr
      rw [htr] at h
      simp only [Bool.not_false, eq_self_iff_true, if_true] at h
      have : ([] : List (String × Json)) = adds := Option.some.inj h
      rw [← this] at hp
      simp at hp

set_option maxHeartbeats 1000000 in
/-- C4: for a dict input whose `results` field is a list and whose markets
have well-typed boolean `impact` fields, `build_domain_context` on a valid
domain returns a success context whose `markets` list consists of exactly
the spec-admitted markets (assessment present, domain `impact` true,
numeric `relevance` at least 6), each projected to its
ticker/relevance/liquidity/volume entry, sorted descending by relevance
stably (equal-relevance entries keep input order); and the headline view
`categorize_markets` admits an entry only with relevance at least 9. -/
theorem c4_domain_admission_ranking
    (now domain dk : String) (l : List (String × Json)) (items : List Json)
    (hdk : Synth.domain_mapping.find? (fun p => p.1 == domain) =
      some (domain, dk))
    (hres : jgetD (.obj l) "results" (.arr []) = .arr items)
    (hwt : ∀ m ∈ items, impactBoolTyped dk m = true) :
    ∃ ranked,
      Synth.build_domain_context now (.obj l) domain =
        some (Json.obj [("timestamp", jgetD (.obj l) "timestamp" (.str now)),
          ("domain", .str domain),
          ("market_count", .int (items.filterMap (Synth.entryOf dk)).length),
          ("markets", .arr ranked), ("status", .str "success")]) ∧
      ranked = Synth.sortDescRel (items.filterMap (Synth.entryOf dk)) ∧
      items.filterMap (Synth.entryOf dk) =
        (items.filter (fun m => specAdmits dk m)).map
          (fun m => Synth.mkEntry m (relOf dk m)) ∧
      ranked.Perm (items.filterMap (Synth.entryOf dk)) ∧
      ranked.Sorted Synth.entryGE ∧
      (∀ q, ranked.filter (fun e => decide (PDec.veq (Synth.entryKey e) q)) =
        (items.filterMap (Synth.entryOf dk)).filter
          (fun e => decide (PDec.veq (Synth.entryKey e) q))) ∧
      (∀ m adds, Clean.categorizeMarket m = some adds →
        ∀ p ∈ adds, ∃ rel, jget p.2 "relevance" = some (.float rel) ∧
          PDec.le (PDec.ofInt 9) rel) := by
  refine ⟨Synth.sortDescRel (items.filterMap (Synth.entryOf dk)), ?_, rfl,
    filterMap_entryOf_eq dk items hwt, ?_, ?_,
    fun q => filter_sortDescRel_key _ q, categorizeMarket_relevance_ge9⟩
  · unfold Synth.build_domain_context
    rw [hdk]
    simp only [Option.map_some']
    rw [hres]
    rw [show Synth.iterItems (.arr items) = some items from rfl]
  · unfold Synth.sortDescRel
    exact List.perm_insertionSort _ _
  · unfold Synth.sortDescRel
    exact List.sorted_insertionSort _ _

/-- A concretely admitted market for the C4 witness: the analysis is
already a dict with all four domain keys, relevance 7 in the economic
domain. -/
def c4m1 : Json :=
  .obj [("market", .str "M1"), ("analysis", .obj [
    ("economic_indicators", .obj [("impact", .bool true),
      ("relevance", .int 7), ("reasoning", .str "a")]),
    ("geopolitical_events", .obj [("impact", .bool false),
      ("relevance", .int 1), ("reasoning", .str "b")]),
    ("regulatory_changes", .obj [("impact", .bool false),
      ("relevance", .int 1), ("reasoning", .str "c")]),
    ("technological_developments", .obj [("impact", .bool false),
      ("relevance", .int 1), ("reasoning", .str "d")])])]

set_option maxRecDepth 100000 in
/-- Witness for C4 at the one-market document with domain `economic`. -/
theorem c4_witness :
    Synth.domain_mapping.find? (fun p => p.1 == "economic") =
      some ("economic", "economic_indicators") ∧
    jgetD (.obj [("results", .arr [c4m1])]) "results" (.arr []) =
      .arr [c4m1] ∧
    (∀ m ∈ [c4m1], impactBoolTyped "economic_indicators" m = true) ∧
    (∃ ranked,
      Synth.build_domain_context "T" (.obj [("results", .arr [c4m1])])
          "economic" =
        some (Json.obj [("timestamp",
            jgetD (.obj [("results", .arr [c4m1])]) "timestamp" (.str "T")),
          ("domain", .str "economic"),
          ("market_count", .int
            ([c4m1].filterMap (Synth.entryOf "economic_indicators")).length),
          ("markets", .arr ranked), ("status", .str "success")]) ∧
      ranked = Synth.sortDescRel
        ([c4m1].filterMap (Synth.entryOf "economic_indicators")) ∧
      [c4m1].filterMap (Synth.entryOf "economic_indicators") =
        ([c4m1].filter (fun m => specAdmits "economic_indicators" m)).map
          (fun m => Synth.mkEntry m (relOf "economic_indicators" m)) ∧
      ranked.Perm ([c4m1].filterMap (Synth.entryOf "economic_indicators")) ∧
      ranked.Sorted Synth.entryGE ∧
      (∀ q, ranked.filter (fun e => decide (PDec.veq (Synth.entryKey e) q)) =
        ([c4m1].filterMap (Synth.entryOf "economic_indicators")).filter
          (fun e => decide (PDec.veq (Synth.entryKey e) q))) ∧
      (∀ m adds, Clean.categorizeMarket m = some adds →
        ∀ p ∈ adds, ∃ rel, jget p.2 "relevance" = some (.float rel) ∧
          PDec.le (PDec.ofInt 9) rel)) :=
  ⟨by decide, by decide, by decide,
    c4_domain_admission_ranking "T" "economic" "economic_indicators"
      [("results", .arr [c4m1])] [c4m1] (by decide) (by decide) (by decide)⟩

/-! Claim C5. -/

/-- Splitting a successful `Except` bind into its two stages. -/
theorem exceptBindOk {ε α β : Type} (x : Except ε α) (f : α → Except ε β)
    (b : β) (h : x.bind f = Except.ok b) : ∃ a, x = .ok a ∧ f a = .ok b := by
  cases x with
  | error e => exact Except.noConfusion h
  | ok a => exact ⟨a, rfl, h⟩

/-- A successful price-ladder prompt always hands back the stably sorted
detail list as the list's new contents. -/
theorem create_price_market_prompt_snd (cdate : String) (md : Json)
    (details : List Json) (p : String) (newl : List Json)
    (h : Ifk.create_price_market_prompt cdate md details = .ok (p, newl)) :
    newl = Ifk.sortDetailsAsc details := by
  unfold Ifk.create_price_market_prompt at h
  obtain ⟨qs, hqs, h⟩ := exceptBindOk _ _ _ h
  obtain ⟨optLines, hol, h⟩ := exceptBindOk _ _ _ h
  obtain ⟨ov, hov, h⟩ := exceptBindOk _ _ _ h
  have h2 := Except.ok.inj h
  exact (congrArg Prod.snd h2).symm

/-- A question of the C5 counterexample that is not a price question. -/
def c5d2 : Json :=
  .obj [("question", .str "Will it snow in NYC?")]

/-- A price question for the C5 counterexample and witness. -/
def c5d1 : Json :=
  .obj [("question", .str "Will Bitcoin reach $100 by June?")]

set_option maxRecDepth 100000 in
/-- C5 counterexample: with a price-shaped first question and a second
question that encodes no price threshold, the builder still takes the
price-ladder branch — visible in its output, which hands back the detail
list re-sorted by extracted price (the thresholdless question, price 0,
moves first), while the question-list branch always returns the list
unchanged. So "every outcome question encodes a threshold" is not
necessary for the price variant: only the first question is examined. -/
theorem c5_counterexample :
    Ifk.is_price_market "Will it snow in NYC?" = false ∧
    Ifk.detailQuestion c5d2 = .ok "Will it snow in NYC?" ∧
    (Ifk.create_consolidated_prompt "May 01, 2025" (.obj [])
        [c5d1, c5d2]).map (fun r => r.2) = .ok [c5d2, c5d1] ∧
    [c5d2, c5d1] ≠ [c5d1, c5d2] := by
  refine ⟨by decide, by decide, by decide, by decide⟩

/-- C5 (amended): the builder branches on the shape of the first outcome
question alone. If the first question is price-shaped, every successful
result is the price-ladder payload: the detail list is replaced by its
stable ascending sort by extracted price (so thresholds are listed in
ascending order) and the prompt wraps the price-ladder text; otherwise
every successful result is the question-list payload and the detail list
is unchanged. Whether the remaining questions encode thresholds is never
consulted. -/
theorem c5_first_question_branch (cdate : String) (md d0 : Json)
    (rest : List Json) (q0 : String)
    (hq0 : Ifk.detailQuestion d0 = .ok q0) :
    (Ifk.is_price_market q0 = true →
      ∀ j newList,
        Ifk.create_consolidated_prompt cdate md (d0 :: rest) =
          .ok (j, newList) →
        newList = Ifk.sortDetailsAsc (d0 :: rest) ∧
        newList.Sorted Ifk.detailLE ∧
        ∃ p, Ifk.create_price_market_prompt cdate md (d0 :: rest) =
            .ok (p, newList) ∧
          j = Json.obj [("ticker", jgetD md "ticker" (.str "unknown")),
            ("prompt", .str ("Market: " ++
              pyStr (jgetD md "ticker" (.str "unknown")) ++ "\n" ++ p ++
              "\n" ++ Ifk.assessment_template))]) ∧
    (Ifk.is_price_market q0 = false →
      ∀ j newList,
        Ifk.create_consolidated_prompt cdate md (d0 :: rest) =
          .ok (j, newList) →
        newList = d0 :: rest ∧
        ∃ p, Ifk.create_regular_market_prompt cdate md (d0 :: rest) =
            .ok p ∧
          j = Json.obj [("ticker", jgetD md "ticker" (.str "unknown")),
            ("prompt", .str ("Market: " ++
              pyStr (jgetD md "ticker" (.str "unknown")) ++ "\n" ++ p ++
              "\n" ++ Ifk.assessment_template))]) := by
  constructor
  · intro hb j newList h
    unfold Ifk.create_consolidated_prompt at h
    dsimp only at h
    obtain ⟨q0x, hq0x, h⟩ := exceptBindOk _ _ _ h
    rw [hq0] at hq0x
    have hqe := Except.ok.inj hq0x
    rw [← hqe, if_pos hb] at h
    obtain ⟨pr, hpr, h⟩ := exceptBindOk _ _ _ h
    have hpair := Except.ok.inj h
    have hj : j = Json.obj [("ticker", jgetD md "ticker" (.str "unknown")),
        ("prompt", .str ("Market: " ++
          pyStr (jgetD md "ticker" (.str "unknown")) ++ "\n" ++ pr.1 ++
          "\n" ++ Ifk.assessment_template))] :=
      (congrArg Prod.fst hpair).symm
    have hnl : newList = pr.2 := (congrArg Prod.snd hpair).symm
    have hsnd : pr.2 = Ifk.sortDetailsAsc (d0 :: rest) :=
      create_price_market_prompt_snd cdate md (d0 :: rest) pr.1 pr.2
        (by rw [hpr])
    refine ⟨hnl.trans hsnd, ?_, pr.1, ?_, hj⟩
    · rw [hnl.trans hsnd]
      unfold Ifk.sortDetailsAsc
      exact List.sorted_insertionSort _ _
    · rw [hnl]
      exact hpr
  · intro hb j newList h
    unfold Ifk.create_consolidated_prompt at h
    dsimp only at h
    obtain ⟨q0x, hq0x, h⟩ := exceptBindOk _ _ _ h
    rw [hq0] at hq0x
    have hqe := Except.ok.inj hq0x
    rw [← hqe, hb, if_neg Bool.false_ne_true] at h
    obtain ⟨info, hinfo, h⟩ := exceptBindOk _ _ _ h
    have hpair := Except.ok.inj h
    have hnl : newList = d0 :: rest := (congrArg Prod.snd hpair).symm
    refine ⟨hnl, info, hinfo, (congrArg Prod.fst hpair).symm⟩

set_option maxRecDepth 400000 in
/-- Witness for C5 at a two-question record whose first question is
price-shaped. -/
theorem c5_branch_witness :
    Ifk.detailQuestion c5d1 = .ok "Will Bitcoin reach $100 by June?" ∧
    ((Ifk.is_price_market "Will Bitcoin reach $100 by June?" = true →
      ∀ j newList,
        Ifk.create_consolidated_prompt "May 01, 2025" (.obj [])
            (c5d1 :: [c5d2]) = .ok (j, newList) →
        newList = Ifk.sortDetailsAsc (c5d1 :: [c5d2]) ∧
        newList.Sorted Ifk.detailLE ∧
        ∃ p, Ifk.create_price_market_prompt "May 01, 2025" (.obj [])
            (c5d1 :: [c5d2]) = .ok (p, newList) ∧
          j = Json.obj [("ticker",
              jgetD (.obj []) "ticker" (.str "unknown")),
            ("prompt", .str ("Market: " ++
              pyStr (jgetD (.obj []) "ticker" (.str "unknown")) ++ "\n" ++
              p ++ "\n" ++ Ifk.assessment_template))]) ∧
    (Ifk.is_price_market "Will Bitcoin reach $100 by June?" = false →
      ∀ j newList,
        Ifk.create_consolidated_prompt "May 01, 2025" (.obj [])
            (c5d1 :: [c5d2]) = .ok (j, newList) →
        newList = c5d1 :: [c5d2] ∧
        ∃ p, Ifk.create_regular_market_prompt "May 01, 2025" (.obj [])
            (c5d1 :: [c5d2]) = .ok p ∧
          j = Json.obj [("ticker",
              jgetD (.obj []) "ticker" (.str "unknown")),
            ("prompt", .str ("Market: " ++
              pyStr (jgetD (.obj []) "ticker" (.str "unknown")) ++ "\n" ++
              p ++ "\n" ++ Ifk.assessment_template))])) :=
  ⟨by decide,
    c5_first_question_branch "May 01, 2025" (.obj []) c5d1 [c5d2]
      "Will Bitcoin reach $100 by June?" (by decide)⟩

/-! Claim C7. -/

/-- Raising the relevance value of one domain sub-object, leaving every
other field in place (insertion keeps dict order, as Python does). -/
def bumpRel (dk : String) (newRel : Json) (ad : Json) : Json :=
  match ad, jget ad dk with
  | .obj kvs, some (.obj dkvs) =>
    .obj (objInsert kvs dk (.obj (objInsert dkvs "relevance" newRel)))
  | _, _ => ad

/-- One market's relevance mutated upward (or its analysis left entirely
unchanged), all other fields unchanged, stated on the parsed analysis the
aggregator actually reads. -/
def RelBump (dk : String) (m m' : Json) : Prop :=
  Synth.parse_analysis_safely m' = Synth.parse_analysis_safely m ∨
  ∃ ad newRel, Synth.parse_analysis_safely m = some ad ∧
    Synth.parse_analysis_safely m' = some (bumpRel dk newRel ad) ∧
    Synth.pyIsNum newRel = true ∧
    PDec.le (Synth.pyNumVal (jgetD (jgetD ad dk (.obj []))
      "relevance" (.int 0))) (Synth.pyNumVal newRel)

/-- The admission test of `build_domain_context`'s loop as a function of
the parsed analysis alone. -/
def admitB (dk : String) (oad : Option Json) : Bool :=
  match oad with
  | none => false
  | some ad =>
    if !truthy ad then false
    else
      match ad with
      | .obj _ =>
        let di := jgetD ad dk (.obj [])
        if !truthy di then false
        else
          match di with
          | .obj _ =>
            truthy (jgetD di "impact" .null) &&
              Synth.pyIsNum (jgetD di "relevance" (.int 0)) &&
              decide (PDec.le (PDec.ofInt 6)
                (Synth.pyNumVal (jgetD di "relevance" (.int 0))))
          | _ => false
      | _ => false

/-- Admission depends only on the parsed analysis. -/
theorem entryOf_isSome_eq (dk : String) (m : Json) :
    (Synth.entryOf dk m).isSome = admitB dk (Synth.parse_analysis_safely m) := by
  unfold Synth.entryOf admitB
  rcases Synth.parse_analysis_safely m with _ | ad
  · rfl
  · dsimp only
    cases ad with
    | obj kvs =>
      by_cases h1 : truthy (.obj kvs) = true
      · simp only [h1, Bool.not_true, Bool.false_eq_true, if_false]
        rcases jgetD (.obj kvs) dk (.obj []) with _ | b | n | q | s | el | dkvs
        · rfl
        · by_cases h2 : b = true <;> simp [h2]
        · by_cases h2 : truthy (.int n) = true <;> simp [h2]
        · by_cases h2 : truthy (.float q) = true <;> simp [h2]
        · by_cases h2 : truthy (.str s) = true <;> simp [h2]
        · by_cases h2 : truthy (.arr el) = true <;> simp [h2]
        ·
          by_cases h2 : truthy (.obj dkvs) = true
          · simp only [h2, Bool.not_true, Bool.false_eq_true, if_false]
            by_cases h3 : (truthy (jgetD (.obj dkvs) "impact" .null) &&
                Synth.pyIsNum (jgetD (.obj dkvs) "relevance" (.int 0)) &&
                decide (PDec.le (PDec.ofInt 6)
                  (Synth.pyNumVal (jgetD (.obj dkvs) "relevance" (.int 0))))) =
              true <;> simp [h3]
          · simp [h2]
      · simp [h1]
    | null => rfl
    | bool b => by_cases h1 : b = true <;> simp [h1]
    | int n => by_cases h1 : truthy (.int n) = true <;> simp [h1]
    | float q => by_cases h1 : truthy (.float q) = true <;> simp [h1]
    | str s => by_cases h1 : truthy (.str s) = true <;> simp [h1]
    | arr el => by_cases h1 : truthy (.arr el) = true <;> simp [h1]

/-- Inserting a binding never empties a dict. -/
theorem truthy_objInsert (kvs : List (String × Json)) (k : String) (v : Json) :
    truthy (.obj (objInsert kvs k v)) = true := by
  show (!(objInsert kvs k v).isEmpty) = true
  unfold objInsert
  by_cases h : kvs.any (fun p => p.1 = k)
  · rw [if_pos h]
    cases kvs with
    | nil => simp at h
    | cons a t => rfl
  · rw [if_neg h]
    cases kvs <;> rfl

/-- Raising an admitted market's relevance to another number at least as
large keeps it admitted. -/
theorem admitB_bump (dk : String) (ad newRel : Json)
    (hnum : Synth.pyIsNum newRel = true)
    (hge : PDec.le (Synth.pyNumVal (jgetD (jgetD ad dk (.obj []))
      "relevance" (.int 0))) (Synth.pyNumVal newRel))
    (hadm : admitB dk (some ad) = true) :
    admitB dk (some (bumpRel dk newRel ad)) = true := by
  unfold admitB at hadm
  cases ad with
  | null => simp [truthy] at hadm
  | bool b => cases b <;> simp [truthy] at hadm
  | int n =>
    by_cases h1 : truthy (.int n) = true <;> simp [h1] at hadm
  | float q =>
    by_cases h1 : truthy (.float q) = true <;> simp [h1] at hadm
  | str s =>
    by_cases h1 : truthy (.str s) = true <;> simp [h1] at hadm
  | arr el =>
    by_cases h1 : truthy (.arr el) = true <;> simp [h1] at hadm
  | obj kvs =>
    by_cases h1 : truthy (.obj kvs) = true
    · simp only [h1, Bool.not_true, Bool.false_eq_true, if_false] at hadm
      rcases hdi : jget (.obj kvs) dk with _ | di
      · have hgd : jgetD (.obj kvs) dk (.obj []) = .obj [] := by
          unfold jgetD; rw [hdi]; rfl
        rw [hgd] at hadm
        simp [truthy] at hadm
      · have hgd : jgetD (.obj kvs) dk (.obj []) = di := by
          unfold jgetD; rw [hdi]; rfl
        rw [hgd] at hadm hge
        cases di with
        | null => simp [truthy] at hadm
        | bool b => cases b <;> simp [truthy] at hadm
        | int n2 =>
          by_cases h2 : truthy (.int n2) = true <;> simp [h2] at hadm
        | float q2 =>
          by_cases h2 : truthy (.float q2) = true <;> simp [h2] at hadm
        | str s2 =>
          by_cases h2 : truthy (.str s2) = true <;> simp [h2] at hadm
        | arr el2 =>
          by_cases h2 : truthy (.arr el2) = true <;> simp [h2] at hadm
        | obj dkvs =>
          by_cases h2 : truthy (.obj dkvs) = true
          · simp only [h2, Bool.not_true, Bool.false_eq_true,
              if_false, Bool.and_eq_true, decide_eq_true_eq] at hadm
            obtain ⟨⟨himp, hnumo⟩, h6⟩ := hadm
            have hbr : bumpRel dk newRel (.obj kvs) =
                .obj (objInsert kvs dk
                  (.obj (objInsert dkvs "relevance" newRel))) := by
              unfold bumpRel
              rw [hdi]
            rw [hbr]
            unfold admitB
            dsimp only
            rw [truthy_objInsert]
            simp only [Bool.not_true, Bool.false_eq_true, if_false]
            have hgd2 : jgetD (.obj (objInsert kvs dk
                (.obj (objInsert dkvs "relevance" newRel)))) dk (.obj []) =
                .obj (objInsert dkvs "relevance" newRel) := by
              unfold jgetD
              rw [jget_objInsert_self]
              rfl
            rw [hgd2, truthy_objInsert]
            simp only [Bool.not_true, Bool.false_eq_true, if_false]
            have hgi : jgetD (.obj (objInsert dkvs "relevance" newRel))
                "impact" .null = jgetD (.obj dkvs) "impact" .null := by
              unfold jgetD
              rw [jget_objInsert_ne dkvs "relevance" "impact" newRel
                (by decide)]
            have hgr : jgetD (.obj (objInsert dkvs "relevance" newRel))
                "relevance" (.int 0) = newRel := by
              unfold jgetD
              rw [jget_objInsert_self]
              rfl
            rw [hgi, hgr, himp, hnum]
            simp only [Bool.true_and, decide_eq_true_eq]
            exact (PDec.le_iff _ _).mpr
              (le_trans ((PDec.le_iff _ _).mp h6) ((PDec.le_iff _ _).mp hge))
          · simp [h2] at hadm
    · simp [h1] at hadm

/-- An admitted market stays admitted through an upward relevance
mutation. -/
theorem entryOf_isSome_of_relBump (dk : String) (m m' : Json)
    (h : RelBump dk m m') (ha : (Synth.entryOf dk m).isSome = true) :
    (Synth.entryOf dk m').isSome = true := by
  rw [entryOf_isSome_eq] at ha ⊢
  rcases h with heq | ⟨ad, newRel, hpa, hpa', hnum, hge⟩
  · rw [heq]
    exact ha
  · rw [hpa] at ha
    rw [hpa']
    exact admitB_bump dk ad newRel hnum hge ha

/-- C7: if relevance scores are mutated upward (each market's parsed
analysis either unchanged or with one domain relevance raised to another
number at least as large, all other fields kept), then every market
admitted to the domain's ranked list before the mutation is still admitted
after it, and its entry appears in the new ranked list. -/
theorem c7_admission_monotonicity (dk : String) (ms ms' : List Json)
    (hrel : ∀ i (hi : i < ms.length) (hi' : i < ms'.length),
      RelBump dk (ms.get ⟨i, hi⟩) (ms'.get ⟨i, hi'⟩)) :
    ∀ i (hi : i < ms.length) (hi' : i < ms'.length),
      (Synth.entryOf dk (ms.get ⟨i, hi⟩)).isSome = true →
      (Synth.entryOf dk (ms'.get ⟨i, hi'⟩)).isSome = true ∧
      ∃ e, Synth.entryOf dk (ms'.get ⟨i, hi'⟩) = some e ∧
        e ∈ Synth.sortDescRel (ms'.filterMap (Synth.entryOf dk)) := by
  intro i hi hi' ha
  have hs := entryOf_isSome_of_relBump dk _ _ (hrel i hi hi') ha
  refine ⟨hs, ?_⟩
  obtain ⟨e, he⟩ := Option.isSome_iff_exists.mp hs
  refine ⟨e, he, ?_⟩
  have hmem : e ∈ ms'.filterMap (Synth.entryOf dk) :=
    List.mem_filterMap.mpr ⟨ms'.get ⟨i, hi'⟩, List.get_mem ms' i hi', he⟩
  exact (List.perm_insertionSort Synth.entryGE _).symm.subset hmem

/-- The C7 witness market: `c4m1` with its economic relevance raised from
7 to 9. -/
def c7m1 : Json :=
  .obj [("market", .str "M1"), ("analysis", .obj [
    ("economic_indicators", .obj [("impact", .bool true),
      ("relevance", .int 9), ("reasoning", .str "a")]),
    ("geopolitical_events", .obj [("impact", .bool false),
      ("relevance", .int 1), ("reasoning", .str "b")]),
    ("regulatory_changes", .obj [("impact", .bool false),
      ("relevance", .int 1), ("reasoning", .str "c")]),
    ("technological_developments", .obj [("impact", .bool false),
      ("relevance", .int 1), ("reasoning", .str "d")])])]

/-- The parsed analysis of `c4m1`, used to exhibit the C7 mutation. -/
def c7ad : Json :=
  .obj [("economic_indicators", .obj [("impact", .bool true),
    ("relevance", .int 7), ("reasoning", .str "a")]),
    ("geopolitical_events", .obj [("impact", .bool false),
      ("relevance", .int 1), ("reasoning", .str "b")]),
    ("regulatory_changes", .obj [("impact", .bool false),
      ("relevance", .int 1), ("reasoning", .str "c")]),
    ("technological_developments", .obj [("impact", .bool false),
      ("relevance", .int 1), ("reasoning", .str "d")])]

set_option maxRecDepth 100000 in
/-- Witness for C7: raising `c4m1`'s economic relevance from 7 to 9 keeps
it admitted and in the ranked list. -/
theorem c7_witness :
    (∀ i (hi : i < [c4m1].length) (hi' : i < [c7m1].length),
      RelBump "economic_indicators" ([c4m1].get ⟨i, hi⟩)
        ([c7m1].get ⟨i, hi'⟩)) ∧
    (∀ i (hi : i < [c4m1].length) (hi' : i < [c7m1].length),
      (Synth.entryOf "economic_indicators" ([c4m1].get ⟨i, hi⟩)).isSome =
        true →
      (Synth.entryOf "economic_indicators" ([c7m1].get ⟨i, hi'⟩)).isSome =
        true ∧
      ∃ e, Synth.entryOf "economic_indicators" ([c7m1].get ⟨i, hi'⟩) =
          some e ∧
        e ∈ Synth.sortDescRel
          ([c7m1].filterMap (Synth.entryOf "economic_indicators"))) := by
  have hrel : ∀ i (hi : i < [c4m1].length) (hi' : i < [c7m1].length),
      RelBump "economic_indicators" ([c4m1].get ⟨i, hi⟩)
        ([c7m1].get ⟨i, hi'⟩) := by
    intro i hi hi'
    have hz : i = 0 := by
      have := hi
      simp at this
      omega
    subst hz
    show RelBump "economic_indicators" c4m1 c7m1
    exact Or.inr ⟨c7ad, .int 9, by decide, by decide, by decide, by decide⟩
  exact ⟨hrel, c7_admission_monotonicity "economic_indicators" [c4m1] [c7m1]
    hrel⟩

/-! Claim C8. -/

/-- Reducing a successful first stage of an `Except` bind. -/
theorem except_bind_ok {ε α β : Type} (a : α) (f : α → Except ε β) :
    (Except.ok a : Except ε α) >>= f = f a := rfl

/-- A truthy `markets_detail` list passes through unchanged; an empty one
is replaced by the (equal) empty default. -/
theorem detailsAsList_arr (dl dlist : List Json)
    (h : Ifk.detailsAsList (.arr dl) = some dlist) : dlist = dl := by
  cases dl with
  | nil => simpa [Ifk.detailsAsList, truthy] using h.symm
  | cons a t => simpa [Ifk.detailsAsList, truthy] using h.symm

/-- The consolidated prompt hands back either the original detail list or
its ascending sort. -/
theorem create_consolidated_prompt_snd (cdate : String) (md : Json)
    (details : List Json) (pr : Json × List Json)
    (h : Ifk.create_consolidated_prompt cdate md details = .ok pr) :
    pr.2 = details ∨ pr.2 = Ifk.sortDetailsAsc details := by
  cases details with
  | nil =>
    unfold Ifk.create_consolidated_prompt at h
    left
    exact (congrArg Prod.snd (Except.ok.inj h)).symm
  | cons d0 rest =>
    unfold Ifk.create_consolidated_prompt at h
    dsimp only at h
    obtain ⟨q0, hq0, h⟩ := exceptBindOk _ _ _ h
    by_cases hb : Ifk.is_price_market q0 = true
    · rw [if_pos hb] at h
      obtain ⟨cp, hcp, h⟩ := exceptBindOk _ _ _ h
      right
      have h2 := (congrArg Prod.snd (Except.ok.inj h)).symm
      rw [h2]
      exact create_price_market_prompt_snd cdate md (d0 :: rest) cp.1 cp.2
        (by rw [hcp])
    · rw [if_neg hb] at h
      obtain ⟨info, hinfo, h⟩ := exceptBindOk _ _ _ h
      left
      exact (congrArg Prod.snd (Except.ok.inj h)).symm

/-- Destructing a successful preparation step into its stages. -/
theorem prepMarket_some_destruct (cdate : String) (market : Json)
    (p : Ifk.Prep) (hp : Ifk.prepMarket cdate market = some p) :
    ∃ details dlist pr,
      Ifk.extract_market_details market = .ok details ∧
      Ifk.detailsAsList (jgetD market "markets_detail" (.arr [])) =
        some dlist ∧
      Ifk.create_consolidated_prompt cdate market dlist = .ok pr ∧
      p.details = details ∧ p.mutated = Ifk.applyMutation market pr.2 := by
  unfold Ifk.prepMarket at hp
  rcases hdet : Ifk.extract_market_details market with e | details
  case error =>
    rw [hdet] at hp
    exact Option.noConfusion (show (none : Option Ifk.Prep) = some p from hp)
  case ok =>
    rw [hdet] at hp
    simp only [except_bind_ok] at hp
    rcases hdl0 : Ifk.detailsAsList (jgetD market "markets_detail" (.arr []))
      with _ | dlist
    · rw [hdl0] at hp
      exact Option.noConfusion
        (show (none : Option Ifk.Prep) = some p from hp)
    · rw [hdl0] at hp
      dsimp only at hp
      simp only [except_bind_ok] at hp
      rcases hpr : Ifk.create_consolidated_prompt cdate market dlist
        with e | pr
      · rw [hpr] at hp
        exact Option.noConfusion
          (show (none : Option Ifk.Prep) = some p from hp)
      · rw [hpr] at hp
        simp only [except_bind_ok] at hp
        rcases hjp : jget pr.1 "prompt" with _ | v
        · rw [hjp] at hp
          exact Option.noConfusion
            (show (none : Option Ifk.Prep) = some p from hp)
        · rw [hjp] at hp
          cases v with
          | str content =>
            dsimp only at hp
            have hpe := Option.some.inj hp
            exact ⟨details, dlist, pr, rfl, rfl, hpr,
              (congrArg Ifk.Prep.details hpe).symm,
              (congrArg Ifk.Prep.mutated hpe).symm⟩
          | null =>
            exact Option.noConfusion
              (show (none : Option Ifk.Prep) = some p from hp)
          | bool b =>
            exact Option.noConfusion
              (show (none : Option Ifk.Prep) = some p from hp)
          | int n =>
            exact Option.noConfusion
              (show (none : Option Ifk.Prep) = some p from hp)
          | float q =>
            exact Option.noConfusion
              (show (none : Option Ifk.Prep) = some p from hp)
          | arr el =>
            exact Option.noConfusion
              (show (none : Option Ifk.Prep) = some p from hp)
          | obj kvs =>
            exact Option.noConfusion
              (show (none : Option Ifk.Prep) = some p from hp)

/-- C8 (amended): preparation annotates a copy — the batch entry's
`market_details` is the fresh projection extracted from the unmutated
record — but the record itself is NOT always left unchanged: the only
possible change is that its `markets_detail` list is reordered in place
into the stable ascending sort by extracted price (a permutation; every
other field keeps its value and position), and when the first question is
not price-shaped the record is exactly unchanged. -/
theorem c8_frame_condition (cdate : String) (kvs : List (String × Json))
    (hnd : (kvs.map Prod.fst).Nodup) :
    ∀ p, Ifk.prepMarket cdate (.obj kvs) = some p →
    Ifk.extract_market_details (.obj kvs) = .ok p.details ∧
    (p.mutated = .obj kvs ∨
      ∃ dl, jget (.obj kvs) "markets_detail" = some (.arr dl) ∧
        p.mutated = .obj (objInsert kvs "markets_detail"
          (.arr (Ifk.sortDetailsAsc dl))) ∧
        (Ifk.sortDetailsAsc dl).Perm dl ∧
        (Ifk.sortDetailsAsc dl).Sorted Ifk.detailLE) ∧
    (∀ dl d0 rest q0, jget (.obj kvs) "markets_detail" = some (.arr dl) →
      dl = d0 :: rest → Ifk.detailQuestion d0 = .ok q0 →
      Ifk.is_price_market q0 = false → p.mutated = .obj kvs) := by
  intro p hp
  obtain ⟨details, dlist, pr, hdet, hdl, hpr, hpd, hpm⟩ :=
    prepMarket_some_destruct cdate (.obj kvs) p hp
  refine ⟨by rw [hdet, hpd], ?_, ?_⟩
  · rw [hpm]
    unfold Ifk.applyMutation
    dsimp only
    rcases hmd : jget (.obj kvs) "markets_detail" with _ | v
    · left
      rfl
    · cases v with
      | arr dl =>
        have hgd : jgetD (.obj kvs) "markets_detail" (.arr []) = .arr dl := by
          unfold jgetD; rw [hmd]; rfl
        rw [hgd] at hdl
        have hdd : dlist = dl := detailsAsList_arr dl dlist hdl
        rcases create_consolidated_prompt_snd cdate (.obj kvs) dlist pr hpr
          with hsame | hsort
        · left
          rw [hsame, hdd]
          rw [objInsert_self kvs "markets_detail" (.arr dl) hnd hmd]
        · right
          refine ⟨dl, rfl, ?_, ?_, ?_⟩
          · rw [hsort, hdd]
          · exact List.perm_insertionSort _ _
          · exact List.sorted_insertionSort _ _
      | null => left; rfl
      | bool b => left; rfl
      | int n => left; rfl
      | float q => left; rfl
      | str s => left; rfl
      | obj kvs2 => left; rfl
  · intro dl d0 rest q0 hmd hcons hq0 hnp
    have hgd : jgetD (.obj kvs) "markets_detail" (.arr []) = .arr dl := by
      unfold jgetD; rw [hmd]; rfl
    rw [hgd] at hdl
    have hdd : dlist = dl := detailsAsList_arr dl dlist hdl
    rw [hdd, hcons] at hpr
    unfold Ifk.create_consolidated_prompt at hpr
    dsimp only at hpr
    obtain ⟨q0x, hq0x, hpr⟩ := exceptBindOk _ _ _ hpr
    rw [hq0] at hq0x
    have hqe := Except.ok.inj hq0x
    rw [← hqe, hnp, if_neg Bool.false_ne_true] at hpr
    obtain ⟨info, hinfo, hpr⟩ := exceptBindOk _ _ _ hpr
    have hp2 : pr.2 = d0 :: rest :=
      (congrArg Prod.snd (Except.ok.inj hpr)).symm
    rw [hpm]
    unfold Ifk.applyMutation
    dsimp only
    rw [hmd, hp2, ← hcons]
    exact congrArg Json.obj
      (objInsert_self kvs "markets_detail" (.arr dl) hnd hmd)

/-- A detail with a higher price threshold, listed first in the C8
record. -/
def c8d1 : Json :=
  .obj [("question", .str "Will X reach $200 by June?")]

/-- A detail with a lower price threshold, listed second. -/
def c8d2 : Json :=
  .obj [("question", .str "Will X reach $100 by June?")]

/-- The caller-owned record of the C8 counterexample and witness. -/
def c8kvs : List (String × Json) :=
  [("ticker", .str "T8"), ("markets_detail", .arr [c8d1, c8d2])]

set_option maxRecDepth 100000 in
/-- C8 counterexample: preparing a price-ladder record leaves the caller's
record with its `markets_detail` list reordered in place (ascending by
price), so the core does mutate the caller-owned record. -/
theorem c8_counterexample :
    (Ifk.prepMarket "May 01, 2025" (.obj c8kvs)).map (fun p => p.mutated) =
      some (.obj [("ticker", .str "T8"),
        ("markets_detail", .arr [c8d2, c8d1])]) ∧
    Json.obj [("ticker", .str "T8"),
        ("markets_detail", .arr [c8d2, c8d1])] ≠ .obj c8kvs ∧
    (Ifk.process_batch (fun _ _ => .error "net") "May 01, 2025"
        [.obj c8kvs]).2 =
      [.obj [("ticker", .str "T8"),
        ("markets_detail", .arr [c8d2, c8d1])]] := by
  refine ⟨by decide, by decide, by decide⟩

set_option maxRecDepth 100000 in
/-- Witness for C8 on the concrete two-detail price record. -/
theorem c8_witness :
    ((c8kvs.map Prod.fst).Nodup) ∧
    (Ifk.prepMarket "May 01, 2025" (.obj c8kvs)).isSome = true ∧
    (∀ p, Ifk.prepMarket "May 01, 2025" (.obj c8kvs) = some p →
      Ifk.extract_market_details (.obj c8kvs) = .ok p.details ∧
      (p.mutated = .obj c8kvs ∨
        ∃ dl, jget (.obj c8kvs) "markets_detail" = some (.arr dl) ∧
          p.mutated = .obj (objInsert c8kvs "markets_detail"
            (.arr (Ifk.sortDetailsAsc dl))) ∧
          (Ifk.sortDetailsAsc dl).Perm dl ∧
          (Ifk.sortDetailsAsc dl).Sorted Ifk.detailLE) ∧
      (∀ dl d0 rest q0,
        jget (.obj c8kvs) "markets_detail" = some (.arr dl) →
        dl = d0 :: rest → Ifk.detailQuestion d0 = .ok q0 →
        Ifk.is_price_market q0 = false → p.mutated = .obj c8kvs)) :=
  ⟨by decide, by decide, c8_frame_condition "May 01, 2025" c8kvs (by decide)⟩

/-! Claim C6. -/

/-- A character `json.dumps` renders verbatim and the normalisation chain
cannot disturb: printable ASCII that is neither a quote nor a backslash. -/
def plainChar (c : Char) : Bool :=
  32 ≤ c.toNat && c.toNat ≤ 126 && c ≠ '"' && c ≠ '\\'

mutual

/-- Values whose `json.dumps` rendering the scanner reads back verbatim:
no floats, plain-ASCII strings and keys, and duplicate-free keys. -/
def jplain : Json → Bool
  | .null => true
  | .bool _ => true
  | .int _ => true
  | .float _ => false
  | .str s => s.data.all plainChar
  | .arr l => jplainL l
  | .obj kvs => jplainM kvs && decide ((kvs.map Prod.fst).Nodup)

/-- Element-wise plainness. -/
def jplainL : List Json → Bool
  | [] => true
  | x :: xs => jplain x && jplainL xs

/-- Member-wise plainness: plain keys and plain values. -/
def jplainM : List (String × Json) → Bool
  | [] => true
  | (k, v) :: kvs => k.data.all plainChar && jplain v && jplainM kvs

end

mutual

/-- Fuel sufficient for `parseValue` on the rendering of a value. -/
def jneed : Json → Nat
  | .null => 1
  | .bool _ => 1
  | .int _ => 1
  | .float _ => 1
  | .str _ => 1
  | .arr l => 1 + jneedL l
  | .obj kvs => 1 + jneedM kvs

/-- Fuel sufficient for `parseItems` on the remaining elements. -/
def jneedL : List Json → Nat
  | [] => 0
  | x :: xs => 1 + max (jneed x) (jneedL xs)

/-- Fuel sufficient for `parseMembers` on the remaining members. -/
def jneedM : List (String × Json) → Nat
  | [] => 0
  | (_, v) :: kvs => 1 + max (jneed v) (jneedM kvs)

end

/-- A continuation after a rendered value never extends a number literal:
empty, or starting with a delimiter. -/
def restSafe : List Char → Bool
  | [] => true
  | c :: _ => !isDigitC c && c ≠ '.' && c ≠ 'e' && c ≠ 'E'

/-- Whitespace skipping stops at once on a non-whitespace head. -/
theorem skipWs_not_ws (c : Char) (cs : List Char) (p : Nat)
    (h : isJsonWs c = false) : skipWs (c :: cs) p = (c :: cs, p) := by
  unfold skipWs
  rw [h]
  rfl

/-- Appending a final digit multiplies the run's value by ten. -/
theorem digitsVal_append (l : List Char) (c : Char) :
    digitsVal (l ++ [c]) = 10 * digitsVal l + (c.toNat - 48) := by
  unfold digitsVal
  rw [List.foldl_append]
  rfl

/-- The rendered digit of `m < 10` is a digit character carrying `m`. -/
theorem digitChar_spec (m : Nat) (hm : m < 10) :
    isDigitC (Char.ofNat (48 + m)) = true ∧
      (Char.ofNat (48 + m)).toNat = 48 + m ∧
      (0 < m → Char.ofNat (48 + m) ≠ '0') := by
  interval_cases m <;>
    exact ⟨by decide, by decide, by intro h; first
      | exact absurd h (by omega)
      | decide⟩

/-- The digit rendering of a positive number: a nonzero leading digit, all
digits, value recovered. -/
theorem natDigitsAux_spec : ∀ fuel n, 0 < n → n ≤ fuel →
    ∃ d ds, natDigitsAux fuel n = d :: ds ∧ isDigitC d = true ∧ d ≠ '0' ∧
      (∀ c ∈ d :: ds, isDigitC c = true) ∧ digitsVal (d :: ds) = n := by
  intro fuel
  induction fuel with
  | zero => intro n h1 h2; omega
  | succ f ih =>
    intro n h1 h2
    rcases n with _ | m
    · omega
    rw [show natDigitsAux (f + 1) (m + 1) =
      natDigitsAux f ((m + 1) / 10) ++ [Char.ofNat (48 + (m + 1) % 10)]
      from rfl]
    by_cases hq : (m + 1) / 10 = 0
    · have hz : natDigitsAux f 0 = [] := by cases f <;> rfl
      rw [hq, hz]
      have hlt : m + 1 < 10 := by
        rcases Nat.lt_or_ge (m + 1) 10 with h | h
        · exact h
        · exact absurd hq (by
            have := Nat.div_le_div_right (c := 10) h
            simp at this
            omega)
      have hmod : (m + 1) % 10 = m + 1 := Nat.mod_eq_of_lt hlt
      obtain ⟨hdig, htn, hnz⟩ := digitChar_spec ((m + 1) % 10)
        (Nat.mod_lt _ (by omega))
      refine ⟨Char.ofNat (48 + (m + 1) % 10), [], rfl, hdig,
        hnz (by omega), ?_, ?_⟩
      · intro c hc
        simp at hc
        rw [hc]
        exact hdig
      · unfold digitsVal
        simp [htn]
        omega
    · have hlt : (m + 1) / 10 < m + 1 := Nat.div_lt_self (by omega) (by omega)
      obtain ⟨d, ds, heq, hd, hd0, hall, hval⟩ :=
        ih ((m + 1) / 10) (Nat.pos_of_ne_zero hq) (by omega)
      rw [heq]
      obtain ⟨hdig, htn, _⟩ := digitChar_spec ((m + 1) % 10)
        (Nat.mod_lt _ (by omega))
      refine ⟨d, ds ++ [Char.ofNat (48 + (m + 1) % 10)], by simp, hd, hd0,
        ?_, ?_⟩
      · intro c hc
        rcases List.mem_cons.mp hc with h | h
        · rw [h]; exact hd
        rcases List.mem_append.mp h with h | h
        · exact hall c (by simp [h])
        · simp at h
          rw [h]
          exact hdig
      · rw [show d :: (ds ++ [Char.ofNat (48 + (m + 1) % 10)]) =
          (d :: ds) ++ [Char.ofNat (48 + (m + 1) % 10)] from by simp]
        rw [digitsVal_append, hval, htn]
        omega

/-- A digit run followed by a safe continuation is taken whole. -/
theorem takeDigits_append : ∀ (ds rest : List Char),
    (∀ c ∈ ds, isDigitC c = true) → restSafe rest = true →
    takeDigits (ds ++ rest) = (ds, rest) := by
  intro ds
  induction ds with
  | nil =>
    intro rest _ hrest
    cases rest with
    | nil => rfl
    | cons c r =>
      unfold restSafe at hrest
      simp only [Bool.and_eq_true, Bool.not_eq_eq_eq_not, Bool.not_true,
        decide_eq_true_eq] at hrest
      rw [List.nil_append]
      unfold takeDigits
      rw [hrest.1.1.1]
      rfl
  | cons d ds ih =>
    intro rest hds hrest
    rw [List.cons_append]
    unfold takeDigits
    rw [hds d (by simp)]
    rw [ih rest (fun c hc => hds c (by simp [hc])) hrest]
    rfl

/-- No fraction part starts at a safe continuation. -/
theorem parseFracPart_safe (rest : List Char) (h : restSafe rest = true) :
    parseFracPart rest = none := by
  cases rest with
  | nil => rfl
  | cons c r =>
    unfold restSafe at h
    simp only [Bool.and_eq_true, Bool.not_eq_eq_eq_not, Bool.not_true,
      decide_eq_true_eq] at h
    unfold parseFracPart
    split
    · rename_i cs heq
      rw [show c = '.' from (List.cons.injEq _ _ _ _ ▸ heq).1] at h
      exact absurd rfl h.1.1.2
    · rfl

/-- No exponent part starts at a safe continuation. -/
theorem parseExpPart_safe (rest : List Char) (h : restSafe rest = true) :
    parseExpPart rest = none := by
  cases rest with
  | nil => rfl
  | cons c r =>
    unfold restSafe at h
    simp only [Bool.and_eq_true, Bool.not_eq_eq_eq_not, Bool.not_true,
      decide_eq_true_eq] at h
    unfold parseExpPart
    dsimp only
    rw [decide_eq_false h.1.2, decide_eq_false h.2]
    rfl

/-- The integer-part scan takes exactly a digit run with a nonzero lead. -/
theorem parseIntPart_run (d : Char) (ds rest : List Char)
    (hd : isDigitC d = true) (hd0 : d ≠ '0')
    (hds : ∀ c ∈ ds, isDigitC c = true) (hrest : restSafe rest = true) :
    parseIntPart (d :: ds ++ rest) = some (d :: ds, rest) := by
  unfold parseIntPart
  split
  · rename_i cs heq
    rw [show d = '0' from (List.cons.injEq _ _ _ _ ▸ heq).1] at hd0
    exact absurd rfl hd0
  · rename_i c cs heq
    obtain ⟨h1, h2⟩ := List.cons.injEq _ _ _ _ ▸ heq
    rw [← h1, hd]
    rw [← h2, show ds.append rest = ds ++ rest from rfl,
      takeDigits_append ds rest hds hrest]
    rfl
  · rename_i heq
    exact absurd heq (by simp)

/-- Number scan of a nonnegative digit run already accepted by the
integer-part scan. -/
theorem parseNumber_pos (l rest : List Char) (p : Nat)
    (hne : l ≠ []) (hl : ∀ c ∈ l, isDigitC c = true)
    (hip : parseIntPart (l ++ rest) = some (l, rest))
    (hrest : restSafe rest = true) :
    parseNumber (l ++ rest) p =
      .ok (.int (digitsVal l : Int), rest, p + l.length) := by
  unfold parseNumber
  split
  · rename_i cs1 heq
    cases l with
    | nil => exact absurd rfl hne
    | cons d l2 =>
      have hd : d = '-' := (List.cons.injEq _ _ _ _ ▸ heq).1
      have := hl d (by simp)
      rw [hd] at this
      exact absurd this (by decide)
  · dsimp only
    rw [hip]
    dsimp only
    rw [parseFracPart_safe rest hrest, parseExpPart_safe rest hrest]
    rfl

/-- Number scan of a zero literal. -/
theorem parseNumber_zero (rest : List Char) (p : Nat)
    (hrest : restSafe rest = true) :
    parseNumber ('0' :: rest) p = .ok (.int 0, rest, p + 1) := by
  have h := parseNumber_pos ['0'] rest p (by simp)
    (by intro c hc; simp at hc; rw [hc]; decide) rfl hrest
  simpa using h

/-- Number scan of a positive digit run. -/
theorem parseNumber_digits (d : Char) (ds rest : List Char) (p : Nat)
    (hd : isDigitC d = true) (hd0 : d ≠ '0')
    (hds : ∀ c ∈ ds, isDigitC c = true) (hrest : restSafe rest = true) :
    parseNumber (d :: ds ++ rest) p =
      .ok (.int (digitsVal (d :: ds) : Int), rest, p + (d :: ds).length) := by
  exact parseNumber_pos (d :: ds) rest p (by simp)
    (by
      intro c hc
      rcases List.mem_cons.mp hc with h | h
      · rw [h]; exact hd
      · exact hds c h)
    (parseIntPart_run d ds rest hd hd0 hds hrest) hrest

/-- Number scan of a negative digit run. -/
theorem parseNumber_neg (d : Char) (ds rest : List Char) (p : Nat)
    (hd : isDigitC d = true) (hd0 : d ≠ '0')
    (hds : ∀ c ∈ ds, isDigitC c = true) (hrest : restSafe rest = true) :
    parseNumber ('-' :: (d :: ds ++ rest)) p =
      .ok (.int (-(digitsVal (d :: ds) : Int)), rest,
        p + 1 + (d :: ds).length) := by
  unfold parseNumber
  split
  · rename_i cs1 heq
    have h2 : d :: ds ++ rest = cs1 := (List.cons.injEq _ _ _ _ ▸ heq).2
    rw [← h2]
    dsimp only
    rw [parseIntPart_run d ds rest hd hd0 hds hrest]
    dsimp only
    rw [parseFracPart_safe rest hrest, parseExpPart_safe rest hrest]
    rfl
  · rename_i hno
    exact absurd rfl (hno (d :: ds ++ rest))

/-- A plain character is rendered verbatim by the dumps escaper. -/
theorem escChar_plain (c : Char) (h : plainChar c = true) : escChar c = [c] := by
  unfold plainChar at h
  simp only [Bool.and_eq_true, decide_eq_true_eq] at h
  obtain ⟨⟨⟨hge, hle⟩, hq⟩, hb⟩ := h
  have hn : c ≠ '\n' := fun hc => by rw [hc] at hge; exact absurd hge (by decide)
  have hr : c ≠ '\r' := fun hc => by rw [hc] at hge; exact absurd hge (by decide)
  have ht : c ≠ '\t' := fun hc => by rw [hc] at hge; exact absurd hge (by decide)
  have h8 : c ≠ '\x08' := fun hc => by
    rw [hc] at hge; exact absurd hge (by decide)
  have hc12 : c ≠ '\x0c' := fun hc => by
    rw [hc] at hge; exact absurd hge (by decide)
  unfold escChar
  rw [if_neg hq, if_neg hb, if_neg hn, if_neg hr, if_neg ht, if_neg h8,
    if_neg hc12, if_neg]
  simp only [Bool.or_eq_true, decide_eq_true_eq, not_or]
  omega

/-- The dumps rendering of a plain string body is the body itself. -/
theorem flatMap_escChar_plain : ∀ (l : List Char),
    (∀ c ∈ l, plainChar c = true) → l.flatMap escChar = l := by
  intro l
  induction l with
  | nil => intro _; rfl
  | cons c t ih =>
    intro h
    rw [List.flatMap_cons, escChar_plain c (h c (by simp)),
      ih (fun x hx => h x (by simp [hx]))]
    rfl

/-- The string-body scanner reads a plain body up to the closing quote. -/
theorem parseStrChars_plain (bg : Nat) : ∀ (l rest : List Char) (p : Nat)
    (acc : List Char), (∀ c ∈ l, plainChar c = true) →
    parseStrChars bg (l ++ '"' :: rest) p acc =
      .ok (⟨acc.reverse ++ l⟩, rest, p + l.length + 1) := by
  intro l
  induction l with
  | nil =>
    intro rest p acc _
    rw [show ([] : List Char) ++ '"' :: rest = '"' :: rest from rfl]
    unfold parseStrChars
    rw [if_pos rfl]
    simp
  | cons c t ih =>
    intro rest p acc hpl
    have hc := hpl c (by simp)
    unfold plainChar at hc
    simp only [Bool.and_eq_true, decide_eq_true_eq] at hc
    obtain ⟨⟨⟨hge, hle⟩, hq⟩, hb⟩ := hc
    rw [List.cons_append]
    unfold parseStrChars
    rw [if_neg hq, if_neg hb, if_neg (by omega)]
    rw [ih rest (p + 1) (c :: acc) (fun x hx => hpl x (by simp [hx]))]
    simp only [List.reverse_cons, List.append_assoc, List.singleton_append,
      List.length_cons]
    rw [show p + 1 + t.length + 1 = p + (t.length + 1) + 1 from by omega]

/-- Digits are not whitespace. -/
theorem digit_not_ws (c : Char) (h : isDigitC c = true) :
    isJsonWs c = false := by
  unfold isJsonWs
  have h1 : c ≠ ' ' := fun hc => by rw [hc] at h; exact absurd h (by decide)
  have h2 : c ≠ '\t' := fun hc => by rw [hc] at h; exact absurd h (by decide)
  have h3 : c ≠ '\n' := fun hc => by rw [hc] at h; exact absurd h (by decide)
  have h4 : c ≠ '\r' := fun hc => by rw [hc] at h; exact absurd h (by decide)
  simp [h1, h2, h3, h4]

/-- The first character of a rendering: never whitespace, never a closing
bracket. -/
theorem dumpHead (j : Json) (hp : jplain j = true) :
    ∃ c cs, dumpJson j = c :: cs ∧ isJsonWs c = false ∧ c ≠ ']' := by
  cases j with
  | null => exact ⟨'n', _, rfl, by decide, by decide⟩
  | bool b =>
    cases b with
    | true => exact ⟨'t', _, rfl, by decide, by decide⟩
    | false => exact ⟨'f', _, rfl, by decide, by decide⟩
  | int n =>
    by_cases h0 : n = 0
    · exact ⟨'0', [], by rw [h0]; rfl, by decide, by decide⟩
    by_cases hneg : n < 0
    · refine ⟨'-', natDigits n.natAbs, ?_, by decide, by decide⟩
      rw [show dumpJson (.int n) = intRepr n from rfl]
      unfold intRepr
      rw [if_neg h0, if_pos hneg]
    · obtain ⟨d, ds, heq, hd, _, _, _⟩ := natDigitsAux_spec n.natAbs n.natAbs
        (by omega) (le_refl _)
      refine ⟨d, ds, ?_, ?_, ?_⟩
      · rw [show dumpJson (.int n) = intRepr n from rfl]
        unfold intRepr
        rw [if_neg h0, if_neg hneg]
        exact heq
      · exact digit_not_ws d hd
      · exact fun hc => by rw [hc] at hd; exact absurd hd (by decide)
  | float q => exact absurd hp (by simp [jplain])
  | str s => exact ⟨'"', _, rfl, by decide, by decide⟩
  | arr l => exact ⟨'[', _, rfl, by decide, by decide⟩
  | obj kvs => exact ⟨'\x7b', _, rfl, by decide, by decide⟩

/-- Inserting a fresh key appends the binding. -/
theorem objInsert_fresh (acc : List (String × Json)) (k : String) (v : Json)
    (h : acc.any (fun q => q.1 = k) = false) :
    objInsert acc k v = acc ++ [(k, v)] := by
  unfold objInsert
  rw [h]
  rfl

/-- The body of the object rendering from just past the first key's opening
quote. -/
def membersBody : List (String × Json) → List Char
  | [] => []
  | [(k, v)] => k.data ++ '"' :: ':' :: ' ' :: dumpJson v
  | (k, v) :: m :: kvs =>
    k.data ++ '"' :: ':' :: ' ' :: dumpJson v ++ ',' :: ' ' :: '"' ::
      membersBody (m :: kvs)

/-- The object-body rendering opens with the first key's quote. -/
theorem dumpMembers_body : ∀ (m : List (String × Json)), m ≠ [] →
    jplainM m = true → dumpMembers m = '"' :: membersBody m := by
  intro m
  induction m with
  | nil => intro h _; exact absurd rfl h
  | cons kv rest ih =>
    intro _ hpl
    obtain ⟨k, v⟩ := kv
    unfold jplainM at hpl
    simp only [Bool.and_eq_true] at hpl
    have hk : k.data.flatMap escChar = k.data :=
      flatMap_escChar_plain k.data
        (fun c hc => by
          have := hpl.1.1
          rw [List.all_eq_true] at this
          exact this c hc)
    cases rest with
    | nil =>
      rw [show dumpMembers [(k, v)] = dumpStr k ++ ':' :: ' ' :: dumpJson v
        from rfl]
      unfold dumpStr
      rw [hk]
      rw [show membersBody [(k, v)] = k.data ++ '"' :: ':' :: ' ' ::
        dumpJson v from rfl]
      simp
    | cons m2 kvs =>
      rw [show dumpMembers ((k, v) :: m2 :: kvs) = dumpStr k ++ ':' :: ' ' ::
        dumpJson v ++ ',' :: ' ' :: dumpMembers (m2 :: kvs) from rfl]
      unfold dumpStr
      rw [hk]
      rw [ih (by simp) hpl.2]
      rw [show membersBody ((k, v) :: m2 :: kvs) = k.data ++ '"' :: ':' ::
        ' ' :: dumpJson v ++ ',' :: ' ' :: '"' :: membersBody (m2 :: kvs)
        from rfl]
      simp

/-- The array-body rendering opens with the first element's rendering. -/
theorem dumpArr_cons_eq (y : Json) (xs : List Json) :
    ∃ t, dumpArr (y :: xs) = dumpJson y ++ t := by
  cases xs with
  | nil => exact ⟨[], by rw [show dumpArr [y] = dumpJson y from rfl]; simp⟩
  | cons z zs =>
    exact ⟨',' :: ' ' :: dumpArr (z :: zs), rfl⟩

/-- Renderings are never empty. -/
theorem dumpJson_ne_nil (j : Json) : dumpJson j ≠ [] := by
  cases j with
  | null => simp [dumpJson]
  | bool b => cases b <;> simp [dumpJson]
  | int n =>
    rw [show dumpJson (.int n) = intRepr n from rfl]
    unfold intRepr
    by_cases h0 : n = 0
    · simp [h0]
    by_cases hneg : n < 0
    · simp [h0, hneg]
    · rw [if_neg h0, if_neg hneg]
      obtain ⟨d, ds, heq, _, _, _, _⟩ := natDigitsAux_spec n.natAbs n.natAbs
        (by omega) (le_refl _)
      rw [show natDigits n.natAbs = natDigitsAux n.natAbs n.natAbs from rfl,
        heq]
      simp
  | float q =>
    rw [show dumpJson (.float q) = floatRepr q from rfl]
    unfold floatRepr
    by_cases h : q.mant.natAbs % 10 ^ q.exp = 0
    · simp [h]
    · rw [if_neg h]
      simp
  | str s => simp [dumpJson, dumpStr]
  | arr l => simp [dumpJson]
  | obj kvs => simp [dumpJson]

mutual

/-- The fuel measure is bounded by the rendering length. -/
theorem jneed_le_len : ∀ j : Json, jneed j ≤ (dumpJson j).length + 1
  | .null => by rw [show jneed .null = 1 from rfl]; omega
  | .bool b => by rw [show jneed (.bool b) = 1 from rfl]; omega
  | .int n => by rw [show jneed (.int n) = 1 from rfl]; omega
  | .float q => by rw [show jneed (.float q) = 1 from rfl]; omega
  | .str s => by rw [show jneed (.str s) = 1 from rfl]; omega
  | .arr l => by
    rw [show jneed (.arr l) = 1 + jneedL l from rfl,
      show dumpJson (.arr l) = '[' :: dumpArr l ++ [']'] from rfl]
    have h := jneedL_le_len l
    simp only [List.length_cons, List.length_append, List.length_singleton]
    omega
  | .obj kvs => by
    rw [show jneed (.obj kvs) = 1 + jneedM kvs from rfl,
      show dumpJson (.obj kvs) = '\x7b' :: dumpMembers kvs ++ ['\x7d']
        from rfl]
    have h := jneedM_le_len kvs
    simp only [List.length_cons, List.length_append, List.length_singleton]
    omega

/-- The element-loop fuel measure is bounded by the body length. -/
theorem jneedL_le_len : ∀ l : List Json, jneedL l ≤ (dumpArr l).length + 2
  | [] => by rw [show jneedL [] = 0 from rfl]; omega
  | [x] => by
    rw [show jneedL [x] = 1 + max (jneed x) (jneedL []) from rfl,
      show jneedL [] = 0 from rfl,
      show dumpArr [x] = dumpJson x from rfl]
    have h := jneed_le_len x
    omega
  | x :: y :: xs => by
    rw [show jneedL (x :: y :: xs) = 1 + max (jneed x) (jneedL (y :: xs))
        from rfl,
      show dumpArr (x :: y :: xs) = dumpJson x ++ ',' :: ' ' ::
        dumpArr (y :: xs) from rfl]
    have h1 := jneed_le_len x
    have h2 := jneedL_le_len (y :: xs)
    simp only [List.length_append, List.length_cons]
    omega

/-- The member-loop fuel measure is bounded by the body length. -/
theorem jneedM_le_len : ∀ m : List (String × Json),
    jneedM m ≤ (dumpMembers m).length + 2
  | [] => by rw [show jneedM [] = 0 from rfl]; omega
  | [(k, v)] => by
    rw [show jneedM [(k, v)] = 1 + max (jneed v) (jneedM []) from rfl,
      show jneedM [] = 0 from rfl,
      show dumpMembers [(k, v)] = dumpStr k ++ ':' :: ' ' :: dumpJson v
        from rfl]
    have h := jneed_le_len v
    simp only [List.length_append, List.length_cons]
    omega
  | (k, v) :: m2 :: kvs => by
    rw [show jneedM ((k, v) :: m2 :: kvs) =
        1 + max (jneed v) (jneedM (m2 :: kvs)) from rfl,
      show dumpMembers ((k, v) :: m2 :: kvs) = dumpStr k ++ ':' :: ' ' ::
        dumpJson v ++ ',' :: ' ' :: dumpMembers (m2 :: kvs) from rfl]
    have h1 := jneed_le_len v
    have h2 := jneedM_le_len (m2 :: kvs)
    simp only [List.length_append, List.length_cons]
    omega

end

/-- Every value needs at least one unit of fuel. -/
theorem jneed_pos (j : Json) : 1 ≤ jneed j := by
  cases j with
  | null => exact le_refl 1
  | bool b => exact le_refl 1
  | int n => exact le_refl 1
  | float q => exact le_refl 1
  | str s => exact le_refl 1
  | arr l => rw [show jneed (.arr l) = 1 + jneedL l from rfl]; omega
  | obj kvs => rw [show jneed (.obj kvs) = 1 + jneedM kvs from rfl]; omega

/-- One whitespace step of the scanner. -/
theorem skipWs_space (l : List Char) (q : Nat) (c : Char) (cs : List Char)
    (hl : l = c :: cs) (hws : isJsonWs c = false) :
    skipWs (' ' :: l) q = (l, q + 1) := by
  unfold skipWs
  rw [show isJsonWs ' ' = true from rfl]
  rw [hl, skipWs_not_ws c cs (q + 1) hws]
  rfl

/-- The array body followed by anything starts with a non-whitespace
character. -/
theorem dumpArr_head (y : Json) (ys : List Json) (R : List Char)
    (hy : jplain y = true) :
    ∃ c cs, dumpArr (y :: ys) ++ R = c :: cs ∧ isJsonWs c = false := by
  obtain ⟨t, ht⟩ := dumpArr_cons_eq y ys
  obtain ⟨c, cs', hd, hws, _⟩ := dumpHead y hy
  exact ⟨c, cs' ++ (t ++ R), by rw [ht, hd]; simp, hws⟩

/-- One member step: on input `key ++ '"' :: ':' :: ' ' :: tail` the member
loop scans the plain key, the closing quote, the colon and the space, and
continues with the value scanner on `tail`. -/
theorem parseMembers_key (fuel : Nat) (acc : List (String × Json))
    (kd tail : List Char) (p kq : Nat)
    (hkd : ∀ c ∈ kd, plainChar c = true) :
    parseMembers (fuel + 1) acc (kd ++ '"' :: ':' :: ' ' :: tail) p kq =
      match skipWs tail (p + kd.length + 3) with
      | (r3, p3) =>
        match parseValue fuel r3 p3 with
        | .error e => .error e
        | .ok (v, r4, p4) =>
          match skipWs r4 p4 with
          | ('\x7d' :: r5, p5) =>
            .ok (.obj (objInsert acc ⟨kd⟩ v), r5, p5 + 1)
          | (',' :: r5, p5) =>
            match skipWs r5 (p5 + 1) with
            | ('"' :: r6, p6) =>
              parseMembers fuel (objInsert acc ⟨kd⟩ v) r6 (p6 + 1) p6
            | (_, p6) => .error ⟨JErrKind.expPropName, p6⟩
          | (_, p5) => .error ⟨JErrKind.expComma, p5⟩ := by
  conv_lhs => unfold parseMembers
  rw [parseStrChars_plain kq kd (':' :: ' ' :: tail) p [] hkd]
  rfl

/-- The scanner reads back every plain rendering: values, element lists and
member lists, by induction on the fuel. -/
theorem parse_dump_master : ∀ fuel : Nat,
    (∀ (j : Json) (rest : List Char) (p : Nat), jplain j = true →
      jneed j ≤ fuel → restSafe rest = true →
      ∃ p2, parseValue fuel (dumpJson j ++ rest) p = .ok (j, rest, p2)) ∧
    (∀ (l acc : List Json) (rest : List Char) (p : Nat),
      l ≠ [] → jplainL l = true → jneedL l ≤ fuel →
      ∃ p2, parseItems fuel acc (dumpArr l ++ ']' :: rest) p =
        .ok (.arr (acc ++ l), rest, p2)) ∧
    (∀ (m acc : List (String × Json)) (rest : List Char) (p kq : Nat),
      m ≠ [] → jplainM m = true → jneedM m ≤ fuel →
      (m.map Prod.fst).Nodup →
      (∀ k2 ∈ m.map Prod.fst, acc.any (fun q => q.1 = k2) = false) →
      ∃ p2, parseMembers fuel acc (membersBody m ++ '\x7d' :: rest) p kq =
        .ok (.obj (acc ++ m), rest, p2)) := by
  intro fuel
  induction fuel with
  | zero =>
    refine ⟨?_, ?_, ?_⟩
    · intro j rest p _ hle _
      have := jneed_pos j
      omega
    · intro l acc rest p hne _ hle
      cases l with
      | nil => exact absurd rfl hne
      | cons x xs =>
        rw [show jneedL (x :: xs) = 1 + max (jneed x) (jneedL xs)
          from rfl] at hle
        omega
    · intro m acc rest p kq hne _ hle _ _
      cases m with
      | nil => exact absurd rfl hne
      | cons kv kvs =>
        obtain ⟨k, v⟩ := kv
        rw [show jneedM ((k, v) :: kvs) = 1 + max (jneed v) (jneedM kvs)
          from rfl] at hle
        omega
  | succ fuel ih =>
    obtain ⟨ihV, ihI, ihM⟩ := ih
    have hvalue : ∀ (j : Json) (rest : List Char) (p : Nat),
        jplain j = true → jneed j ≤ fuel + 1 → restSafe rest = true →
        ∃ p2, parseValue (fuel + 1) (dumpJson j ++ rest) p =
          .ok (j, rest, p2) := by
      intro j rest p hpl hle hrest
      cases j with
      | null =>
        refine ⟨p + 4, ?_⟩
        rw [show dumpJson Json.null ++ rest = 'n' :: 'u' :: 'l' :: 'l' ::
          rest from rfl]
        unfold parseValue
        simp [List.isPrefixOf]
      | bool b => cases b with
        | true =>
          refine ⟨p + 4, ?_⟩
          rw [show dumpJson (Json.bool true) ++ rest = 't' :: 'r' :: 'u' ::
            'e' :: rest from rfl]
          unfold parseValue
          simp [List.isPrefixOf]
        | false =>
          refine ⟨p + 5, ?_⟩
          rw [show dumpJson (Json.bool false) ++ rest = 'f' :: 'a' :: 'l' ::
            's' :: 'e' :: rest from rfl]
          unfold parseValue
          simp [List.isPrefixOf]
      | float q => exact absurd hpl (by simp [jplain])
      | int n =>
        by_cases h0 : n = 0
        · subst h0
          refine ⟨p + 1, ?_⟩
          rw [show dumpJson (.int 0) ++ rest = '0' :: rest from rfl]
          unfold parseValue
          show parseNumber ('0' :: rest) p = Except.ok (.int 0, rest, p + 1)
          exact parseNumber_zero rest p hrest
        · have hpos : 0 < n.natAbs := by omega
          obtain ⟨d, ds, heq, hd, hd0, hall, hval⟩ :=
            natDigitsAux_spec n.natAbs n.natAbs hpos (le_refl _)
          have hdig : ∀ c ∈ ds, isDigitC c = true :=
            fun c hc => hall c (by simp [hc])
          by_cases hneg : n < 0
          · have hdump : dumpJson (.int n) = '-' :: (d :: ds) := by
              rw [show dumpJson (.int n) = intRepr n from rfl]
              unfold intRepr
              rw [if_neg h0, if_pos hneg,
                show natDigits n.natAbs = natDigitsAux n.natAbs n.natAbs
                  from rfl, heq]
            refine ⟨p + 1 + (d :: ds).length, ?_⟩
            rw [hdump,
              show ('-' :: (d :: ds)) ++ rest = '-' :: (d :: ds ++ rest)
                from rfl]
            unfold parseValue
            show parseNumber ('-' :: (d :: ds ++ rest)) p =
              Except.ok (.int n, rest, p + 1 + (d :: ds).length)
            rw [parseNumber_neg d ds rest p hd hd0 hdig hrest]
            have hn : -(digitsVal (d :: ds) : Int) = n := by
              rw [hval]; omega
            rw [hn]
          · have hdump : dumpJson (.int n) = d :: ds := by
              rw [show dumpJson (.int n) = intRepr n from rfl]
              unfold intRepr
              rw [if_neg h0, if_neg hneg,
                show natDigits n.natAbs = natDigitsAux n.natAbs n.natAbs
                  from rfl, heq]
            have h1 : ¬ (d = '"') := fun hc => by
              rw [hc] at hd; exact absurd hd (by decide)
            have h2 : ¬ (d = '\x7b') := fun hc => by
              rw [hc] at hd; exact absurd hd (by decide)
            have h3 : ¬ (d = '[') := fun hc => by
              rw [hc] at hd; exact absurd hd (by decide)
            have h4 : ¬ (d = 't') := fun hc => by
              rw [hc] at hd; exact absurd hd (by decide)
            have h5 : ¬ (d = 'f') := fun hc => by
              rw [hc] at hd; exact absurd hd (by decide)
            have h6 : ¬ (d = 'n') := fun hc => by
              rw [hc] at hd; exact absurd hd (by decide)
            refine ⟨p + (d :: ds).length, ?_⟩
            rw [hdump, show (d :: ds) ++ rest = d :: (ds ++ rest) from rfl]
            unfold parseValue
            dsimp only
            rw [if_neg h1, if_neg h2, if_neg h3,
              decide_eq_false h4, decide_eq_false h5, decide_eq_false h6, hd]
            simp only [Bool.false_and, Bool.false_eq_true, if_false,
              Bool.or_true, if_true]
            rw [show d :: (ds ++ rest) = d :: ds ++ rest from rfl]
            rw [parseNumber_digits d ds rest p hd hd0 hdig hrest]
            have hn : (digitsVal (d :: ds) : Int) = n := by
              rw [hval]; omega
            rw [hn]
      | str s =>
        have hplains : ∀ c ∈ s.data, plainChar c = true := by
          rw [show jplain (.str s) = s.data.all plainChar from rfl] at hpl
          exact List.all_eq_true.mp hpl
        have hds : dumpJson (.str s) = '"' :: (s.data ++ ['"']) := by
          rw [show dumpJson (.str s) = dumpStr s from rfl]
          unfold dumpStr
          rw [flatMap_escChar_plain s.data hplains]
          rfl
        refine ⟨p + 1 + s.data.length + 1, ?_⟩
        rw [hds, show ('"' :: (s.data ++ ['"'])) ++ rest =
          '"' :: (s.data ++ '"' :: rest) from by
            simp only [List.cons_append, List.append_assoc, List.singleton_append,
              List.nil_append]]
        unfold parseValue
        dsimp only
        rw [if_pos rfl]
        rw [parseStrChars_plain p s.data rest (p + 1) [] hplains]
        dsimp only
        simp only [List.reverse_nil, List.nil_append]
      | arr l =>
        cases l with
        | nil =>
          refine ⟨p + 2, ?_⟩
          rw [show dumpJson (.arr []) ++ rest = '[' :: ']' :: rest from rfl]
          unfold parseValue
          rfl
        | cons x xs =>
          rw [show jplain (.arr (x :: xs)) = jplainL (x :: xs) from rfl]
            at hpl
          rw [show jneed (.arr (x :: xs)) = 1 + jneedL (x :: xs) from rfl]
            at hle
          have hplx : jplain x = true := by
            rw [show jplainL (x :: xs) = (jplain x && jplainL xs) from rfl]
              at hpl
            exact (Bool.and_eq_true_iff.mp hpl).1
          obtain ⟨c, cs2, hhead, hws⟩ :=
            dumpArr_head x xs (']' :: rest) hplx
          obtain ⟨p2, hitems⟩ := ihI (x :: xs) [] rest (p + 1) (by simp)
            hpl (by omega)
          refine ⟨p2, ?_⟩
          rw [show dumpJson (.arr (x :: xs)) ++ rest =
            '[' :: (dumpArr (x :: xs) ++ ']' :: rest) from by
              rw [show dumpJson (.arr (x :: xs)) =
                '[' :: dumpArr (x :: xs) ++ [']'] from rfl]
              simp]
          unfold parseValue
          dsimp only
          rw [if_neg (show ¬('[' = '"') from by decide),
            if_neg (show ¬('[' = '\x7b') from by decide), if_pos rfl]
          rw [hhead, skipWs_not_ws c cs2 (p + 1) hws]
          rw [← hhead]
          split
          · rename_i r2 hbr
            rw [hhead] at hbr
            obtain ⟨t, ht⟩ := dumpArr_cons_eq x xs
            obtain ⟨cx, csx, hdx, _, hnb⟩ := dumpHead x hplx
            rw [ht, hdx] at hhead
            have : c = cx := by
              have := (List.cons.injEq _ _ _ _ ▸ (by
                simpa using hhead : cx :: (csx ++ (t ++ ']' :: rest)) =
                  c :: cs2)).1
              exact this.symm
            rw [this] at hbr
            exact absurd ((List.cons.injEq _ _ _ _ ▸ hbr).1) hnb
          · rename_i hno
            simpa using hitems
      | obj kvs =>
        cases kvs with
        | nil =>
          refine ⟨p + 2, ?_⟩
          rw [show dumpJson (.obj []) ++ rest = '\x7b' :: '\x7d' :: rest
            from rfl]
          unfold parseValue
          rfl
        | cons kv m2 =>
          rw [show jplain (.obj (kv :: m2)) = (jplainM (kv :: m2) &&
            decide (((kv :: m2).map Prod.fst).Nodup)) from rfl] at hpl
          obtain ⟨hplm, hnd⟩ := Bool.and_eq_true_iff.mp hpl
          rw [show jneed (.obj (kv :: m2)) = 1 + jneedM (kv :: m2) from rfl]
            at hle
          obtain ⟨p2, hmem⟩ := ihM (kv :: m2) [] rest (p + 2) (p + 1)
            (by simp) hplm (by omega) (of_decide_eq_true hnd)
            (by intro k2 _; rfl)
          refine ⟨p2, ?_⟩
          rw [show dumpJson (.obj (kv :: m2)) ++ rest =
            '\x7b' :: (dumpMembers (kv :: m2) ++ '\x7d' :: rest) from by
              rw [show dumpJson (.obj (kv :: m2)) =
                '\x7b' :: dumpMembers (kv :: m2) ++ ['\x7d'] from rfl]
              simp]
          rw [dumpMembers_body (kv :: m2) (by simp) hplm]
          unfold parseValue
          dsimp only
          rw [if_neg (show ¬('\x7b' = '"') from by decide), if_pos rfl]
          rw [show ('"' :: membersBody (kv :: m2)) ++ '\x7d' :: rest =
            '"' :: (membersBody (kv :: m2) ++ '\x7d' :: rest) from rfl]
          rw [skipWs_not_ws '"' _ (p + 1) (by decide)]
          rw [show ([] : List (String × Json)) ++ (kv :: m2) = kv :: m2
            from rfl] at hmem
          exact hmem
    refine ⟨hvalue, ?_, ?_⟩
    · intro l acc rest p hne hpl hle
      cases l with
      | nil => exact absurd rfl hne
      | cons x xs =>
        rw [show jplainL (x :: xs) = (jplain x && jplainL xs) from rfl]
          at hpl
        obtain ⟨hplx, hplxs⟩ := Bool.and_eq_true_iff.mp hpl
        rw [show jneedL (x :: xs) = 1 + max (jneed x) (jneedL xs) from rfl]
          at hle
        cases xs with
        | nil =>
          obtain ⟨p2, hx⟩ := ihV x (']' :: rest) p hplx (by omega) rfl
          refine ⟨p2 + 1, ?_⟩
          rw [show dumpArr [x] = dumpJson x from rfl]
          unfold parseItems
          rw [hx]
          dsimp only
          rw [skipWs_not_ws ']' rest p2 (by decide)]
          rfl
        | cons y ys =>
          obtain ⟨p2, hx⟩ := ihV x
            (',' :: ' ' :: (dumpArr (y :: ys) ++ ']' :: rest)) p hplx
            (by omega) rfl
          obtain ⟨c, cs2, hhead, hws⟩ := dumpArr_head y ys (']' :: rest)
            (by
              rw [show jplainL (y :: ys) = (jplain y && jplainL ys) from rfl]
                at hplxs
              exact (Bool.and_eq_true_iff.mp hplxs).1)
          obtain ⟨p3, hrest2⟩ := ihI (y :: ys) (acc ++ [x]) rest (p2 + 2)
            (by simp) hplxs (by omega)
          refine ⟨p3, ?_⟩
          rw [show dumpArr (x :: y :: ys) = dumpJson x ++ ',' :: ' ' ::
            dumpArr (y :: ys) from rfl]
          rw [show (dumpJson x ++ ',' :: ' ' :: dumpArr (y :: ys)) ++
            ']' :: rest = dumpJson x ++ (',' :: ' ' ::
              (dumpArr (y :: ys) ++ ']' :: rest)) from by simp]
          unfold parseItems
          rw [hx]
          dsimp only
          rw [skipWs_not_ws ',' _ p2 (by decide)]
          have hsw : skipWs (' ' :: (dumpArr (y :: ys) ++ ']' :: rest))
              (p2 + 1) = (dumpArr (y :: ys) ++ ']' :: rest, p2 + 2) :=
            skipWs_space _ (p2 + 1) c cs2 hhead hws
          show parseItems fuel (acc ++ [x])
              (skipWs (' ' :: (dumpArr (y :: ys) ++ ']' :: rest)) (p2 + 1)).1
              (skipWs (' ' :: (dumpArr (y :: ys) ++ ']' :: rest)) (p2 + 1)).2
            = Except.ok (Json.arr (acc ++ x :: y :: ys), rest, p3)
          rw [hsw]
          simpa using hrest2
    · intro m acc rest p kq hne hpl hle hnd hdisj
      cases m with
      | nil => exact absurd rfl hne
      | cons kv m2 =>
        obtain ⟨k, v⟩ := kv
        rw [show jplainM ((k, v) :: m2) = (k.data.all plainChar &&
          jplain v && jplainM m2) from rfl] at hpl
        have hsplit := Bool.and_eq_true_iff.mp hpl
        have hplk := (Bool.and_eq_true_iff.mp hsplit.1).1
        have hplv := (Bool.and_eq_true_iff.mp hsplit.1).2
        have hplm2 := hsplit.2
        rw [show jneedM ((k, v) :: m2) = 1 + max (jneed v) (jneedM m2)
          from rfl] at hle
        have hkfree : acc.any (fun q => q.1 = k) = false :=
          hdisj k (by simp)
        obtain ⟨cv, csv, hdv, hwsv, _⟩ := dumpHead v hplv
        cases m2 with
        | nil =>
          obtain ⟨p2, hv⟩ := ihV v ('\x7d' :: rest) (p + k.data.length + 3)
            hplv (by omega) rfl
          refine ⟨p2 + 1, ?_⟩
          rw [show membersBody [(k, v)] ++ '\x7d' :: rest =
            k.data ++ '"' :: ':' :: ' ' :: (dumpJson v ++ '\x7d' :: rest)
            from by
              rw [show membersBody [(k, v)] = k.data ++ '"' :: ':' :: ' ' ::
                dumpJson v from rfl]
              simp]
          rw [parseMembers_key fuel acc k.data (dumpJson v ++ '\x7d' :: rest)
            p kq (List.all_eq_true.mp hplk)]
          have hsw2 : skipWs (dumpJson v ++ '\x7d' :: rest)
              (p + k.data.length + 3) =
              (dumpJson v ++ '\x7d' :: rest, p + k.data.length + 3) := by
            rw [hdv]
            rw [show (cv :: csv) ++ '\x7d' :: rest =
              cv :: (csv ++ '\x7d' :: rest) from rfl]
            exact skipWs_not_ws cv _ _ hwsv
          rw [hsw2]
          dsimp only
          rw [hv]
          show Except.ok (Json.obj (objInsert acc k v), rest, p2 + 1) =
            Except.ok (Json.obj (acc ++ [(k, v)]), rest, p2 + 1)
          rw [objInsert_fresh acc k v hkfree]
        | cons kv2 m3 =>
          obtain ⟨p2, hv⟩ := ihV v
            (',' :: ' ' :: '"' :: (membersBody (kv2 :: m3) ++ '\x7d' :: rest))
            (p + k.data.length + 3) hplv (by omega) rfl
          have hnd2 : ((kv2 :: m3).map Prod.fst).Nodup := by
            rw [List.map_cons] at hnd
            exact hnd.of_cons
          have hknotin : k ∉ (kv2 :: m3).map Prod.fst := by
            rw [List.map_cons] at hnd
            exact (List.nodup_cons.mp hnd).1
          obtain ⟨p3, hrest2⟩ := ihM (kv2 :: m3) (acc ++ [(k, v)]) rest
            (p2 + 3) (p2 + 2) (by simp) hplm2 (by omega) hnd2
            (by
              intro k2 hk2
              rw [List.any_append]
              rw [hdisj k2 (by
                rw [List.map_cons]
                exact List.mem_cons_of_mem _ hk2)]
              have hne2 : k ≠ k2 := fun hc => hknotin (hc ▸ hk2)
              simp [hne2])
          refine ⟨p3, ?_⟩
          rw [show membersBody ((k, v) :: kv2 :: m3) ++ '\x7d' :: rest =
            k.data ++ '"' :: ':' :: ' ' :: (dumpJson v ++ ',' :: ' ' ::
              '"' :: (membersBody (kv2 :: m3) ++ '\x7d' :: rest))
            from by
              rw [show membersBody ((k, v) :: kv2 :: m3) = k.data ++ '"' ::
                ':' :: ' ' :: dumpJson v ++ ',' :: ' ' :: '"' ::
                  membersBody (kv2 :: m3) from rfl]
              simp]
          rw [parseMembers_key fuel acc k.data (dumpJson v ++ ',' :: ' ' ::
            '"' :: (membersBody (kv2 :: m3) ++ '\x7d' :: rest))
            p kq (List.all_eq_true.mp hplk)]
          have hsw2 : skipWs (dumpJson v ++ ',' :: ' ' :: '"' ::
              (membersBody (kv2 :: m3) ++ '\x7d' :: rest))
              (p + k.data.length + 3) =
              (dumpJson v ++ ',' :: ' ' :: '"' ::
                (membersBody (kv2 :: m3) ++ '\x7d' :: rest),
                p + k.data.length + 3) := by
            rw [hdv]
            rw [show (cv :: csv) ++ ',' :: ' ' :: '"' ::
              (membersBody (kv2 :: m3) ++ '\x7d' :: rest) =
              cv :: (csv ++ ',' :: ' ' :: '"' ::
                (membersBody (kv2 :: m3) ++ '\x7d' :: rest)) from rfl]
            exact skipWs_not_ws cv _ _ hwsv
          rw [hsw2]
          dsimp only
          rw [hv]
          show parseMembers fuel (objInsert acc k v)
              (membersBody (kv2 :: m3) ++ '\x7d' :: rest) (p2 + 3) (p2 + 2) =
            Except.ok (Json.obj (acc ++ (k, v) :: kv2 :: m3), rest, p3)
          rw [objInsert_fresh acc k v hkfree]
          rw [hrest2]
          simp

/-- Scanning a serialized plain value back yields exactly that value. -/
theorem pyLoads_pyDumps (j : Json) (hpl : jplain j = true) :
    pyLoads (pyDumps j) = .ok j := by
  obtain ⟨c, cs, hd, hws, _⟩ := dumpHead j hpl
  obtain ⟨p2, hp⟩ := (parse_dump_master (2 * (dumpJson j).length + 4)).1 j []
    0 hpl (by have := jneed_le_len j; omega) rfl
  rw [List.append_nil] at hp
  unfold pyLoads
  dsimp only
  rw [show (pyDumps j).data = dumpJson j from rfl]
  rw [hd, skipWs_not_ws c cs 0 hws, ← hd]
  dsimp only
  rw [hp]
  rfl

/-- A list is a Boolean prefix of itself followed by anything. -/
theorem isPrefixOf_append_self (pre : List Char) :
    ∀ rest : List Char, pre.isPrefixOf (pre ++ rest) = true := by
  induction pre with
  | nil => intro rest; simp [List.isPrefixOf]
  | cons c cs ih => intro rest; simp [List.isPrefixOf]

/-- A list is a Boolean suffix of anything followed by itself. -/
theorem isSuffixOf_append_self (suf X : List Char) :
    suf.isSuffixOf (X ++ suf) = true := by
  unfold List.isSuffixOf
  rw [List.reverse_append]
  exact isPrefixOf_append_self suf.reverse X.reverse

/-- Python strip leaves an object rendering alone: it opens with a brace and
closes with a brace, neither of which is whitespace. -/
theorem pyStripL_obj (kvs : List (String × Json)) :
    pyStripL (dumpJson (.obj kvs)) = dumpJson (.obj kvs) := by
  rw [show dumpJson (.obj kvs) = '\x7b' :: dumpMembers kvs ++ ['\x7d']
    from rfl]
  unfold pyStripL
  rw [show ('\x7b' :: dumpMembers kvs ++ ['\x7d']).reverse =
    '\x7d' :: ((dumpMembers kvs).reverse ++ ['\x7b']) from by simp]
  rw [show dropWhileC isPyWs
      ('\x7d' :: ((dumpMembers kvs).reverse ++ ['\x7b'])) =
      '\x7d' :: ((dumpMembers kvs).reverse ++ ['\x7b']) from by
    unfold dropWhileC
    rw [if_neg (show ¬(isPyWs '\x7d' = true) from by decide)]]
  rw [show ('\x7d' :: ((dumpMembers kvs).reverse ++ ['\x7b'])).reverse =
    '\x7b' :: (dumpMembers kvs ++ ['\x7d']) from by simp]
  rw [show dropWhileC isPyWs ('\x7b' :: (dumpMembers kvs ++ ['\x7d'])) =
      '\x7b' :: (dumpMembers kvs ++ ['\x7d']) from by
    unfold dropWhileC
    rw [if_neg (show ¬(isPyWs '\x7b' = true) from by decide)]]
  rfl

/-- Stripping the markdown fence from a fenced object rendering returns
exactly the rendering. -/
theorem clean_json_content_fence (kvs : List (String × Json)) :
    Synth.clean_json_content
      (.str ("```json\n" ++ pyDumps (.obj kvs) ++ "\n```")) =
      pyDumps (.obj kvs) := by
  unfold Synth.clean_json_content
  dsimp only
  rw [show ("```json\n" ++ pyDumps (.obj kvs) ++ "\n```").data =
    "```json\n".data ++ (dumpJson (.obj kvs) ++ "\n```".data) from by
      rw [show pyDumps (.obj kvs) = (⟨dumpJson (.obj kvs)⟩ : String)
        from rfl]
      simp]
  rw [if_pos (isPrefixOf_append_self _ _)]
  rw [show ("```json\n".data ++
      (dumpJson (.obj kvs) ++ "\n```".data)).drop 8 =
      dumpJson (.obj kvs) ++ "\n```".data from by
    rw [show (8 : Nat) = ("```json\n".data).length from rfl]
    exact List.drop_left _ _]
  rw [if_pos (isSuffixOf_append_self _ _)]
  rw [show (dumpJson (.obj kvs) ++ "\n```".data).length - 4 =
      (dumpJson (.obj kvs)).length from by simp]
  rw [List.take_left]
  rw [pyStripL_obj kvs]
  rfl

/-! Claim C6. -/

/-- C6: the round-trip through the repair engine holds for every plain
serialized object that the lexical-normalisation pass leaves unchanged:
re-wrapping the serialized output in a markdown fence and repairing again
returns the original structure. (The unamended claim fails when the
normalisation pass does rewrite the rendering, for example by collapsing
the doubled quote of an empty reasoning string; see the counterexample.) -/
theorem c6_roundtrip (ad : Json) (kvs : List (String × Json))
    (hobj : ad = .obj kvs) (hplain : jplain ad = true)
    (hfix : Synth.fixCommonIssues (pyDumps ad) = pyDumps ad) :
    Synth.parse_analysis_safely
      (.obj [("analysis", .str ("```json\n" ++ pyDumps ad ++ "\n```"))]) =
      some ad := by
  subst hobj
  have hS : ("```json\n" ++ pyDumps (.obj kvs) ++ "\n```") ≠ "" := by
    intro hc
    have hdata := congrArg String.data hc
    rw [show ("```json\n" ++ pyDumps (.obj kvs) ++ "\n```").data =
      "```json\n".data ++ (dumpJson (.obj kvs) ++ "\n```".data) from by
        rw [show pyDumps (.obj kvs) = (⟨dumpJson (.obj kvs)⟩ : String)
          from rfl]
        simp] at hdata
    exact List.noConfusion hdata
  have hD : pyDumps (.obj kvs) ≠ "" := by
    intro hc
    have hdata := congrArg String.data hc
    rw [show (pyDumps (.obj kvs)).data = dumpJson (.obj kvs) from rfl,
      show dumpJson (.obj kvs) = '\x7b' :: dumpMembers kvs ++ ['\x7d']
        from rfl] at hdata
    exact List.noConfusion hdata
  unfold Synth.parse_analysis_safely
  dsimp only
  rw [show jget
      (.obj [("analysis",
        .str ("```json\n" ++ pyDumps (.obj kvs) ++ "\n```"))]) "analysis" =
      some (.str ("```json\n" ++ pyDumps (.obj kvs) ++ "\n```")) from rfl]
  dsimp only
  rw [show truthy (.str ("```json\n" ++ pyDumps (.obj kvs) ++ "\n```")) =
    decide (("```json\n" ++ pyDumps (.obj kvs) ++ "\n```") ≠ "") from rfl]
  rw [decide_eq_true hS]
  rw [show (!true) = false from rfl]
  rw [if_neg (show ¬(false = true) from by decide)]
  rw [show Synth.getAnalysisStep
      (.str ("```json\n" ++ pyDumps (.obj kvs) ++ "\n```")) =
      .content (.str ("```json\n" ++ pyDumps (.obj kvs) ++ "\n```"))
    from rfl]
  dsimp only
  rw [show truthy (.str ("```json\n" ++ pyDumps (.obj kvs) ++ "\n```")) =
    decide (("```json\n" ++ pyDumps (.obj kvs) ++ "\n```") ≠ "") from rfl]
  rw [decide_eq_true hS]
  rw [show (!true) = false from rfl]
  rw [if_neg (show ¬(false = true) from by decide)]
  rw [clean_json_content_fence kvs]
  rw [if_neg hD]
  rw [hfix]
  rw [pyLoads_pyDumps (.obj kvs) hplain]

/-- A complete domain assessment with one empty reasoning string; the
direct-dict path of the repair engine returns it as is, so it is an output
the engine can produce. -/
def c6ad : Json := .obj [
  ("economic_indicators", .obj [("impact", .bool true), ("relevance", .int 9),
    ("reasoning", .str "CPI link")]),
  ("geopolitical_events", .obj [("impact", .bool false),
    ("relevance", .int 2), ("reasoning", .str "a")]),
  ("regulatory_changes", .obj [("impact", .bool false), ("relevance", .int 1),
    ("reasoning", .str "a")]),
  ("technological_developments", .obj [("impact", .bool false),
    ("relevance", .int 1), ("reasoning", .str "")])]

set_option maxRecDepth 100000 in
/-- C6 counterexample: the repair engine produces `c6ad` (direct-dict path),
but repairing its fenced serialization returns nothing at all — the
doubled-quote collapse of the lexical pass turns the empty reasoning string
into a lone quote, the re-parse fails, and the targeted repair does not
apply (the unterminated string does not directly follow a colon). -/
theorem c6_counterexample :
    Synth.parse_analysis_safely (.obj [("analysis", c6ad)]) = some c6ad ∧
    Synth.parse_analysis_safely
      (.obj [("analysis",
        .str ("```json\n" ++ pyDumps c6ad ++ "\n```"))]) = none := by
  constructor
  · rfl
  · rfl

/-- A one-domain assessment whose rendering the lexical pass fixes
nothing on. -/
def c6w : Json := .obj [
  ("economic_indicators", .obj [("impact", .bool true), ("relevance", .int 9),
    ("reasoning", .str "CPI link")])]

/-- Witness: the round-trip theorem applied to a concrete assessment. -/
theorem c6_witness :
    Synth.parse_analysis_safely
      (.obj [("analysis", .str ("```json\n" ++ pyDumps c6w ++ "\n```"))]) =
      some c6w :=
  c6_roundtrip c6w [
    ("economic_indicators", .obj [("impact", .bool true),
      ("relevance", .int 9), ("reasoning", .str "CPI link")])]
    rfl (by decide) (by decide)

/-! Claim C10. -/

/-- C10: an analysis value that is already a parsed dict without a `choices`
envelope and with all four required domain keys is returned by the repair
engine unchanged — no normalization, typo fix, quote collapsing or
structural repair touches it. -/
theorem c10_direct_dict_identity (market : Json) (l kvs : List (String × Json))
    (hm : market = .obj l)
    (ha : jget market "analysis" = some (.obj kvs))
    (hch : jhasKey (.obj kvs) "choices" = false)
    (hkeys : ∀ k ∈ Synth.requiredDomainKeys, jhasKey (.obj kvs) k = true) :
    Synth.parse_analysis_safely market = some (.obj kvs) := by
  subst hm
  have hne : kvs ≠ [] := by
    have h1 := hkeys "economic_indicators" (by simp [Synth.requiredDomainKeys])
    intro hc
    subst hc
    simp [jhasKey, jget] at h1
  have htr : truthy (.obj kvs) = true := by simp [truthy, hne]
  have hall : (Synth.requiredDomainKeys.all fun k => jhasKey (.obj kvs) k) = true :=
    List.all_eq_true.mpr hkeys
  have hstep : Synth.getAnalysisStep (.obj kvs) = .direct (.obj kvs) := by
    unfold Synth.getAnalysisStep
    rw [hch]
    simp only [Bool.false_eq_true, if_false, hall, if_true]
  unfold Synth.parse_analysis_safely
  rw [ha]
  simp only [htr, Bool.not_true, Bool.false_eq_true, if_false, hstep]

/-- C10 witness: the identity short-circuit evaluated on a concrete
market. -/
theorem c10_witness :
    Synth.parse_analysis_safely (.obj [("analysis", exFullAnalysis)]) =
      some exFullAnalysis :=
  c10_direct_dict_identity (.obj [("analysis", exFullAnalysis)])
    [("analysis", exFullAnalysis)]
    [("economic_indicators", .obj [("impact", .bool true),
      ("relevance", .int 5), ("reasoning", .str "")]),
    ("geopolitical_events", .obj [("impact", .bool true),
      ("relevance", .int 5), ("reasoning", .str "")]),
    ("regulatory_changes", .obj [("impact", .bool true),
      ("relevance", .int 5), ("reasoning", .str "")]),
    ("technological_developments", .obj [("impact", .bool true),
      ("relevance", .int 5), ("reasoning", .str "")])]
    rfl rfl rfl (by decide)

end PM
